import Mathlib

/-!
# helm-values-check: the reconciliation core of `internal/checker/checker.go`

A shallow embedding of the checker package and the properties of its
specification.

Modelling conventions
* A Go `string` is a `Str`, the list of its code points.  The texts handled by
  the checker are UTF-8; on such texts byte-wise prefix tests and byte-wise
  comparison coincide with the code-point-wise ones used here.
* A Go `map[string]struct{}` (a set of paths) is the list of its keys in the
  order in which a `range` loop happens to enumerate them.  Keys of a map are
  distinct, so theorems that depend on it assume `List.Nodup`.
* `nil` and empty slices are both the empty list.
-/

namespace Checker

/-- Go `string`: the sequence of code points of the text. -/
abbrev Str := List Char

/-! ## Library functions used by the checker -/

/-- Go `strings.HasPrefix(s, pre)`. -/
def HasPrefix (s pre : Str) : Bool := pre.isPrefixOf s

/-- Go `strings.Contains(s, sub)`. -/
def Contains : Str → Str → Bool
  | [], sub => sub.isEmpty
  | c :: cs, sub => HasPrefix (c :: cs) sub || Contains cs sub

/-- Go `strings.Join(keys, sep)`. -/
def Join : List Str → Str → Str
  | [], _ => []
  | [k], _ => k
  | k :: k2 :: ks, sep => k ++ sep ++ Join (k2 :: ks) sep

/-- Go's `<` on strings: lexicographic comparison, unit by unit. -/
def strLess : Str → Str → Bool
  | [], [] => false
  | [], _ :: _ => true
  | _ :: _, [] => false
  | a :: as, b :: bs =>
      if a.toNat < b.toNat then true
      else if b.toNat < a.toNat then false
      else strLess as bs

/-- The order `sort.Strings` sorts by: `a` may stand before `b` when `b < a` is false. -/
def StrLE (a b : Str) : Prop := strLess b a = false

instance : DecidableRel StrLE := fun a b => by unfold StrLE; infer_instance

/-- Go `sort.Strings`: the ascending rearrangement of the list. -/
def sortStrings (xs : List Str) : List Str := List.insertionSort StrLE xs

/-- Insertion of a key into a `map[string]struct{}`: `out[k] = struct{}{}`. -/
def setAdd (out : List Str) (k : Str) : List Str :=
  if k ∈ out then out else out ++ [k]

/-- Go `unicode.IsSpace`: the code points with the White_Space property. -/
def unicodeIsSpace (c : Char) : Bool :=
  let n := c.toNat
  (0x09 ≤ n && n ≤ 0x0d) || n == 0x20 || n == 0x85 || n == 0xA0 || n == 0x1680 ||
    (0x2000 ≤ n && n ≤ 0x200a) || n == 0x2028 || n == 0x2029 || n == 0x202f ||
    n == 0x205f || n == 0x3000

/-- Go `strings.TrimSpace`. -/
def TrimSpace (s : Str) : Str := (s.dropWhile unicodeIsSpace).rdropWhile unicodeIsSpace

/-- Go `strings.Trim(s, cutset)`. -/
def Trim (s cutset : Str) : Str :=
  (s.dropWhile (fun c => cutset.contains c)).rdropWhile (fun c => cutset.contains c)

/-- The scanning loop of `strings.Fields`; `cur` is the field being read. -/
def fieldsFrom : Str → Str → List Str
  | [], cur => if cur.isEmpty then [] else [cur]
  | c :: cs, cur =>
      if unicodeIsSpace c then
        (if cur.isEmpty then fieldsFrom cs [] else cur :: fieldsFrom cs [])
      else fieldsFrom cs (cur ++ [c])

/-- Go `strings.Fields`: the maximal runs of non-space characters. -/
def Fields (s : Str) : List Str := fieldsFrom s []

/-- Go `filepath.ToSlash` on a platform whose path separator is `Separator`. -/
def ToSlash (Separator : Char) (path : Str) : Str :=
  if Separator == '/' then path
  else path.map (fun c => if c == Separator then '/' else c)

/-! ## Regular expressions (Go `regexp`, leftmost-first semantics)

`matchAll r s` lists the states in which a match of `r` begun in state `s` can
end, in the order in which a backtracking search finds them; Go's `regexp`
returns, at the leftmost position where a match exists, the one such a search
finds first.  An iteration of `star` that consumes nothing is cut off; no
pattern of the checker has one. -/

/-- Abstract syntax of the patterns. -/
inductive Regex where
  | empty
  | cls (p : Char → Bool)
  | bot
  | eot
  | cat (a b : Regex)
  | alt (a b : Regex)
  | star (r : Regex)
  | group (i : Nat) (r : Regex)

/-- A state of the matcher: whether it stands at the beginning of the text, the
text still unread, and the captures recorded so far (latest first). -/
structure MState where
  atStart : Bool
  rest : Str
  caps : List (Nat × Str)
deriving DecidableEq

/-- Greedy iteration of `body`, at most `fuel` times. -/
def starLoop (body : MState → List MState) : Nat → MState → List MState
  | 0, s => [s]
  | fuel + 1, s =>
      ((body s).filter (fun s' => s'.rest.length < s.rest.length)).flatMap (starLoop body fuel) ++ [s]

/-- All ways to match `r` from a state, in backtracking order. -/
def matchAll : Regex → MState → List MState
  | .empty, s => [s]
  | .cls p, s =>
      match s.rest with
      | [] => []
      | c :: cs => if p c then [{ s with atStart := false, rest := cs }] else []
  | .bot, s => if s.atStart then [s] else []
  | .eot, s => if s.rest.isEmpty then [s] else []
  | .cat a b, s => (matchAll a s).flatMap (matchAll b)
  | .alt a b, s => matchAll a s ++ matchAll b s
  | .star r, s => starLoop (matchAll r) s.rest.length s
  | .group i r, s =>
      (matchAll r s).map (fun s' =>
        { s' with caps := (i, s.rest.take (s.rest.length - s'.rest.length)) :: s'.caps })

/-- Concatenation of a list of patterns. -/
def Regex.seq : List Regex → Regex
  | [] => .empty
  | r :: rs => .cat r (Regex.seq rs)

/-- The pattern `x+`. -/
def Regex.plus (r : Regex) : Regex := .cat r (.star r)

/-- A single literal character. -/
def Regex.chr (c : Char) : Regex := .cls (fun x => x == c)

/-- A literal string. -/
def Regex.lit : Str → Regex
  | [] => .empty
  | c :: cs => .cat (Regex.chr c) (Regex.lit cs)

/-- Number of capturing groups of a pattern. -/
def Regex.numGroups : Regex → Nat
  | .empty => 0
  | .cls _ => 0
  | .bot => 0
  | .eot => 0
  | .cat a b => max a.numGroups b.numGroups
  | .alt a b => max a.numGroups b.numGroups
  | .star r => r.numGroups
  | .group i r => max i r.numGroups

/-- The leftmost match at or after the current position: the text from the
start of the match, and the state at its end. -/
def search (re : Regex) : Bool → Str → Option (Str × MState)
  | atStart, [] => (matchAll re ⟨atStart, [], []⟩).head?.map (fun s => ([], s))
  | atStart, c :: cs =>
      match (matchAll re ⟨atStart, c :: cs, []⟩).head? with
      | some s => some (c :: cs, s)
      | none => search re false cs

/-- The slice of strings Go reports for a match: the whole match, then the
text of each group ("" for a group that took no part). -/
def submatches (re : Regex) (start : Str) (s : MState) : List Str :=
  start.take (start.length - s.rest.length) ::
    (List.range re.numGroups).map (fun i => ((s.caps.lookup (i + 1)).getD []))

/-- The loop of Go's `allMatches`: successive non-overlapping matches; an empty
match directly after the previous match is dropped.  `prevMatchEnd` is kept as
the length of the text that was unread at the end of the previous match. -/
def allMatches (re : Regex) : Nat → Bool → Str → Option Nat → List (List Str)
  | 0, _, _, _ => []
  | fuel + 1, atStart, rest, prevMatchEnd =>
      match search re atStart rest with
      | none => []
      | some (start, s) =>
          if s.rest.length = rest.length then
            let found := if prevMatchEnd = some start.length then [] else [submatches re start s]
            match rest with
            | [] => found
            | _ :: cs => found ++ allMatches re fuel false cs (some s.rest.length)
          else
            submatches re start s :: allMatches re fuel false s.rest (some s.rest.length)

/-- Go `(*Regexp).FindAllStringSubmatch(s, -1)`. -/
def FindAllStringSubmatch (re : Regex) (s : Str) : List (List Str) :=
  allMatches re (s.length + 1) true s none

/-- Go `(*Regexp).MatchString`. -/
def MatchString (re : Regex) (s : Str) : Bool := (search re true s).isSome

/-! ## The reconciler -/

/-- The function `definedButNotUsed` of checker.go. -/
def definedButNotUsed (defined used : List Str) : List Str :=
  if defined.length = 0 then []
  else
    let definedKeys := defined
    let usedKeys := used
    let out := definedKeys.foldl (fun out d =>
      let isContainer := definedKeys.any (fun other => other != d && HasPrefix other (d ++ ['.']))
      if isContainer then out
      else if d ∈ used then out
      else
        let skip := usedKeys.any (fun u => HasPrefix d (u ++ ['.']))
        if skip then out else out ++ [d]) []
    sortStrings out

/-- The function `usedButNotDefined` of checker.go. -/
def usedButNotDefined (used defined : List Str) : List Str :=
  if used.length = 0 then []
  else
    let definedKeys := defined
    let out := used.foldl (fun out u =>
      if u ∈ defined then out
      else if definedKeys.any (fun d => HasPrefix d (u ++ ['.'])) then out
      else out ++ [u]) []
    sortStrings out

/-! ## The checker -/

/-- The class `[A-Za-z0-9_]`. -/
def isWord (c : Char) : Bool :=
  ('A' ≤ c && c ≤ 'Z') || ('a' ≤ c && c ≤ 'z') || ('0' ≤ c && c ≤ '9') || c == '_'

/-- The class `\s` of Go's regexp: `[\t\n\f\r ]`. -/
def isReSpace (c : Char) : Bool :=
  c == '\t' || c == '\n' || c == Char.ofNat 12 || c == '\r' || c == ' '

/-- The pattern `[A-Za-z0-9_]`. -/
def reWord : Regex := .cls isWord

/-- The pattern `[^A-Za-z0-9_]`. -/
def reNonWord : Regex := .cls (fun c => !isWord c)

/-- The pattern `\s`. -/
def reSpace : Regex := .cls isReSpace

/-- The pattern `[^"]`. -/
def reNonQuote : Regex := .cls (fun c => !(c == '"'))

/-- The pattern `(?:^|[^A-Za-z0-9_])(?:\.|\$\.)` that opens two of the patterns. -/
def reMarker : List Regex :=
  [.alt .bot reNonWord, .alt (Regex.chr '.') (Regex.seq [Regex.chr '$', Regex.chr '.'])]

/-- The pattern `\.[A-Za-z0-9_]+`. -/
def rePathTail : Regex := Regex.seq [Regex.chr '.', Regex.plus reWord]

/-- The pattern `[A-Za-z0-9_]+(?:\.[A-Za-z0-9_]+)*`. -/
def rePath : Regex := Regex.seq [Regex.plus reWord, .star rePathTail]

/-- The pattern
`(?:^|[^A-Za-z0-9_])(?:\.|\$\.)Values\.([A-Za-z0-9_]+(?:\.[A-Za-z0-9_]+)*)`. -/
def dotAccessRe : Regex :=
  Regex.seq (reMarker ++ [Regex.lit "Values".toList, Regex.chr '.', .group 1 rePath])

/-- The pattern `index\s+\.Values\s+("([^"]+)"(?:\s+"([^"]+)")*)`. -/
def indexAccessRe : Regex :=
  Regex.seq
    [Regex.lit "index".toList, Regex.plus reSpace, Regex.chr '.', Regex.lit "Values".toList,
     Regex.plus reSpace,
     .group 1 (Regex.seq
       [Regex.chr '"', .group 2 (Regex.plus reNonQuote), Regex.chr '"',
        .star (Regex.seq [Regex.plus reSpace, Regex.chr '"',
                          .group 3 (Regex.plus reNonQuote), Regex.chr '"'])])]

/-- The pattern `(?:^|[^A-Za-z0-9_])(?:\.|\$\.)Values([^A-Za-z0-9_\.]|$)`. -/
def rootValuesRe : Regex :=
  Regex.seq (reMarker ++
    [Regex.lit "Values".toList,
     .group 1 (.alt (.cls (fun c => !(isWord c || c == '.'))) .eot)])

/-- A configuration key of a loosely typed mapping: a string, or something else. -/
inductive Key where
  | str (s : Str)
  | other (tag : Nat)
deriving DecidableEq

/-- A decoded value (`interface{}`): a `map[string]interface{}`, a
`map[interface{}]interface{}`, or anything else (scalar, list, nil).  The
entries of a mapping stand in the order in which `range` enumerates them. -/
inductive Value where
  | leaf
  | strMap (entries : List (Str × Value))
  | anyMap (entries : List (Key × Value))

/-- The type `chart.File`: a named block of template text. -/
structure File where
  Name : Str
  Data : Str
deriving DecidableEq

/-- The fields of `chart.Chart` the checker reads. -/
structure Chart where
  Values : List (Str × Value)
  Templates : List File

/-- The type `Config` of checker.go. -/
structure Config where
  IncludeSubcharts : Bool
deriving DecidableEq

/-- The type `Result` of checker.go. -/
structure Result where
  DefinedNotUsed : List Str
  UsedNotDefined : List Str
deriving DecidableEq

mutual
/-- The function `flattenValues` of checker.go; `out` is returned updated. -/
def flattenValues : Str → Value → List Str → List Str
  | pre, .leaf, out => if pre ≠ [] then setAdd out pre else out
  | pre, .strMap val, out =>
      flattenStrEntries pre val (if pre ≠ [] then setAdd out pre else out)
  | pre, .anyMap val, out =>
      flattenAnyEntries pre val (if pre ≠ [] then setAdd out pre else out)
/-- The loop over the entries of a `map[string]interface{}` in `flattenValues`. -/
def flattenStrEntries : Str → List (Str × Value) → List Str → List Str
  | _, [], out => out
  | pre, (k, child) :: val, out =>
      flattenStrEntries pre val
        (flattenValues (if pre ≠ [] then pre ++ ['.'] ++ k else k) child out)
/-- The loop over the entries of a `map[interface{}]interface{}` in `flattenValues`. -/
def flattenAnyEntries : Str → List (Key × Value) → List Str → List Str
  | _, [], out => out
  | pre, (.str k, child) :: val, out =>
      flattenAnyEntries pre val
        (flattenValues (if pre ≠ [] then pre ++ ['.'] ++ k else k) child out)
  | pre, (.other _, _) :: val, out => flattenAnyEntries pre val out
end

/-- The function `collectDefinedValues` of checker.go. -/
def collectDefinedValues (ch : Chart) : List Str :=
  flattenValues [] (.strMap ch.Values) []

/-- The function `isSubchartTemplate` of checker.go. -/
def isSubchartTemplate (Separator : Char) (name : Str) : Bool :=
  let clean := ToSlash Separator name
  Contains clean "/charts/".toList

/-- Lines 101-103 of `collectUsedValues`: the whole-root test on one text. -/
def scanRootValues (content : Str) (usesRootValues : Bool) : Bool :=
  if MatchString rootValuesRe content then true else usesRootValues

/-- Lines 105-111 of `collectUsedValues`: the dotted accessors of one text. -/
def scanDotAccess (content : Str) (used : List Str) : List Str :=
  (FindAllStringSubmatch dotAccessRe content).foldl (fun used m =>
    let path := m.getD 1 []
    if path = [] then used else setAdd used path) used

/-- Lines 118-128 of `collectUsedValues`: the path named by one indexed accessor. -/
def indexKeys (full : Str) : List Str :=
  (Fields full).foldl (fun keys p =>
    let p := Trim p ['"']
    if p ≠ [] then keys ++ [p] else keys) []

/-- Lines 113-129 of `collectUsedValues`: the indexed accessors of one text. -/
def scanIndexAccess (content : Str) (used : List Str) : List Str :=
  (FindAllStringSubmatch indexAccessRe content).foldl (fun used m =>
    let full := TrimSpace (m.getD 1 [])
    if full = [] then used
    else
      let keys := indexKeys full
      if keys.length > 0 then setAdd used (Join keys ['.']) else used) used

/-- The body of the loop of `collectUsedValues`, for one template; `acc` is
the pair `(used, usesRootValues)`. -/
def scanTemplate (Separator : Char) (includeSubcharts : Bool) (acc : List Str × Bool)
    (tmpl : File) : List Str × Bool :=
  if !includeSubcharts && isSubchartTemplate Separator tmpl.Name then acc
  else
    let content := tmpl.Data
    let usesRootValues := scanRootValues content acc.2
    let used := scanDotAccess content acc.1
    let used := scanIndexAccess content used
    (used, usesRootValues)

/-- The function `collectUsedValues` of checker.go. -/
def collectUsedValues (Separator : Char) (ch : Chart) (includeSubcharts : Bool) :
    List Str × Bool :=
  ch.Templates.foldl (scanTemplate Separator includeSubcharts) ([], false)

/-- The function `CheckChart` of checker.go; a nil chart is `none`, and the
error is returned next to the result as in the source. -/
def CheckChart (Separator : Char) (ch : Option Chart) (cfg : Config) : Result × Option Str :=
  match ch with
  | none => (⟨[], []⟩, some "chart is nil".toList)
  | some ch =>
      let defined := collectDefinedValues ch
      let (used, usesRootValues) := collectUsedValues Separator ch cfg.IncludeSubcharts
      let definedNotUsed := if usesRootValues then [] else definedButNotUsed defined used
      (⟨definedNotUsed, usedButNotDefined used defined⟩, none)

/-! ## Auxiliary notions used to state the properties -/

/-- Lexicographic `≤` on strings, unit by unit. -/
def LexLE (a b : Str) : Prop := a = b ∨ List.Lex (fun x y : Char => x.toNat < y.toNat) a b

/-- The test of the loop body of `definedButNotUsed`: `d` is appended to `out`. -/
def reportsDefined (defined used : List Str) (d : Str) : Bool :=
  !(defined.any (fun other => other != d && HasPrefix other (d ++ ['.']))) &&
    !(decide (d ∈ used)) && !(used.any (fun u => HasPrefix d (u ++ ['.'])))

/-- The test of the loop body of `usedButNotDefined`: `u` is appended to `out`. -/
def reportsUsed (defined : List Str) (u : Str) : Bool :=
  !(decide (u ∈ defined)) && !(defined.any (fun d => HasPrefix d (u ++ ['.'])))

/-- A template takes part in the extraction: the guard of the loop of
`collectUsedValues` does not skip it. -/
def participates (Separator : Char) (includeSubcharts : Bool) (tmpl : File) : Bool :=
  !(!includeSubcharts && isSubchartTemplate Separator tmpl.Name)

/-- The key those of `flattenValues` give to a child: `prefix + "." + k`, or `k`
when the prefix is empty. -/
def childKey (pre k : Str) : Str := if pre ≠ [] then pre ++ ['.'] ++ k else k

mutual
/-- The paths `flattenValues prefix v` adds to its output, as a list. -/
def pathsFrom : Str → Value → List Str
  | pre, .leaf => if pre ≠ [] then [pre] else []
  | pre, .strMap val => (if pre ≠ [] then [pre] else []) ++ pathsFromStr pre val
  | pre, .anyMap val => (if pre ≠ [] then [pre] else []) ++ pathsFromAny pre val
/-- The paths added for the entries of a `map[string]interface{}`. -/
def pathsFromStr : Str → List (Str × Value) → List Str
  | _, [] => []
  | pre, (k, child) :: val => pathsFrom (childKey pre k) child ++ pathsFromStr pre val
/-- The paths added for the entries of a `map[interface{}]interface{}`. -/
def pathsFromAny : Str → List (Key × Value) → List Str
  | _, [] => []
  | pre, (.str k, child) :: val => pathsFrom (childKey pre k) child ++ pathsFromAny pre val
  | pre, (.other _, _) :: val => pathsFromAny pre val
end

mutual
/-- The nodes below a value that a sequence of string keys leads to, each given
by its keys from the value down. -/
def nodesBelow : Value → List (List Str)
  | .leaf => []
  | .strMap val => nodesBelowStr val
  | .anyMap val => nodesBelowAny val
/-- The nodes below the entries of a `map[string]interface{}`. -/
def nodesBelowStr : List (Str × Value) → List (List Str)
  | [] => []
  | (k, child) :: val => [k] :: ((nodesBelow child).map (fun ks => k :: ks) ++ nodesBelowStr val)
/-- The nodes below the entries of a `map[interface{}]interface{}`. -/
def nodesBelowAny : List (Key × Value) → List (List Str)
  | [] => []
  | (.str k, child) :: val =>
      [k] :: ((nodesBelow child).map (fun ks => k :: ks) ++ nodesBelowAny val)
  | (.other _, _) :: val => nodesBelowAny val
end

/-- No position of the text (which does not begin the whole text) opens the
marker `(?:^|[^A-Za-z0-9_])(?:\.|\$\.)`: no non-word character is followed
by "." or "$". -/
def markerFree : Str → Bool
  | [] => true
  | [_] => true
  | c :: d :: t => (isWord c || (d != '.' && d != '$')) && markerFree (d :: t)

/-- The template text `{{ <m>Values.<p> }}`. -/
def dottedText (m p : Str) : Str :=
  "\x7b\x7b ".toList ++ m ++ "Values.".toList ++ p ++ " \x7d\x7d".toList

/-- The values tree whose only leaf lies at the keys `ks`: nested one-entry mappings. -/
def chainValue : List Str → Value
  | [] => .leaf
  | k :: ks => .strMap [(k, chainValue ks)]

/-- The entries of the root mapping whose only leaf lies at the keys `ks`. -/
def chainEntries : List Str → List (Str × Value)
  | [] => []
  | k :: ks => [(k, chainValue ks)]

/-- A text with an occurrence of the configuration root used as a whole:
`pre + m + "Values" + post`. -/
def wholeRootText (pre m post : Str) : Str := pre ++ m ++ "Values".toList ++ post

/-- A quoted string literal of the template language: the text between two
double quotes. -/
def quoted (l : Str) : Str := '"' :: (l ++ ['"'])

/-- The template text `{{ index .Values "l1" ... "ln" }}`, the literals
separated by single blanks. -/
def indexText (ls : List Str) : Str :=
  "\x7b\x7b index .Values".toList ++ ls.flatMap (fun l => ' ' :: quoted l) ++ " \x7d\x7d".toList

/-- The entries of a loosely typed mapping whose key is a string, as entries
of a string-keyed mapping. -/
def stringEntries : List (Key × Value) → List (Str × Value)
  | [] => []
  | (.str k, child) :: val => (k, child) :: stringEntries val
  | (.other _, _) :: val => stringEntries val

/-- The key of the entry is a plain string. -/
def hasStringKey (e : Key × Value) : Bool :=
  match e.1 with
  | .str _ => true
  | .other _ => false

/-- A text in which the marker "." stands inside a longer identifier chain:
`w + ".Values." + p`. -/
def anchoredText (w p : Str) : Str := w ++ ".Values.".toList ++ p

mutual
/-- No string key of the tree contains a ".". -/
def keysDotFree : Value → Bool
  | .leaf => true
  | .strMap val => keysDotFreeStr val
  | .anyMap val => keysDotFreeAny val
/-- No key of the entries, nor of the trees below them, contains a ".". -/
def keysDotFreeStr : List (Str × Value) → Bool
  | [] => true
  | (k, child) :: val => !(k.contains '.') && keysDotFree child && keysDotFreeStr val
/-- No string key of the entries, nor of the trees below them, contains a ".". -/
def keysDotFreeAny : List (Key × Value) → Bool
  | [] => true
  | (.str k, child) :: val => !(k.contains '.') && keysDotFree child && keysDotFreeAny val
  | (.other _, _) :: val => keysDotFreeAny val
end

/-- The parent of a path: the path without its last "."-delimited segment and
the "." before it. -/
def parentPath (p : Str) : Str := (p.rdropWhile (fun c => c != '.')).dropLast

/-- A terminal node of the tree: a scalar leaf or an empty mapping. -/
def isTerminal : Value → Bool
  | .leaf => true
  | .strMap val => val.isEmpty
  | .anyMap val => val.isEmpty

mutual
/-- The terminal nodes below a value that a sequence of string keys leads to,
each given by its keys from the value down. -/
def terminalsBelow : Value → List (List Str)
  | .leaf => []
  | .strMap val => terminalsBelowStr val
  | .anyMap val => terminalsBelowAny val
/-- The terminal nodes below the entries of a `map[string]interface{}`. -/
def terminalsBelowStr : List (Str × Value) → List (List Str)
  | [] => []
  | (k, child) :: val =>
      (if isTerminal child then [[k]] else (terminalsBelow child).map (fun ks => k :: ks))
        ++ terminalsBelowStr val
/-- The terminal nodes below the entries of a `map[interface{}]interface{}`. -/
def terminalsBelowAny : List (Key × Value) → List (List Str)
  | [] => []
  | (.str k, child) :: val =>
      (if isTerminal child then [[k]] else (terminalsBelow child).map (fun ks => k :: ks))
        ++ terminalsBelowAny val
  | (.other _, _) :: val => terminalsBelowAny val
end

mutual
/-- A tree of string-keyed mappings as the decoder builds it: every mapping is
a `map[string]interface{}`, its keys are pairwise distinct, and no key
contains a ".". -/
def plainTree : Value → Bool
  | .leaf => true
  | .strMap val => plainEntries val
  | .anyMap _ => false
/-- The entries of a mapping of a `plainTree`. -/
def plainEntries : List (Str × Value) → Bool
  | [] => true
  | (k, child) :: val =>
      !(k.contains '.') && !(val.any (fun e => e.1 == k)) && plainTree child
        && plainEntries val
end

/-! ## Order and sorting -/

theorem strLess_irrefl (a : Str) : strLess a a = false := by
  induction a with
  | nil => rfl
  | cons x xs ih => simp [strLess, ih]

theorem StrLE_total (a b : Str) : StrLE a b ∨ StrLE b a := by
  unfold StrLE
  induction a generalizing b with
  | nil => cases b <;> simp [strLess]
  | cons x xs ih =>
    cases b with
    | nil => simp [strLess]
    | cons y ys =>
      simp only [strLess]
      by_cases h1 : y.toNat < x.toNat
      · have h2 : ¬ x.toNat < y.toNat := by omega
        simp [h1, h2]
      · by_cases h2 : x.toNat < y.toNat
        · simp [h1, h2]
        · simp only [h1, h2, if_false]
          exact ih ys

theorem StrLE_trans (a b c : Str) (hab : StrLE a b) (hbc : StrLE b c) : StrLE a c := by
  unfold StrLE at *
  induction a generalizing b c with
  | nil => cases c <;> simp [strLess]
  | cons x xs ih =>
    cases b with
    | nil => simp [strLess] at hab
    | cons y ys =>
      cases c with
      | nil => simp [strLess] at hbc
      | cons z zs =>
        simp only [strLess] at hab hbc ⊢
        by_cases h1 : y.toNat < x.toNat
        · simp [h1] at hab
        · by_cases h2 : x.toNat < y.toNat
          · by_cases h3 : z.toNat < y.toNat
            · simp [h3] at hbc
            · have h4 : ¬ z.toNat < x.toNat := by omega
              have h5 : x.toNat < z.toNat := by omega
              simp [h4, h5]
          · simp only [h1, h2, if_false] at hab
            have hxy : x.toNat = y.toNat := by omega
            by_cases h3 : z.toNat < y.toNat
            · simp [h3] at hbc
            · by_cases h4 : y.toNat < z.toNat
              · have h5 : ¬ z.toNat < x.toNat := by omega
                have h6 : x.toNat < z.toNat := by omega
                simp [h5, h6]
              · simp only [h3, h4, if_false] at hbc
                have h5 : ¬ z.toNat < x.toNat := by omega
                have h6 : ¬ x.toNat < z.toNat := by omega
                simp only [h5, h6, if_false]
                exact ih ys zs hab hbc

theorem StrLE_antisymm (a b : Str) (hab : StrLE a b) (hba : StrLE b a) : a = b := by
  unfold StrLE at *
  induction a generalizing b with
  | nil => cases b with
    | nil => rfl
    | cons y ys => simp [strLess] at hba
  | cons x xs ih =>
    cases b with
    | nil => simp [strLess] at hab
    | cons y ys =>
      simp only [strLess] at hab hba
      by_cases h1 : y.toNat < x.toNat
      · simp [h1] at hab
      · by_cases h2 : x.toNat < y.toNat
        · simp [h2] at hba
        · simp only [h1, h2, if_false] at hab hba
          have hxy : x = y := by
            apply Char.ext
            apply UInt32.ext
            have : x.toNat = y.toNat := by omega
            simpa [Char.toNat, UInt32.toNat] using this
          rw [hxy, ih ys hab hba]

/-- The order of `sort.Strings` is the lexicographic order of the sequences of units. -/
theorem strLess_iff_lex (a b : Str) :
    strLess a b = true ↔ List.Lex (fun x y : Char => x.toNat < y.toNat) a b := by
  induction a generalizing b with
  | nil => cases b with
    | nil => simp [strLess]
    | cons y ys => simp [strLess, List.Lex.nil]
  | cons x xs ih =>
    cases b with
    | nil => simp [strLess]
    | cons y ys =>
      simp only [strLess]
      by_cases h1 : x.toNat < y.toNat
      · simp only [h1, if_true, true_iff]
        exact List.Lex.rel h1
      · by_cases h2 : y.toNat < x.toNat
        · simp only [h1, h2, if_true, if_false]
          refine ⟨fun h => by simp at h, ?_⟩
          intro h
          cases h with
          | cons h => omega
          | rel h => exact absurd h h1
        · simp only [h1, h2, if_false]
          have hxy : x = y := by
            apply Char.ext
            apply UInt32.ext
            have : x.toNat = y.toNat := by omega
            simpa [Char.toNat, UInt32.toNat] using this
          subst hxy
          rw [ih ys]
          constructor
          · exact List.Lex.cons
          · intro h
            cases h with
            | cons h => exact h
            | rel h => exact absurd h h1

theorem sortStrings_perm (xs : List Str) : (sortStrings xs).Perm xs :=
  List.perm_insertionSort StrLE xs

theorem sortStrings_sorted (xs : List Str) : List.Sorted StrLE (sortStrings xs) :=
  @List.sorted_insertionSort _ StrLE _ ⟨StrLE_total⟩ ⟨StrLE_trans⟩ xs

theorem mem_sortStrings (xs : List Str) (x : Str) : x ∈ sortStrings xs ↔ x ∈ xs :=
  (sortStrings_perm xs).mem_iff

theorem StrLE_iff_LexLE (a b : Str) : StrLE a b ↔ LexLE a b := by
  unfold LexLE
  rw [← strLess_iff_lex]
  constructor
  · intro h
    by_cases h2 : strLess a b = true
    · exact Or.inr h2
    · exact Or.inl (StrLE_antisymm a b h (by simpa [StrLE] using h2))
  · rintro (h | h)
    · subst h
      exact strLess_irrefl a
    · rcases StrLE_total a b with h2 | h2
      · exact h2
      · unfold StrLE at h2
        rw [h] at h2
        cases h2

theorem sortStrings_lexSorted (xs : List Str) : List.Pairwise LexLE (sortStrings xs) :=
  (sortStrings_sorted xs).imp (fun h => (StrLE_iff_LexLE _ _).1 h)

/-! ## The reconciler: characterisation -/

theorem foldl_keep (keep : Str → Bool) (l init : List Str) :
    l.foldl (fun out d => if keep d then out ++ [d] else out) init = init ++ l.filter keep := by
  induction l generalizing init with
  | nil => simp
  | cons x xs ih =>
    simp only [List.foldl_cons, ih, List.filter_cons]
    by_cases h : keep x = true <;> simp [h]

theorem definedButNotUsed_eq (defined used : List Str) :
    definedButNotUsed defined used
      = sortStrings (defined.filter (reportsDefined defined used)) := by
  unfold definedButNotUsed
  by_cases h0 : defined.length = 0
  · have : defined = [] := List.length_eq_zero.1 h0
    subst this
    simp [sortStrings]
  · rw [if_neg h0]
    have hf : (fun (out : List Str) (d : Str) =>
        let isContainer := defined.any (fun other => other != d && HasPrefix other (d ++ ['.']))
        if isContainer then out
        else if d ∈ used then out
        else
          let skip := used.any (fun u => HasPrefix d (u ++ ['.']))
          if skip then out else out ++ [d])
        = (fun out d => if reportsDefined defined used d then out ++ [d] else out) := by
      funext out d
      unfold reportsDefined
      by_cases h1 : defined.any (fun other => other != d && HasPrefix other (d ++ ['.'])) = true
      · simp [h1]
      · by_cases h2 : d ∈ used
        · simp [h1, h2]
        · by_cases h3 : used.any (fun u => HasPrefix d (u ++ ['.'])) = true
          · simp only [h1, h2, h3]; simp
          · simp only [h1, h2, h3]; simp
    simp only [hf, foldl_keep, List.nil_append]

theorem usedButNotDefined_eq (used defined : List Str) :
    usedButNotDefined used defined = sortStrings (used.filter (reportsUsed defined)) := by
  unfold usedButNotDefined
  by_cases h0 : used.length = 0
  · have : used = [] := List.length_eq_zero.1 h0
    subst this
    simp [sortStrings]
  · rw [if_neg h0]
    have hf : (fun (out : List Str) (u : Str) =>
        if u ∈ defined then out
        else if defined.any (fun d => HasPrefix d (u ++ ['.'])) then out
        else out ++ [u])
        = (fun out u => if reportsUsed defined u then out ++ [u] else out) := by
      funext out u
      unfold reportsUsed
      by_cases h1 : u ∈ defined
      · simp [h1]
      · by_cases h2 : defined.any (fun d => HasPrefix d (u ++ ['.'])) = true
        · simp only [h1, h2]; simp
        · simp only [h1, h2]; simp
    simp only [hf, foldl_keep, List.nil_append]

theorem mem_definedButNotUsed (defined used : List Str) (d : Str) :
    d ∈ definedButNotUsed defined used ↔
      d ∈ defined ∧
      (∀ other ∈ defined, other ≠ d → HasPrefix other (d ++ ['.']) = false) ∧
      d ∉ used ∧
      (∀ u ∈ used, HasPrefix d (u ++ ['.']) = false) := by
  rw [definedButNotUsed_eq, mem_sortStrings, List.mem_filter]
  unfold reportsDefined
  simp only [Bool.and_eq_true, Bool.not_eq_true', List.any_eq_false, decide_eq_false_iff_not,
    bne_iff_ne, ne_eq, not_and, Bool.not_eq_true]
  tauto

theorem mem_usedButNotDefined (used defined : List Str) (u : Str) :
    u ∈ usedButNotDefined used defined ↔
      u ∈ used ∧ u ∉ defined ∧ (∀ d ∈ defined, HasPrefix d (u ++ ['.']) = false) := by
  rw [usedButNotDefined_eq, mem_sortStrings, List.mem_filter]
  unfold reportsUsed
  simp only [Bool.and_eq_true, Bool.not_eq_true', List.any_eq_false, decide_eq_false_iff_not,
    Bool.not_eq_true]

theorem definedButNotUsed_nodup (defined used : List Str) (hd : defined.Nodup) :
    (definedButNotUsed defined used).Nodup := by
  rw [definedButNotUsed_eq]
  exact (sortStrings_perm _).nodup_iff.2 (hd.filter _)

theorem usedButNotDefined_nodup (used defined : List Str) (hu : used.Nodup) :
    (usedButNotDefined used defined).Nodup := by
  rw [usedButNotDefined_eq]
  exact (sortStrings_perm _).nodup_iff.2 (hu.filter _)

theorem definedButNotUsed_lexSorted (defined used : List Str) :
    List.Pairwise LexLE (definedButNotUsed defined used) := by
  rw [definedButNotUsed_eq]
  exact sortStrings_lexSorted _

theorem usedButNotDefined_lexSorted (used defined : List Str) :
    List.Pairwise LexLE (usedButNotDefined used defined) := by
  rw [usedButNotDefined_eq]
  exact sortStrings_lexSorted _

/-! ## The extraction over a corpus -/

theorem scanTemplate_snd (Separator : Char) (inc : Bool) (acc : List Str × Bool) (t : File) :
    (scanTemplate Separator inc acc t).2
      = (acc.2 || (participates Separator inc t && MatchString rootValuesRe t.Data)) := by
  unfold scanTemplate participates scanRootValues
  by_cases h : (!inc && isSubchartTemplate Separator t.Name) = true
  · simp [h]
  · by_cases h2 : MatchString rootValuesRe t.Data = true
    · simp [h, h2]
    · simp [h, h2]

theorem foldl_scanTemplate_snd (Separator : Char) (inc : Bool) (ts : List File)
    (acc : List Str × Bool) :
    (ts.foldl (scanTemplate Separator inc) acc).2
      = (acc.2 || ts.any (fun t => participates Separator inc t &&
          MatchString rootValuesRe t.Data)) := by
  induction ts generalizing acc with
  | nil => simp
  | cons t ts ih =>
    rw [List.foldl_cons, ih, scanTemplate_snd, List.any_cons, Bool.or_assoc]

theorem usesRootValues_iff (Separator : Char) (ch : Chart) (inc : Bool) :
    (collectUsedValues Separator ch inc).2 = true ↔
      ∃ t ∈ ch.Templates, participates Separator inc t = true ∧
        MatchString rootValuesRe t.Data = true := by
  unfold collectUsedValues
  rw [foldl_scanTemplate_snd]
  simp [List.any_eq_true]

theorem CheckChart_some (Separator : Char) (ch : Chart) (cfg : Config) :
    CheckChart Separator (some ch) cfg =
      (⟨if (collectUsedValues Separator ch cfg.IncludeSubcharts).2 then []
          else definedButNotUsed (collectDefinedValues ch)
            (collectUsedValues Separator ch cfg.IncludeSubcharts).1,
        usedButNotDefined (collectUsedValues Separator ch cfg.IncludeSubcharts).1
          (collectDefinedValues ch)⟩, none) := by
  unfold CheckChart
  rfl

theorem count_eq_one_of_nodup (l : List Str) (d : Str) (hn : l.Nodup) (hm : d ∈ l) :
    l.count d = 1 := by
  induction l with
  | nil => cases hm
  | cons x xs ih =>
    rw [List.nodup_cons] at hn
    rw [List.count_cons]
    by_cases hx : x = d
    · subst hx
      have : List.count x xs = 0 := List.count_eq_zero.2 hn.1
      simp [this]
    · have hm2 : d ∈ xs := by
        rcases List.mem_cons.1 hm with h | h
        · exact absurd h.symm hx
        · exact h
      have hb : (x == d) = false := by simpa using hx
      simp [hb, ih hn.2 hm2]

/-! ## Claims on the reconciler -/

/-- C1: `definedButNotUsed(defined, used)` contains `d` exactly when `d` is
defined, no other defined path starts with `d + "."`, `d` is not used, and `d`
starts with `u + "."` for no used `u`; each such `d` occurs exactly once. -/
theorem C1_definedButNotUsed_characterisation (defined used : List Str)
    (hd : defined.Nodup) (d : Str) :
    (d ∈ definedButNotUsed defined used ↔
      d ∈ defined ∧
      (∀ other ∈ defined, other ≠ d → HasPrefix other (d ++ ['.']) = false) ∧
      d ∉ used ∧
      (∀ u ∈ used, HasPrefix d (u ++ ['.']) = false)) ∧
    (d ∈ definedButNotUsed defined used → (definedButNotUsed defined used).count d = 1) :=
  ⟨mem_definedButNotUsed defined used d,
   fun h => count_eq_one_of_nodup _ d (definedButNotUsed_nodup defined used hd) h⟩

theorem C1_witness :
    ["a".toList, "a.b".toList, "a.c".toList].Nodup ∧
    ("a.c".toList ∈ definedButNotUsed ["a".toList, "a.b".toList, "a.c".toList] ["a.b".toList]) ∧
    (definedButNotUsed ["a".toList, "a.b".toList, "a.c".toList] ["a.b".toList]).count
      "a.c".toList = 1 :=
  ⟨by decide, by decide,
   (C1_definedButNotUsed_characterisation ["a".toList, "a.b".toList, "a.c".toList]
      ["a.b".toList] (by decide) "a.c".toList).2 (by decide)⟩

/-- C2: `usedButNotDefined(used, defined)` contains `u` exactly when `u` is used,
not defined, and no defined path starts with `u + "."`; each such `u` occurs
once; when `defined` is empty the result is the sorted list of all used paths,
e.g. used {image.tag} gives [image.tag]. -/
theorem C2_usedButNotDefined_characterisation (used defined : List Str)
    (hu : used.Nodup) (u : Str) :
    (u ∈ usedButNotDefined used defined ↔
      u ∈ used ∧ u ∉ defined ∧ (∀ d ∈ defined, HasPrefix d (u ++ ['.']) = false)) ∧
    (u ∈ usedButNotDefined used defined → (usedButNotDefined used defined).count u = 1) ∧
    ((usedButNotDefined used []).Perm used ∧ List.Pairwise LexLE (usedButNotDefined used [])) ∧
    usedButNotDefined ["image.tag".toList] [] = ["image.tag".toList] := by
  refine ⟨mem_usedButNotDefined used defined u,
    fun h => count_eq_one_of_nodup _ u (usedButNotDefined_nodup used defined hu) h,
    ⟨?_, usedButNotDefined_lexSorted used []⟩, by decide⟩
  rw [usedButNotDefined_eq]
  refine (sortStrings_perm _).trans ?_
  have : used.filter (reportsUsed []) = used := by
    apply List.filter_eq_self.2
    intro a _
    simp [reportsUsed]
  rw [this]

theorem C2_witness :
    ["image.tag".toList, "image".toList].Nodup ∧
    ("image.tag".toList ∈ usedButNotDefined ["image.tag".toList, "image".toList]
        ["image.repo".toList]) ∧
    (usedButNotDefined ["image.tag".toList, "image".toList] ["image.repo".toList]).count
      "image.tag".toList = 1 :=
  ⟨by decide, by decide,
   (C2_usedButNotDefined_characterisation ["image.tag".toList, "image".toList]
      ["image.repo".toList] (by decide) "image.tag".toList).2.1 (by decide)⟩

/-- C3: when some participating template text references the configuration
root as a whole, `wholeRootUsed` is true and `CheckChart` returns an empty
DefinedNotUsed list whatever the defined and used sets are, while
UsedNotDefined is computed as usual. -/
theorem C3_whole_root_suppression (Separator : Char) (ch : Chart) (cfg : Config)
    (h : ∃ t ∈ ch.Templates, participates Separator cfg.IncludeSubcharts t = true ∧
        MatchString rootValuesRe t.Data = true) :
    (collectUsedValues Separator ch cfg.IncludeSubcharts).2 = true ∧
    (CheckChart Separator (some ch) cfg).1.DefinedNotUsed = [] ∧
    (CheckChart Separator (some ch) cfg).1.UsedNotDefined =
      usedButNotDefined (collectUsedValues Separator ch cfg.IncludeSubcharts).1
        (collectDefinedValues ch) ∧
    (CheckChart Separator (some ch) cfg).2 = none := by
  have hflag := (usesRootValues_iff Separator ch cfg.IncludeSubcharts).2 h
  rw [CheckChart_some]
  simp [hflag]

/-- The chart of the test `TestCheckChart_RootValuesUsageSkipsDefinedNotUsed`. -/
theorem C3_witness :
    (∃ t ∈ [(⟨"templates/config.yaml".toList, "\x7b\x7b toYaml .Values \x7d\x7d".toList⟩ : File)],
        participates '/' false t = true ∧ MatchString rootValuesRe t.Data = true) ∧
    (CheckChart '/' (some ⟨[("foo".toList, .strMap [("bar".toList, .leaf)])],
        [⟨"templates/config.yaml".toList, "\x7b\x7b toYaml .Values \x7d\x7d".toList⟩]⟩)
        ⟨false⟩).1.DefinedNotUsed = [] :=
  ⟨⟨_, List.mem_singleton.2 rfl, by decide, by decide⟩,
   (C3_whole_root_suppression '/' ⟨[("foo".toList, .strMap [("bar".toList, .leaf)])],
        [⟨"templates/config.yaml".toList, "\x7b\x7b toYaml .Values \x7d\x7d".toList⟩]⟩ ⟨false⟩
      ⟨_, List.mem_singleton.2 rfl, by decide, by decide⟩).2.1⟩

/-- C8: the lists returned by `definedButNotUsed` and `usedButNotDefined`, and
both fields of the result of `CheckChart`, are sorted in ascending
lexicographic order. -/
theorem C8_results_sorted (Separator : Char) (defined used : List Str) (ch : Option Chart)
    (cfg : Config) :
    List.Pairwise LexLE (definedButNotUsed defined used) ∧
    List.Pairwise LexLE (usedButNotDefined used defined) ∧
    List.Pairwise LexLE (CheckChart Separator ch cfg).1.DefinedNotUsed ∧
    List.Pairwise LexLE (CheckChart Separator ch cfg).1.UsedNotDefined := by
  refine ⟨definedButNotUsed_lexSorted _ _, usedButNotDefined_lexSorted _ _, ?_, ?_⟩
  · cases ch with
    | none => simp [CheckChart]
    | some c =>
      rw [CheckChart_some]
      by_cases h : (collectUsedValues Separator c cfg.IncludeSubcharts).2 = true
      · simp [h]
      · simp only [h]
        exact definedButNotUsed_lexSorted _ _
  · cases ch with
    | none => simp [CheckChart]
    | some c =>
      rw [CheckChart_some]
      exact usedButNotDefined_lexSorted _ _

/-- C9: if `u` is used and the defined path `d` starts with `u + "."`, then `d`
is not reported by `definedButNotUsed`: a reference to an ancestor covers every
descendant. -/
theorem C9_used_ancestor_absorbs (defined used : List Str) (u d : Str)
    (hu : u ∈ used) (_hd : d ∈ defined) (hpre : HasPrefix d (u ++ ['.']) = true) :
    d ∉ definedButNotUsed defined used := by
  intro hmem
  have h := ((mem_definedButNotUsed defined used d).1 hmem).2.2.2 u hu
  rw [hpre] at h
  cases h

theorem C9_witness :
    "a.b".toList ∈ ["a.b".toList] ∧ "a.b.c".toList ∈ ["a".toList, "a.b".toList, "a.b.c".toList] ∧
    HasPrefix "a.b.c".toList ("a.b".toList ++ ['.']) = true ∧
    "a.b.c".toList ∉ definedButNotUsed ["a".toList, "a.b".toList, "a.b.c".toList] ["a.b".toList] :=
  ⟨by decide, by decide, by decide,
   C9_used_ancestor_absorbs ["a".toList, "a.b".toList, "a.b.c".toList] ["a.b".toList]
     "a.b".toList "a.b.c".toList (by decide) (by decide) (by decide)⟩

/-- C10: a defined path `d` with a child in `defined` (another defined path
starting with `d + "."`) is never reported by `definedButNotUsed`, whatever is
used. -/
theorem C10_container_not_reported (defined used : List Str) (d child : Str)
    (_hd : d ∈ defined) (hc : child ∈ defined) (hne : child ≠ d)
    (hpre : HasPrefix child (d ++ ['.']) = true) :
    d ∉ definedButNotUsed defined used := by
  intro hmem
  have h := ((mem_definedButNotUsed defined used d).1 hmem).2.1 child hc hne
  rw [hpre] at h
  cases h

theorem C10_witness :
    "a".toList ∈ ["a".toList, "a.b".toList] ∧ "a.b".toList ∈ ["a".toList, "a.b".toList] ∧
    "a.b".toList ≠ "a".toList ∧ HasPrefix "a.b".toList ("a".toList ++ ['.']) = true ∧
    "a".toList ∉ definedButNotUsed ["a".toList, "a.b".toList] [] :=
  ⟨by decide, by decide, by decide, by decide,
   C10_container_not_reported ["a".toList, "a.b".toList] [] "a".toList "a.b".toList
     (by decide) (by decide) (by decide) (by decide)⟩

/-! ## The flattener -/

theorem mem_setAdd (out : List Str) (k x : Str) : x ∈ setAdd out k ↔ x ∈ out ∨ x = k := by
  unfold setAdd
  by_cases h : k ∈ out
  · simp only [h, if_true]
    constructor
    · exact Or.inl
    · rintro (h1 | h1)
      · exact h1
      · rw [h1]; exact h
  · simp [h]

theorem setAdd_nodup (out : List Str) (k : Str) (h : out.Nodup) : (setAdd out k).Nodup := by
  unfold setAdd
  by_cases hk : k ∈ out
  · simp [hk, h]
  · simp only [hk, if_false]
    rw [List.nodup_append]
    refine ⟨h, List.nodup_singleton k, ?_⟩
    intro a ha hb
    rw [List.mem_singleton] at hb
    subst hb
    exact hk ha

mutual
theorem mem_flattenValues : ∀ (v : Value) (pre : Str) (out : List Str) (x : Str),
    x ∈ flattenValues pre v out ↔ x ∈ out ∨ x ∈ pathsFrom pre v
  | .leaf, pre, out, x => by
    unfold flattenValues pathsFrom
    by_cases h : pre = []
    · simp [h]
    · simp [h, mem_setAdd]
  | .strMap val, pre, out, x => by
    unfold flattenValues pathsFrom
    rw [mem_flattenStrEntries val]
    by_cases h : pre = []
    · simp [h]
    · simp [h, mem_setAdd, or_assoc]
  | .anyMap val, pre, out, x => by
    unfold flattenValues pathsFrom
    rw [mem_flattenAnyEntries val]
    by_cases h : pre = []
    · simp [h]
    · simp [h, mem_setAdd, or_assoc]
theorem mem_flattenStrEntries : ∀ (val : List (Str × Value)) (pre : Str) (out : List Str)
    (x : Str), x ∈ flattenStrEntries pre val out ↔ x ∈ out ∨ x ∈ pathsFromStr pre val
  | [], pre, out, x => by simp [flattenStrEntries, pathsFromStr]
  | (k, child) :: val, pre, out, x => by
    unfold flattenStrEntries pathsFromStr
    rw [mem_flattenStrEntries val, mem_flattenValues child]
    simp [childKey, or_assoc]
theorem mem_flattenAnyEntries : ∀ (val : List (Key × Value)) (pre : Str) (out : List Str)
    (x : Str), x ∈ flattenAnyEntries pre val out ↔ x ∈ out ∨ x ∈ pathsFromAny pre val
  | [], pre, out, x => by simp [flattenAnyEntries, pathsFromAny]
  | (.str k, child) :: val, pre, out, x => by
    unfold flattenAnyEntries pathsFromAny
    rw [mem_flattenAnyEntries val, mem_flattenValues child]
    simp [childKey, or_assoc]
  | (.other _, _) :: val, pre, out, x => by
    unfold flattenAnyEntries pathsFromAny
    rw [mem_flattenAnyEntries val]
end

mutual
theorem flattenValues_nodup : ∀ (v : Value) (pre : Str) (out : List Str),
    out.Nodup → (flattenValues pre v out).Nodup
  | .leaf, pre, out, h => by
    unfold flattenValues
    by_cases hp : pre = []
    · simp [hp, h]
    · simp [hp, setAdd_nodup, h]
  | .strMap val, pre, out, h => by
    unfold flattenValues
    apply flattenStrEntries_nodup val
    by_cases hp : pre = []
    · simp [hp, h]
    · simp [hp, setAdd_nodup, h]
  | .anyMap val, pre, out, h => by
    unfold flattenValues
    apply flattenAnyEntries_nodup val
    by_cases hp : pre = []
    · simp [hp, h]
    · simp [hp, setAdd_nodup, h]
theorem flattenStrEntries_nodup : ∀ (val : List (Str × Value)) (pre : Str) (out : List Str),
    out.Nodup → (flattenStrEntries pre val out).Nodup
  | [], pre, out, h => by simpa [flattenStrEntries] using h
  | (k, child) :: val, pre, out, h => by
    unfold flattenStrEntries
    exact flattenStrEntries_nodup val pre _ (flattenValues_nodup child _ out h)
theorem flattenAnyEntries_nodup : ∀ (val : List (Key × Value)) (pre : Str) (out : List Str),
    out.Nodup → (flattenAnyEntries pre val out).Nodup
  | [], pre, out, h => by simpa [flattenAnyEntries] using h
  | (.str k, child) :: val, pre, out, h => by
    unfold flattenAnyEntries
    exact flattenAnyEntries_nodup val pre _ (flattenValues_nodup child _ out h)
  | (.other _, _) :: val, pre, out, h => by
    unfold flattenAnyEntries
    exact flattenAnyEntries_nodup val pre out h
end

theorem Join_cons_cons (k k2 : Str) (ks : List Str) (sep : Str) :
    Join (k :: k2 :: ks) sep = k ++ sep ++ Join (k2 :: ks) sep := rfl

theorem Join_cons_of_ne_nil (k : Str) (ks : List Str) (sep : Str) (h : ks ≠ []) :
    Join (k :: ks) sep = k ++ sep ++ Join ks sep := by
  cases ks with
  | nil => exact absurd rfl h
  | cons k2 ks => rfl

theorem childKey_ne_nil (pre k : Str) (h : pre ≠ []) : childKey pre k ≠ [] := by
  simp [childKey, h]

theorem childKey_of_ne_nil (pre k : Str) (h : pre ≠ []) : childKey pre k = pre ++ ['.'] ++ k := by
  simp [childKey, h]

theorem self_mem_pathsFrom (v : Value) (pre : Str) (h : pre ≠ []) : pre ∈ pathsFrom pre v := by
  cases v <;> simp [pathsFrom, h]

mutual
theorem nodesBelow_ne_nil : ∀ (v : Value) (ks : List Str), ks ∈ nodesBelow v → ks ≠ []
  | .leaf, ks, h => by simp [nodesBelow] at h
  | .strMap val, ks, h => by
    unfold nodesBelow at h
    exact nodesBelowStr_ne_nil val ks h
  | .anyMap val, ks, h => by
    unfold nodesBelow at h
    exact nodesBelowAny_ne_nil val ks h
theorem nodesBelowStr_ne_nil : ∀ (val : List (Str × Value)) (ks : List Str),
    ks ∈ nodesBelowStr val → ks ≠ []
  | [], ks, h => by simp [nodesBelowStr] at h
  | (k, child) :: val, ks, h => by
    unfold nodesBelowStr at h
    rcases List.mem_cons.1 h with h | h
    · simp [h]
    · rcases List.mem_append.1 h with h | h
      · rcases List.mem_map.1 h with ⟨ks', _, rfl⟩
        simp
      · exact nodesBelowStr_ne_nil val ks h
theorem nodesBelowAny_ne_nil : ∀ (val : List (Key × Value)) (ks : List Str),
    ks ∈ nodesBelowAny val → ks ≠ []
  | [], ks, h => by simp [nodesBelowAny] at h
  | (.str k, child) :: val, ks, h => by
    unfold nodesBelowAny at h
    rcases List.mem_cons.1 h with h | h
    · simp [h]
    · rcases List.mem_append.1 h with h | h
      · rcases List.mem_map.1 h with ⟨ks', _, rfl⟩
        simp
      · exact nodesBelowAny_ne_nil val ks h
  | (.other _, _) :: val, ks, h => by
    unfold nodesBelowAny at h
    exact nodesBelowAny_ne_nil val ks h
end

mutual
theorem node_mem_pathsFrom : ∀ (v : Value) (pre : Str) (ks : List Str), pre ≠ [] →
    ks ∈ nodesBelow v → pre ++ ['.'] ++ Join ks ['.'] ∈ pathsFrom pre v
  | .leaf, pre, ks, _, h => by simp [nodesBelow] at h
  | .strMap val, pre, ks, hp, h => by
    unfold nodesBelow at h
    unfold pathsFrom
    exact List.mem_append_right _ (node_mem_pathsFromStr val pre ks hp h)
  | .anyMap val, pre, ks, hp, h => by
    unfold nodesBelow at h
    unfold pathsFrom
    exact List.mem_append_right _ (node_mem_pathsFromAny val pre ks hp h)
theorem node_mem_pathsFromStr : ∀ (val : List (Str × Value)) (pre : Str) (ks : List Str),
    pre ≠ [] → ks ∈ nodesBelowStr val → pre ++ ['.'] ++ Join ks ['.'] ∈ pathsFromStr pre val
  | [], pre, ks, _, h => by simp [nodesBelowStr] at h
  | (k, child) :: val, pre, ks, hp, h => by
    unfold nodesBelowStr at h
    unfold pathsFromStr
    rcases List.mem_cons.1 h with h | h
    · subst h
      apply List.mem_append_left
      have := self_mem_pathsFrom child (childKey pre k) (childKey_ne_nil pre k hp)
      rw [childKey_of_ne_nil pre k hp] at this ⊢
      simpa [Join] using this
    · rcases List.mem_append.1 h with h | h
      · rcases List.mem_map.1 h with ⟨ks', hks', rfl⟩
        apply List.mem_append_left
        have := node_mem_pathsFrom child (childKey pre k) ks' (childKey_ne_nil pre k hp) hks'
        rw [childKey_of_ne_nil pre k hp] at this ⊢
        rw [Join_cons_of_ne_nil k ks' _ (nodesBelow_ne_nil child ks' hks')]
        simpa [List.append_assoc] using this
      · exact List.mem_append_right _ (node_mem_pathsFromStr val pre ks hp h)
theorem node_mem_pathsFromAny : ∀ (val : List (Key × Value)) (pre : Str) (ks : List Str),
    pre ≠ [] → ks ∈ nodesBelowAny val → pre ++ ['.'] ++ Join ks ['.'] ∈ pathsFromAny pre val
  | [], pre, ks, _, h => by simp [nodesBelowAny] at h
  | (.str k, child) :: val, pre, ks, hp, h => by
    unfold nodesBelowAny at h
    unfold pathsFromAny
    rcases List.mem_cons.1 h with h | h
    · subst h
      apply List.mem_append_left
      have := self_mem_pathsFrom child (childKey pre k) (childKey_ne_nil pre k hp)
      rw [childKey_of_ne_nil pre k hp] at this ⊢
      simpa [Join] using this
    · rcases List.mem_append.1 h with h | h
      · rcases List.mem_map.1 h with ⟨ks', hks', rfl⟩
        apply List.mem_append_left
        have := node_mem_pathsFrom child (childKey pre k) ks' (childKey_ne_nil pre k hp) hks'
        rw [childKey_of_ne_nil pre k hp] at this ⊢
        rw [Join_cons_of_ne_nil k ks' _ (nodesBelow_ne_nil child ks' hks')]
        simpa [List.append_assoc] using this
      · exact List.mem_append_right _ (node_mem_pathsFromAny val pre ks hp h)
  | (.other _, _) :: val, pre, ks, hp, h => by
    unfold nodesBelowAny at h
    unfold pathsFromAny
    exact node_mem_pathsFromAny val pre ks hp h
end

mutual
theorem nil_not_mem_pathsFrom : ∀ (v : Value) (pre : Str), [] ∉ pathsFrom pre v
  | .leaf, pre => by
    unfold pathsFrom
    by_cases h : pre = []
    · simp [h]
    · simp [h]
  | .strMap val, pre => by
    unfold pathsFrom
    have := nil_not_mem_pathsFromStr val pre
    by_cases h : pre = []
    · subst h
      simpa using this
    · simp [h, this]
  | .anyMap val, pre => by
    unfold pathsFrom
    have := nil_not_mem_pathsFromAny val pre
    by_cases h : pre = []
    · subst h
      simpa using this
    · simp [h, this]
theorem nil_not_mem_pathsFromStr : ∀ (val : List (Str × Value)) (pre : Str),
    [] ∉ pathsFromStr pre val
  | [], pre => by simp [pathsFromStr]
  | (k, child) :: val, pre => by
    unfold pathsFromStr
    simp [nil_not_mem_pathsFrom child, nil_not_mem_pathsFromStr val]
theorem nil_not_mem_pathsFromAny : ∀ (val : List (Key × Value)) (pre : Str),
    [] ∉ pathsFromAny pre val
  | [], pre => by simp [pathsFromAny]
  | (.str k, child) :: val, pre => by
    unfold pathsFromAny
    simp [nil_not_mem_pathsFrom child, nil_not_mem_pathsFromAny val]
  | (.other _, _) :: val, pre => by
    unfold pathsFromAny
    exact nil_not_mem_pathsFromAny val pre
end

theorem root_node_mem_pathsFromStr (val : List (Str × Value)) (ks : List Str)
    (h : ks ∈ nodesBelowStr val) (hk : ks.head? ≠ some []) :
    Join ks ['.'] ∈ pathsFromStr [] val := by
  induction val with
  | nil => simp [nodesBelowStr] at h
  | cons e val ih =>
    obtain ⟨k, child⟩ := e
    unfold nodesBelowStr at h
    unfold pathsFromStr
    rcases List.mem_cons.1 h with h | h
    · subst h
      have hk' : k ≠ [] := by simpa using hk
      apply List.mem_append_left
      have := self_mem_pathsFrom child k hk'
      simpa [Join, childKey] using this
    · rcases List.mem_append.1 h with h | h
      · rcases List.mem_map.1 h with ⟨ks', hks', rfl⟩
        have hk' : k ≠ [] := by simpa using hk
        apply List.mem_append_left
        have := node_mem_pathsFrom child k ks' hk' hks'
        rw [Join_cons_of_ne_nil k ks' _ (nodesBelow_ne_nil child ks' hks')]
        simpa [childKey] using this
      · exact List.mem_append_right _ (ih h)

theorem root_node_mem_pathsFromAny (val : List (Key × Value)) (ks : List Str)
    (h : ks ∈ nodesBelowAny val) (hk : ks.head? ≠ some []) :
    Join ks ['.'] ∈ pathsFromAny [] val := by
  induction val with
  | nil => simp [nodesBelowAny] at h
  | cons e val ih =>
    obtain ⟨rawK, child⟩ := e
    cases rawK with
    | other tag =>
      unfold nodesBelowAny at h
      unfold pathsFromAny
      exact ih h
    | str k =>
      unfold nodesBelowAny at h
      unfold pathsFromAny
      rcases List.mem_cons.1 h with h | h
      · subst h
        have hk' : k ≠ [] := by simpa using hk
        apply List.mem_append_left
        have := self_mem_pathsFrom child k hk'
        simpa [Join, childKey] using this
      · rcases List.mem_append.1 h with h | h
        · rcases List.mem_map.1 h with ⟨ks', hks', rfl⟩
          have hk' : k ≠ [] := by simpa using hk
          apply List.mem_append_left
          have := node_mem_pathsFrom child k ks' hk' hks'
          rw [Join_cons_of_ne_nil k ks' _ (nodesBelow_ne_nil child ks' hks')]
          simpa [childKey] using this
        · exact List.mem_append_right _ (ih h)

theorem root_node_mem_pathsFrom (tree : Value) (ks : List Str)
    (h : ks ∈ nodesBelow tree) (hk : ks.head? ≠ some []) :
    Join ks ['.'] ∈ pathsFrom [] tree := by
  cases tree with
  | leaf => simp [nodesBelow] at h
  | strMap val =>
    unfold nodesBelow at h
    unfold pathsFrom
    exact List.mem_append_right _ (root_node_mem_pathsFromStr val ks h hk)
  | anyMap val =>
    unfold nodesBelow at h
    unfold pathsFrom
    exact List.mem_append_right _ (root_node_mem_pathsFromAny val ks h hk)

/-- C4 as stated fails: in the tree that maps the empty key to the mapping
`a: 1`, the leaf lies at the keys "" and "a", so its path is ".a";
`flattenValues` yields only "a". -/
theorem C4_counterexample :
    ¬ (∀ ks ∈ nodesBelow (.strMap [("".toList, .strMap [("a".toList, .leaf)])]),
        Join ks ['.'] ∈
          flattenValues [] (.strMap [("".toList, .strMap [("a".toList, .leaf)])]) []) := by
  decide

/-- C4 (amended): `flattenValues("", tree)` contains the path, the keys joined
with ".", of every container node and every leaf node below the root whose
top-level key is not the empty string; it never contains the empty path; an
empty root tree yields the empty set. -/
theorem C4_flatten_complete (tree : Value) (ks : List Str)
    (hks : ks ∈ nodesBelow tree) (hk : ks.head? ≠ some []) :
    Join ks ['.'] ∈ flattenValues [] tree [] ∧
    [] ∉ flattenValues [] tree [] ∧
    flattenValues [] (.strMap []) [] = [] := by
  refine ⟨?_, ?_, by decide⟩
  · rw [mem_flattenValues]
    exact Or.inr (root_node_mem_pathsFrom tree ks hks hk)
  · rw [mem_flattenValues]
    simp [nil_not_mem_pathsFrom]

theorem C4_witness :
    ["a".toList, "b".toList] ∈ nodesBelow (.strMap [("a".toList, .strMap [("b".toList, .leaf)])]) ∧
    ["a".toList, "b".toList].head? ≠ some [] ∧
    "a.b".toList ∈ flattenValues [] (.strMap [("a".toList, .strMap [("b".toList, .leaf)])]) [] :=
  ⟨by decide, by decide,
   (C4_flatten_complete (.strMap [("a".toList, .strMap [("b".toList, .leaf)])])
      ["a".toList, "b".toList] (by decide) (by decide)).1⟩

/-! ## The matcher: evaluation lemmas -/

theorem head?_flatMap_of_head? {α β : Type} (l : List α) (f : α → List β) (x : α) (y : β)
    (hl : l.head? = some x) (hf : (f x).head? = some y) : (l.flatMap f).head? = some y := by
  cases l with
  | nil => simp at hl
  | cons a t =>
    simp only [List.head?_cons, Option.some.injEq] at hl
    subst hl
    cases hfa : f a with
    | nil => simp [hfa] at hf
    | cons b u =>
      rw [hfa] at hf
      simp only [List.head?_cons, Option.some.injEq] at hf
      subst hf
      simp [List.flatMap_cons, hfa]

theorem head?_append_of_head? {α : Type} (l t : List α) (x : α) (hl : l.head? = some x) :
    (l ++ t).head? = some x := by
  cases l with
  | nil => simp at hl
  | cons a u => simpa using hl

theorem matchAll_seq_nil (s : MState) : matchAll (Regex.seq []) s = [s] := rfl

theorem matchAll_seq_cons (r : Regex) (rs : List Regex) (s : MState) :
    matchAll (Regex.seq (r :: rs)) s = (matchAll r s).flatMap (matchAll (Regex.seq rs)) := rfl

theorem matchAll_empty (s : MState) : matchAll .empty s = [s] := rfl

theorem matchAll_cat (a b : Regex) (s : MState) :
    matchAll (.cat a b) s = (matchAll a s).flatMap (matchAll b) := rfl

theorem matchAll_alt (a b : Regex) (s : MState) :
    matchAll (.alt a b) s = matchAll a s ++ matchAll b s := rfl

theorem matchAll_star (r : Regex) (s : MState) :
    matchAll (.star r) s = starLoop (matchAll r) s.rest.length s := rfl

theorem matchAll_group (i : Nat) (r : Regex) (s : MState) :
    matchAll (.group i r) s = (matchAll r s).map (fun s' =>
      { s' with caps := (i, s.rest.take (s.rest.length - s'.rest.length)) :: s'.caps }) := rfl

theorem matchAll_plus (r : Regex) (s : MState) :
    matchAll (Regex.plus r) s = (matchAll r s).flatMap (matchAll (.star r)) := rfl

theorem matchAll_bot (s : MState) : matchAll .bot s = if s.atStart then [s] else [] := rfl

theorem matchAll_eot (s : MState) : matchAll .eot s = if s.rest.isEmpty then [s] else [] := rfl

theorem matchAll_lit_nil (s : MState) : matchAll (Regex.lit []) s = [s] := rfl

theorem matchAll_lit_cons (c : Char) (cs : Str) (s : MState) :
    matchAll (Regex.lit (c :: cs)) s
      = (matchAll (Regex.chr c) s).flatMap (matchAll (Regex.lit cs)) := rfl

theorem matchAll_cls_nil (p : Char → Bool) (b : Bool) (caps : List (Nat × Str)) :
    matchAll (.cls p) ⟨b, [], caps⟩ = [] := rfl

theorem matchAll_cls_cons (p : Char → Bool) (b : Bool) (c : Char) (t : Str)
    (caps : List (Nat × Str)) :
    matchAll (.cls p) ⟨b, c :: t, caps⟩ = if p c then [⟨false, t, caps⟩] else [] := rfl

theorem matchAll_chr_nil (c : Char) (b : Bool) (caps : List (Nat × Str)) :
    matchAll (Regex.chr c) ⟨b, [], caps⟩ = [] := rfl

theorem matchAll_chr_cons (c d : Char) (b : Bool) (t : Str) (caps : List (Nat × Str)) :
    matchAll (Regex.chr c) ⟨b, d :: t, caps⟩ = if d == c then [⟨false, t, caps⟩] else [] := rfl

theorem matchAll_chr_self (c : Char) (b : Bool) (t : Str) (caps : List (Nat × Str)) :
    matchAll (Regex.chr c) ⟨b, c :: t, caps⟩ = [⟨false, t, caps⟩] := by
  simp [matchAll_chr_cons]

theorem matchAll_chr_ne (c d : Char) (b : Bool) (t : Str) (caps : List (Nat × Str))
    (h : d ≠ c) : matchAll (Regex.chr c) ⟨b, d :: t, caps⟩ = [] := by
  simp [matchAll_chr_cons, h]

theorem matchAll_lit_append (w t : Str) (b : Bool) (caps : List (Nat × Str)) :
    matchAll (Regex.lit w) ⟨b, w ++ t, caps⟩ = [⟨b && w.isEmpty, t, caps⟩] := by
  induction w generalizing b with
  | nil => simp [matchAll_lit_nil]
  | cons c cs ih =>
    rw [List.cons_append, matchAll_lit_cons, matchAll_chr_self]
    simp [ih]

theorem starLoop_head_stop (body : MState → List MState) (fuel : Nat) (s : MState)
    (h : body s = []) : (starLoop body fuel s).head? = some s := by
  cases fuel with
  | zero => rfl
  | succ n => simp [starLoop, h]

theorem starLoop_head_step (body : MState → List MState) (fuel : Nat) (s x y : MState)
    (hb : (body s).head? = some x) (hlt : x.rest.length < s.rest.length)
    (hx : (starLoop body fuel x).head? = some y) :
    (starLoop body (fuel + 1) s).head? = some y := by
  unfold starLoop
  apply head?_append_of_head?
  apply head?_flatMap_of_head? _ _ x y _ hx
  cases hbs : body s with
  | nil => simp [hbs] at hb
  | cons a t =>
    rw [hbs] at hb
    simp only [List.head?_cons, Option.some.injEq] at hb
    subst hb
    simp [List.filter_cons, hlt]

/-- Greedy `[A-Za-z0-9_]*` reads a whole run of word characters. -/
theorem starLoop_word_head (cs tail : Str) (fuel : Nat) (b : Bool) (caps : List (Nat × Str))
    (hf : cs.length ≤ fuel) (hw : ∀ c ∈ cs, isWord c = true)
    (ht : ∀ c ∈ tail.head?, isWord c = false) :
    (starLoop (matchAll reWord) fuel ⟨b, cs ++ tail, caps⟩).head?
      = some ⟨b && cs.isEmpty, tail, caps⟩ := by
  induction cs generalizing fuel b with
  | nil =>
    simp only [List.nil_append, List.isEmpty_nil, Bool.and_true]
    apply starLoop_head_stop
    cases tail with
    | nil => rfl
    | cons c t =>
      have : isWord c = false := ht c (by simp)
      simp [reWord, matchAll_cls_cons, this]
  | cons c cs ih =>
    cases fuel with
    | zero => simp at hf
    | succ n =>
      have hc : isWord c = true := hw c (by simp)
      have hn : cs.length ≤ n := by simpa using hf
      have := ih n false hn (fun d hd => hw d (by simp [hd]))
      simp only [Bool.false_and] at this
      refine starLoop_head_step _ n _ ⟨false, cs ++ tail, caps⟩ _ ?_ ?_ ?_
      · simp [reWord, matchAll_cls_cons, hc]
      · simp
      · simpa using this

/-- Greedy `[A-Za-z0-9_]+` reads a whole non-empty run of word characters. -/
theorem plus_word_head (seg tail : Str) (b : Bool) (caps : List (Nat × Str))
    (hne : seg ≠ []) (hw : ∀ c ∈ seg, isWord c = true)
    (ht : ∀ c ∈ tail.head?, isWord c = false) :
    (matchAll (Regex.plus reWord) ⟨b, seg ++ tail, caps⟩).head? = some ⟨false, tail, caps⟩ := by
  cases seg with
  | nil => exact absurd rfl hne
  | cons c cs =>
    have hc : isWord c = true := hw c (by simp)
    rw [matchAll_plus, List.cons_append]
    have h1 : matchAll reWord ⟨b, c :: (cs ++ tail), caps⟩ = [⟨false, cs ++ tail, caps⟩] := by
      simp [reWord, matchAll_cls_cons, hc]
    rw [h1]
    simp only [List.flatMap_cons, List.flatMap_nil, List.append_nil, matchAll_star]
    have := starLoop_word_head cs tail (cs ++ tail).length false caps (by simp)
      (fun d hd => hw d (by simp [hd])) ht
    simpa using this

theorem Join_dot_eq (s : Str) (ss : List Str) :
    Join (s :: ss) ['.'] = s ++ ss.flatMap (fun x => '.' :: x) := by
  induction ss generalizing s with
  | nil => simp [Join]
  | cons t ts ih =>
    rw [Join_cons_cons, ih]
    simp [List.flatMap_cons]

theorem isWord_dot : isWord '.' = false := by decide

theorem isWord_dollar : isWord '$' = false := by decide

theorem ne_dot_of_isWord (c : Char) (h : isWord c = true) : c ≠ '.' := by
  intro hc
  rw [hc, isWord_dot] at h
  cases h

theorem ne_dollar_of_isWord (c : Char) (h : isWord c = true) : c ≠ '$' := by
  intro hc
  rw [hc, isWord_dollar] at h
  cases h

theorem pathTail_head (seg tail : Str) (b : Bool) (caps : List (Nat × Str))
    (hne : seg ≠ []) (hw : ∀ c ∈ seg, isWord c = true)
    (ht : ∀ c ∈ tail.head?, isWord c = false) :
    (matchAll rePathTail ⟨b, '.' :: (seg ++ tail), caps⟩).head? = some ⟨false, tail, caps⟩ := by
  unfold rePathTail
  rw [matchAll_seq_cons, matchAll_chr_self]
  simp only [List.flatMap_cons, List.flatMap_nil, List.append_nil]
  rw [matchAll_seq_cons]
  apply head?_flatMap_of_head? _ _ _ _ (plus_word_head seg tail false caps hne hw ht)
  rfl

theorem pathTail_stop (rest : Str) (b : Bool) (caps : List (Nat × Str))
    (h : ∀ c ∈ rest.head?, c ≠ '.') : matchAll rePathTail ⟨b, rest, caps⟩ = [] := by
  unfold rePathTail
  rw [matchAll_seq_cons]
  cases rest with
  | nil => rw [matchAll_chr_nil]; rfl
  | cons c t =>
    rw [matchAll_chr_ne _ _ _ _ _ (h c (by simp))]
    rfl

/-- Greedy `(?:\.[A-Za-z0-9_]+)*` reads a whole run of dotted segments. -/
theorem starPathTail_head (segs : List Str) (tail : Str) (fuel : Nat) (b : Bool)
    (caps : List (Nat × Str))
    (hf : (segs.flatMap (fun x => '.' :: x)).length ≤ fuel)
    (hseg : ∀ s ∈ segs, s ≠ [] ∧ ∀ c ∈ s, isWord c = true)
    (ht : ∀ c ∈ tail.head?, isWord c = false ∧ c ≠ '.') :
    (starLoop (matchAll rePathTail) fuel ⟨b, segs.flatMap (fun x => '.' :: x) ++ tail, caps⟩).head?
      = some ⟨b && segs.isEmpty, tail, caps⟩ := by
  induction segs generalizing fuel b with
  | nil =>
    simp only [List.flatMap_nil, List.nil_append, List.isEmpty_nil, Bool.and_true]
    exact starLoop_head_stop _ _ _ (pathTail_stop tail b caps (fun c hc => (ht c hc).2))
  | cons seg segs ih =>
    cases fuel with
    | zero => simp at hf
    | succ n =>
      have hs := hseg seg (by simp)
      have hn : (segs.flatMap (fun x => '.' :: x)).length ≤ n := by
        simp only [List.flatMap_cons, List.cons_append, List.length_cons,
          List.length_append] at hf
        omega
      have hrest : ∀ c ∈ (segs.flatMap (fun x => '.' :: x) ++ tail).head?, isWord c = false := by
        intro c hc
        cases segs with
        | nil => simpa using (ht c (by simpa using hc)).1
        | cons s2 ss =>
          simp only [List.flatMap_cons, List.cons_append, List.head?_cons,
            Option.mem_def, Option.some.injEq] at hc
          rw [← hc]
          exact isWord_dot
      have ih' := ih n false hn (fun s hs' => hseg s (by simp [hs']))
      simp only [Bool.false_and] at ih'
      simp only [List.flatMap_cons, List.cons_append, List.append_assoc, List.isEmpty_cons,
        Bool.and_false]
      refine starLoop_head_step _ n _
        ⟨false, segs.flatMap (fun x => '.' :: x) ++ tail, caps⟩ _ ?_ ?_ ih'
      · exact pathTail_head seg _ b caps hs.1 hs.2 hrest
      · simp only [List.length_cons, List.length_append]
        omega

/-- Greedy `[A-Za-z0-9_]+(?:\.[A-Za-z0-9_]+)*` reads a whole dotted path. -/
theorem rePath_head (segs : List Str) (tail : Str) (b : Bool) (caps : List (Nat × Str))
    (hne : segs ≠ []) (hseg : ∀ s ∈ segs, s ≠ [] ∧ ∀ c ∈ s, isWord c = true)
    (ht : ∀ c ∈ tail.head?, isWord c = false ∧ c ≠ '.') :
    (matchAll rePath ⟨b, Join segs ['.'] ++ tail, caps⟩).head? = some ⟨false, tail, caps⟩ := by
  cases segs with
  | nil => exact absurd rfl hne
  | cons seg segs =>
    have hs := hseg seg (by simp)
    have hrest : ∀ c ∈ (segs.flatMap (fun x => '.' :: x) ++ tail).head?, isWord c = false := by
      intro c hc
      cases segs with
      | nil => simpa using (ht c (by simpa using hc)).1
      | cons s2 ss =>
        simp only [List.flatMap_cons, List.cons_append, List.head?_cons,
          Option.mem_def, Option.some.injEq] at hc
        rw [← hc]
        exact isWord_dot
    rw [Join_dot_eq, List.append_assoc]
    unfold rePath
    rw [matchAll_seq_cons]
    apply head?_flatMap_of_head? _ _ _ _ (plus_word_head seg _ b caps hs.1 hs.2 hrest)
    rw [matchAll_seq_cons, matchAll_star]
    apply head?_flatMap_of_head? _ _ ⟨false, tail, caps⟩
    · have := starPathTail_head segs tail (segs.flatMap (fun x => '.' :: x) ++ tail).length
        false caps (by simp) (fun s hs' => hseg s (by simp [hs'])) ht
      simpa using this
    · rfl

theorem flatMap_seq_nil (l : List MState) : l.flatMap (matchAll (Regex.seq [])) = l := by
  induction l with
  | nil => rfl
  | cons a t ih => simp [List.flatMap_cons, matchAll_seq_nil, ih]

theorem head?_group (i : Nat) (r : Regex) (s x : MState) (h : (matchAll r s).head? = some x) :
    (matchAll (.group i r) s).head?
      = some { x with caps := (i, s.rest.take (s.rest.length - x.rest.length)) :: x.caps } := by
  rw [matchAll_group, List.head?_map, h]
  rfl

/-! ### Searching -/

theorem search_cons_of_nil (re : Regex) (b : Bool) (c : Char) (cs : Str)
    (h : matchAll re ⟨b, c :: cs, []⟩ = []) : search re b (c :: cs) = search re false cs := by
  rw [search, h]
  rfl

theorem search_cons_of_head (re : Regex) (b : Bool) (c : Char) (cs : Str) (s : MState)
    (h : (matchAll re ⟨b, c :: cs, []⟩).head? = some s) :
    search re b (c :: cs) = some (c :: cs, s) := by
  rw [search, h]

theorem search_nil_of_nil (re : Regex) (b : Bool) (h : matchAll re ⟨b, [], []⟩ = []) :
    search re b [] = none := by
  rw [search, h]
  rfl

theorem allMatches_of_search_none (re : Regex) (fuel : Nat) (b : Bool) (rest : Str)
    (prev : Option Nat) (h : search re b rest = none) : allMatches re fuel b rest prev = [] := by
  cases fuel with
  | zero => rfl
  | succ n => simp [allMatches, h]

theorem allMatches_of_search_some (re : Regex) (fuel : Nat) (b : Bool) (rest start : Str)
    (s : MState) (prev : Option Nat) (h : search re b rest = some (start, s))
    (hlen : s.rest.length ≠ rest.length) :
    allMatches re (fuel + 1) b rest prev
      = submatches re start s :: allMatches re fuel false s.rest (some s.rest.length) := by
  simp [allMatches, h, hlen]

/-! ### The marker `(?:^|[^A-Za-z0-9_])(?:\.|\$\.)` -/

theorem marker_nil (X : List Regex) (rest : Str) (caps : List (Nat × Str))
    (h : ∀ c d t, rest = c :: d :: t → isWord c = true ∨ (d ≠ '.' ∧ d ≠ '$')) :
    matchAll (Regex.seq (reMarker ++ X)) ⟨false, rest, caps⟩ = [] := by
  cases rest with
  | nil =>
    simp [reMarker, matchAll_seq_cons, matchAll_alt, matchAll_bot, reNonWord, matchAll_cls_nil]
  | cons c r =>
    cases r with
    | nil =>
      by_cases hc : isWord c = true <;>
      simp [reMarker, matchAll_seq_cons, matchAll_alt, matchAll_bot, reNonWord,
        matchAll_cls_cons, matchAll_chr_nil, hc]
    | cons d t =>
      rcases h c d t rfl with hc | ⟨h1, h2⟩
      · simp [reMarker, matchAll_seq_cons, matchAll_alt, matchAll_bot, reNonWord,
          matchAll_cls_cons, hc]
      · by_cases hc : isWord c = true <;>
        simp [reMarker, matchAll_seq_cons, matchAll_alt, matchAll_bot, reNonWord,
          matchAll_cls_cons, matchAll_chr_cons, hc, h1, h2]

theorem markerFree_cons_cons (c d : Char) (t : Str) :
    markerFree (c :: d :: t) = ((isWord c || (d != '.' && d != '$')) && markerFree (d :: t)) :=
  rfl

theorem search_none_of_markerFree (X : List Regex) (text : Str) (h : markerFree text = true) :
    search (Regex.seq (reMarker ++ X)) false text = none := by
  induction text with
  | nil =>
    apply search_nil_of_nil
    exact marker_nil X [] [] (fun c d t h => by cases h)
  | cons c cs ih =>
    rw [search_cons_of_nil]
    · apply ih
      cases cs with
      | nil => rfl
      | cons d t =>
        rw [markerFree_cons_cons] at h
        simp only [Bool.and_eq_true] at h
        exact h.2
    · apply marker_nil
      intro c' d t hrest
      simp only [List.cons.injEq] at hrest
      obtain ⟨rfl, rfl⟩ := hrest
      rw [markerFree_cons_cons] at h
      simp only [Bool.and_eq_true, Bool.or_eq_true, bne_iff_ne, ne_eq] at h
      exact h.1

theorem markerFree_word_cons (c : Char) (rest : Str) (hc : isWord c = true) :
    markerFree (c :: rest) = markerFree rest := by
  cases rest with
  | nil => rfl
  | cons d t => simp [markerFree_cons_cons, hc]

theorem markerFree_word_append (w rest : Str) (hw : ∀ c ∈ w, isWord c = true) :
    markerFree (w ++ rest) = markerFree rest := by
  induction w with
  | nil => rfl
  | cons c cs ih =>
    rw [List.cons_append, markerFree_word_cons c _ (hw c (by simp))]
    exact ih (fun d hd => hw d (by simp [hd]))

theorem markerFree_segments (segs : List Str) (tail : Str)
    (hseg : ∀ s ∈ segs, s ≠ [] ∧ ∀ c ∈ s, isWord c = true) :
    markerFree (segs.flatMap (fun x => '.' :: x) ++ tail) = markerFree tail := by
  induction segs with
  | nil => rfl
  | cons seg segs ih =>
    have hs := hseg seg (by simp)
    cases seg with
    | nil => exact absurd rfl hs.1
    | cons c cs =>
      have hc : isWord c = true := hs.2 c (by simp)
      simp only [List.flatMap_cons, List.cons_append, List.append_assoc]
      rw [markerFree_cons_cons]
      have h1 := ne_dot_of_isWord c hc
      have h2 := ne_dollar_of_isWord c hc
      have h3 : (isWord '.' || (c != '.' && c != '$')) = true := by simp [h1, h2]
      rw [h3, Bool.true_and]
      rw [← List.cons_append, markerFree_word_append (c :: cs) _ hs.2]
      exact ih (fun s hs' => hseg s (by simp [hs']))

/-! ### What a match leaves unread is a suffix of the text -/

theorem starLoop_suffix (body : MState → List MState)
    (hb : ∀ s s', s' ∈ body s → s'.rest <:+ s.rest) (n : Nat) (s s' : MState)
    (h : s' ∈ starLoop body n s) : s'.rest <:+ s.rest := by
  induction n generalizing s with
  | zero =>
    simp only [starLoop, List.mem_singleton] at h
    rw [h]
  | succ n ih =>
    simp only [starLoop, List.mem_append, List.mem_flatMap, List.mem_filter,
      List.mem_singleton] at h
    rcases h with ⟨x, ⟨hx, _⟩, hs'⟩ | h
    · exact (ih x hs').trans (hb s x hx)
    · rw [h]

theorem matchAll_suffix (r : Regex) (s s' : MState) (h : s' ∈ matchAll r s) :
    s'.rest <:+ s.rest := by
  induction r generalizing s s' with
  | empty =>
    simp only [matchAll_empty, List.mem_singleton] at h
    rw [h]
  | cls p =>
    obtain ⟨b, rest, caps⟩ := s
    cases rest with
    | nil => simp [matchAll_cls_nil] at h
    | cons c t =>
      rw [matchAll_cls_cons] at h
      by_cases hp : p c = true
      · simp only [hp, if_true, List.mem_singleton] at h
        rw [h]
        exact List.suffix_cons c t
      · simp [hp] at h
  | bot =>
    rw [matchAll_bot] at h
    by_cases hb : s.atStart = true
    · simp only [hb, if_true, List.mem_singleton] at h
      rw [h]
    · simp [hb] at h
  | eot =>
    rw [matchAll_eot] at h
    by_cases hb : s.rest.isEmpty = true
    · simp only [hb, if_true, List.mem_singleton] at h
      rw [h]
    · simp [hb] at h
  | cat a b iha ihb =>
    rw [matchAll_cat, List.mem_flatMap] at h
    obtain ⟨x, hx, hs'⟩ := h
    exact (ihb x s' hs').trans (iha s x hx)
  | alt a b iha ihb =>
    rw [matchAll_alt, List.mem_append] at h
    rcases h with h | h
    · exact iha s s' h
    · exact ihb s s' h
  | star r ih =>
    rw [matchAll_star] at h
    exact starLoop_suffix _ ih _ s s' h
  | group i r ih =>
    rw [matchAll_group, List.mem_map] at h
    obtain ⟨x, hx, rfl⟩ := h
    exact ih s x hx

theorem matchAll_chr_of_not_mem (c : Char) (s : MState) (h : c ∉ s.rest) :
    matchAll (Regex.chr c) s = [] := by
  obtain ⟨b, rest, caps⟩ := s
  cases rest with
  | nil => rfl
  | cons d t =>
    apply matchAll_chr_ne
    intro hd
    apply h
    simp [hd]

theorem seq_cons_nil_of_not_mem (c : Char) (r : Regex) (rs : List Regex)
    (h : ∀ s : MState, c ∉ s.rest → matchAll (Regex.seq rs) s = []) (s : MState)
    (hs : c ∉ s.rest) : matchAll (Regex.seq (r :: rs)) s = [] := by
  rw [matchAll_seq_cons, List.flatMap_eq_nil_iff]
  intro x hx
  apply h
  intro hc
  exact hs ((matchAll_suffix r s x hx).subset hc)

/-- The indexed-accessor pattern needs a double quote to match. -/
theorem indexAccessRe_nil_of_no_quote (s : MState) (h : '"' ∉ s.rest) :
    matchAll indexAccessRe s = [] := by
  unfold indexAccessRe
  refine seq_cons_nil_of_not_mem _ _ _ ?_ s h
  refine seq_cons_nil_of_not_mem _ _ _ ?_
  refine seq_cons_nil_of_not_mem _ _ _ ?_
  refine seq_cons_nil_of_not_mem _ _ _ ?_
  refine seq_cons_nil_of_not_mem _ _ _ ?_
  intro s hs
  rw [matchAll_seq_cons, matchAll_group, matchAll_seq_cons, matchAll_chr_of_not_mem _ _ hs]
  rfl

theorem search_none_of_forall_nil (re : Regex) (P : Str → Prop)
    (hP : ∀ c t, P (c :: t) → P t)
    (hre : ∀ s : MState, P s.rest → matchAll re s = []) (b : Bool) (text : Str)
    (h : P text) : search re b text = none := by
  induction text generalizing b with
  | nil => exact search_nil_of_nil re b (hre _ h)
  | cons c cs ih =>
    rw [search_cons_of_nil re b c cs (hre _ h)]
    exact ih false (hP c cs h)

theorem search_index_none_of_no_quote (b : Bool) (text : Str) (h : '"' ∉ text) :
    search indexAccessRe b text = none :=
  search_none_of_forall_nil indexAccessRe (fun t => '"' ∉ t)
    (fun c _ hct hq => hct (List.mem_cons_of_mem c hq))
    (fun s hs => indexAccessRe_nil_of_no_quote s hs) b text h

/-! ## The dotted accessor `{{ .Values.<path> }}` -/

theorem dotAccessRe_at_marker (m : Str) (hm : m = ['.'] ∨ m = ['$', '.']) (c : Char)
    (hc : isWord c = false) (t : Str) :
    matchAll dotAccessRe ⟨false, c :: (m ++ "Values.".toList ++ t), []⟩
      = matchAll (.group 1 rePath) ⟨false, t, []⟩ := by
  rcases hm with rfl | rfl <;>
  simp [dotAccessRe, reMarker, matchAll_seq_cons, matchAll_alt, matchAll_bot, matchAll_cls_cons,
    matchAll_chr_cons, reNonWord, hc, matchAll_lit_cons, matchAll_lit_nil, flatMap_seq_nil,
    matchAll_seq_nil]

theorem dotAccessRe_head (m : Str) (hm : m = ['.'] ∨ m = ['$', '.']) (c : Char)
    (hc : isWord c = false) (segs : List Str) (tail : Str)
    (hne : segs ≠ []) (hseg : ∀ s ∈ segs, s ≠ [] ∧ ∀ c ∈ s, isWord c = true)
    (ht : ∀ c ∈ tail.head?, isWord c = false ∧ c ≠ '.') :
    (matchAll dotAccessRe
        ⟨false, c :: (m ++ "Values.".toList ++ (Join segs ['.'] ++ tail)), []⟩).head?
      = some ⟨false, tail, [(1, Join segs ['.'])]⟩ := by
  rw [dotAccessRe_at_marker m hm c hc, head?_group 1 rePath _ _
    (rePath_head segs tail false [] hne hseg ht)]
  simp

theorem numGroups_dotAccessRe : dotAccessRe.numGroups = 1 := by decide

theorem dotted_findAll (m : Str) (hm : m = ['.'] ∨ m = ['$', '.']) (segs : List Str)
    (hne : segs ≠ []) (hseg : ∀ s ∈ segs, s ≠ [] ∧ ∀ c ∈ s, isWord c = true) :
    ∃ whole, FindAllStringSubmatch dotAccessRe (dottedText m (Join segs ['.']))
      = [[whole, Join segs ['.']]] := by
  have hhead := dotAccessRe_head m hm ' ' (by decide) segs " \x7d\x7d".toList hne hseg
    (by decide)
  have hsearch : search dotAccessRe true (dottedText m (Join segs ['.']))
      = some (' ' :: (m ++ "Values.".toList ++ (Join segs ['.'] ++ " \x7d\x7d".toList)),
          ⟨false, " \x7d\x7d".toList, [(1, Join segs ['.'])]⟩) := by
    have h0 : ∀ t : Str, matchAll dotAccessRe ⟨true, '{' :: '{' :: t, []⟩ = [] := by
      intro t
      simp [dotAccessRe, reMarker, matchAll_seq_cons, matchAll_alt, matchAll_bot,
        matchAll_cls_cons, matchAll_chr_cons, reNonWord, isWord]
    have h1 : ∀ t : Str, matchAll dotAccessRe ⟨false, '{' :: ' ' :: t, []⟩ = [] := by
      intro t
      simp [dotAccessRe, reMarker, matchAll_seq_cons, matchAll_alt, matchAll_bot,
        matchAll_cls_cons, matchAll_chr_cons, reNonWord, isWord]
    have hT : dottedText m (Join segs ['.'])
        = '{' :: '{' :: ' ' :: (m ++ "Values.".toList ++ (Join segs ['.'] ++ " \x7d\x7d".toList)) := by
      simp [dottedText]
    rw [hT, search_cons_of_nil _ _ _ _ (h0 _), search_cons_of_nil _ _ _ _ (h1 _),
      search_cons_of_head _ _ _ _ _ hhead]
  unfold FindAllStringSubmatch
  have hend : search dotAccessRe false " \x7d\x7d".toList = none := by decide
  rw [allMatches_of_search_some _ _ _ _ _ _ _ hsearch (by simp [dottedText]),
    allMatches_of_search_none _ _ _ _ _ hend]
  refine ⟨List.take
    ((' ' :: (m ++ "Values.".toList ++ (Join segs ['.'] ++ " \x7d\x7d".toList))).length
      - " \x7d\x7d".toList.length)
    (' ' :: (m ++ "Values.".toList ++ (Join segs ['.'] ++ " \x7d\x7d".toList))), ?_⟩
  rw [submatches, numGroups_dotAccessRe]
  rfl

theorem dot_cons_Join (segs : List Str) (hne : segs ≠ []) :
    '.' :: Join segs ['.'] = segs.flatMap (fun x => '.' :: x) := by
  cases segs with
  | nil => exact absurd rfl hne
  | cons s ss => rw [Join_dot_eq]; simp [List.flatMap_cons]

theorem mem_flatMap_dot (segs : List Str) (c : Char)
    (h : c ∈ segs.flatMap (fun x => '.' :: x)) : c = '.' ∨ ∃ s ∈ segs, c ∈ s := by
  simp only [List.mem_flatMap, List.mem_cons] at h
  obtain ⟨s, hs, hc | hc⟩ := h
  · exact Or.inl hc
  · exact Or.inr ⟨s, hs, hc⟩

theorem mem_Join_dot (segs : List Str) (c : Char) (h : c ∈ Join segs ['.']) :
    c = '.' ∨ ∃ s ∈ segs, c ∈ s := by
  cases segs with
  | nil => simp [Join] at h
  | cons s ss =>
    rw [Join_dot_eq, List.mem_append] at h
    rcases h with h | h
    · exact Or.inr ⟨s, by simp, h⟩
    · rcases mem_flatMap_dot ss c h with h | ⟨s', hs', hc⟩
      · exact Or.inl h
      · exact Or.inr ⟨s', by simp [hs'], hc⟩

theorem Join_dot_ne_nil (segs : List Str) (hne : segs ≠ [])
    (hseg : ∀ s ∈ segs, s ≠ [] ∧ ∀ c ∈ s, isWord c = true) : Join segs ['.'] ≠ [] := by
  cases segs with
  | nil => exact absurd rfl hne
  | cons s ss =>
    rw [Join_dot_eq]
    have := (hseg s (by simp)).1
    simp [this]

theorem quote_not_mem_dottedText (m : Str) (hm : m = ['.'] ∨ m = ['$', '.'])
    (segs : List Str) (hseg : ∀ s ∈ segs, s ≠ [] ∧ ∀ c ∈ s, isWord c = true) :
    '"' ∉ dottedText m (Join segs ['.']) := by
  intro h
  have hp : '"' ∉ Join segs ['.'] := by
    intro hq
    rcases mem_Join_dot segs '"' hq with h1 | ⟨s, hs, hc⟩
    · exact absurd h1 (by decide)
    · have := (hseg s hs).2 '"' hc
      exact absurd this (by decide)
  rcases hm with rfl | rfl <;> simp [dottedText, hp] at h

theorem dotted_scanDotAccess (m : Str) (hm : m = ['.'] ∨ m = ['$', '.']) (segs : List Str)
    (hne : segs ≠ []) (hseg : ∀ s ∈ segs, s ≠ [] ∧ ∀ c ∈ s, isWord c = true)
    (used : List Str) :
    scanDotAccess (dottedText m (Join segs ['.'])) used = setAdd used (Join segs ['.']) := by
  obtain ⟨whole, hw⟩ := dotted_findAll m hm segs hne hseg
  unfold scanDotAccess
  rw [hw]
  simp [Join_dot_ne_nil segs hne hseg]

theorem dotted_scanIndexAccess (m : Str) (hm : m = ['.'] ∨ m = ['$', '.']) (segs : List Str)
    (hseg : ∀ s ∈ segs, s ≠ [] ∧ ∀ c ∈ s, isWord c = true) (used : List Str) :
    scanIndexAccess (dottedText m (Join segs ['.'])) used = used := by
  unfold scanIndexAccess FindAllStringSubmatch
  rw [allMatches_of_search_none _ _ _ _ _
    (search_index_none_of_no_quote true _ (quote_not_mem_dottedText m hm segs hseg))]
  rfl

theorem rootValuesRe_eq : rootValuesRe = Regex.seq (reMarker ++
    [Regex.lit "Values".toList,
     .group 1 (.alt (.cls (fun c => !(isWord c || c == '.'))) .eot)]) := rfl

theorem dotted_matchString_root (m : Str) (hm : m = ['.'] ∨ m = ['$', '.']) (segs : List Str)
    (hne : segs ≠ []) (hseg : ∀ s ∈ segs, s ≠ [] ∧ ∀ c ∈ s, isWord c = true) :
    MatchString rootValuesRe (dottedText m (Join segs ['.'])) = false := by
  have hfree : markerFree ('.' :: 'V' :: 'a' :: 'l' :: 'u' :: 'e' :: 's' ::
      ('.' :: (Join segs ['.'] ++ " \x7d\x7d".toList))) = true := by
    have h := markerFree_segments ("Values".toList :: segs) " \x7d\x7d".toList (by
      intro s hs
      rcases List.mem_cons.1 hs with rfl | hs
      · exact ⟨by decide, by decide⟩
      · exact hseg s hs)
    rw [← List.cons_append, dot_cons_Join segs hne]
    simpa [List.flatMap_cons] using h.trans (by decide)
  have htail := search_none_of_markerFree
    [Regex.lit "Values".toList,
     .group 1 (.alt (.cls (fun c => !(isWord c || c == '.'))) .eot)] _ hfree
  rw [← rootValuesRe_eq] at htail
  have h0 : ∀ t : Str, matchAll rootValuesRe ⟨true, '{' :: '{' :: t, []⟩ = [] := by
    intro t
    simp [rootValuesRe, reMarker, matchAll_seq_cons, matchAll_alt, matchAll_bot,
      matchAll_cls_cons, matchAll_chr_cons, reNonWord, isWord]
  have h1 : ∀ t : Str, matchAll rootValuesRe ⟨false, '{' :: ' ' :: t, []⟩ = [] := by
    intro t
    simp [rootValuesRe, reMarker, matchAll_seq_cons, matchAll_alt, matchAll_bot,
      matchAll_cls_cons, matchAll_chr_cons, reNonWord, isWord]
  have h2 : ∀ (c : Char) (t : Str), isWord c = false →
      matchAll rootValuesRe ⟨false,
        c :: '.' :: 'V' :: 'a' :: 'l' :: 'u' :: 'e' :: 's' :: '.' :: t, []⟩ = [] := by
    intro c t hc
    simp [rootValuesRe, reMarker, matchAll_seq_cons, matchAll_alt, matchAll_bot,
      matchAll_cls_cons, matchAll_chr_cons, reNonWord, hc, matchAll_lit_cons,
      matchAll_lit_nil, matchAll_seq_nil, matchAll_group, matchAll_eot, isWord_dot]
  have h3 : ∀ t : Str, matchAll rootValuesRe ⟨false,
        ' ' :: '$' :: '.' :: 'V' :: 'a' :: 'l' :: 'u' :: 'e' :: 's' :: '.' :: t, []⟩ = [] := by
    intro t
    simp [rootValuesRe, reMarker, matchAll_seq_cons, matchAll_alt, matchAll_bot,
      matchAll_cls_cons, matchAll_chr_cons, reNonWord, matchAll_lit_cons,
      matchAll_lit_nil, matchAll_seq_nil, matchAll_group, matchAll_eot, isWord]
  unfold MatchString
  rcases hm with rfl | rfl
  · have hT : dottedText ['.'] (Join segs ['.'])
        = '{' :: '{' :: ' ' :: '.' :: 'V' :: 'a' :: 'l' :: 'u' :: 'e' :: 's' ::
            ('.' :: (Join segs ['.'] ++ " \x7d\x7d".toList)) := by
      simp [dottedText]
    rw [hT, search_cons_of_nil _ _ _ _ (h0 _), search_cons_of_nil _ _ _ _ (h1 _),
      search_cons_of_nil _ _ _ _ (h2 ' ' _ (by decide)), htail]
    rfl
  · have hT : dottedText ['$', '.'] (Join segs ['.'])
        = '{' :: '{' :: ' ' :: '$' :: '.' :: 'V' :: 'a' :: 'l' :: 'u' :: 'e' :: 's' ::
            ('.' :: (Join segs ['.'] ++ " \x7d\x7d".toList)) := by
      simp [dottedText]
    rw [hT, search_cons_of_nil _ _ _ _ (h0 _), search_cons_of_nil _ _ _ _ (h1 _),
      search_cons_of_nil _ _ _ _ (h3 _),
      search_cons_of_nil _ _ _ _ (h2 '$' _ (by decide)), htail]
    rfl

theorem collectUsedValues_single (Separator : Char) (vals : List (Str × Value)) (t : File)
    (inc : Bool) (h : participates Separator inc t = true) :
    collectUsedValues Separator ⟨vals, [t]⟩ inc
      = (scanIndexAccess t.Data (scanDotAccess t.Data []),
         scanRootValues t.Data false) := by
  unfold participates at h
  simp only [Bool.not_eq_true'] at h
  simp [collectUsedValues, scanTemplate, h]

theorem dotted_collectUsedValues (m : Str) (hm : m = ['.'] ∨ m = ['$', '.']) (segs : List Str)
    (hne : segs ≠ []) (hseg : ∀ s ∈ segs, s ≠ [] ∧ ∀ c ∈ s, isWord c = true)
    (Separator : Char) (vals : List (Str × Value)) (name : Str) (inc : Bool)
    (h : participates Separator inc ⟨name, dottedText m (Join segs ['.'])⟩ = true) :
    collectUsedValues Separator ⟨vals, [⟨name, dottedText m (Join segs ['.'])⟩]⟩ inc
      = ([Join segs ['.']], false) := by
  rw [collectUsedValues_single _ _ _ _ h]
  simp only [dotted_scanDotAccess m hm segs hne hseg, dotted_scanIndexAccess m hm segs hseg,
    scanRootValues, dotted_matchString_root m hm segs hne hseg]
  simp [setAdd]

/-! ### The chain-shaped values tree -/

theorem HasPrefix_iff (s pre : Str) : HasPrefix s pre = true ↔ pre <+: s := by
  unfold HasPrefix
  exact List.isPrefixOf_iff_prefix

theorem chain_full_mem (ks : List Str) (pre : Str) (hp : pre ≠ []) :
    pre ++ ks.flatMap (fun x => '.' :: x) ∈ pathsFrom pre (chainValue ks) := by
  induction ks generalizing pre with
  | nil => simp [chainValue, pathsFrom, hp]
  | cons k ks ih =>
    have := ih (pre ++ ['.'] ++ k) (by simp)
    simp only [chainValue, pathsFrom, pathsFromStr, childKey, hp, ne_eq, not_false_eq_true,
      if_true, List.append_nil, List.flatMap_cons]
    apply List.mem_append_right
    simpa [List.append_assoc] using this

theorem chain_paths (ks : List Str) (pre x : Str) (hp : pre ≠ [])
    (hx : x ∈ pathsFrom pre (chainValue ks)) :
    x = pre ++ ks.flatMap (fun x => '.' :: x) ∨
      (x ≠ pre ++ ks.flatMap (fun x => '.' :: x) ∧
        HasPrefix (pre ++ ks.flatMap (fun x => '.' :: x)) (x ++ ['.']) = true) := by
  induction ks generalizing pre with
  | nil =>
    simp only [chainValue, pathsFrom, hp, ne_eq, not_false_eq_true, if_true,
      List.mem_singleton] at hx
    left
    simp [hx]
  | cons k ks ih =>
    simp only [chainValue, pathsFrom, pathsFromStr, childKey, hp, ne_eq, not_false_eq_true,
      if_true, List.append_nil, List.mem_append, List.mem_singleton] at hx
    rcases hx with hx | hx
    · right
      subst hx
      refine ⟨?_, ?_⟩
      · intro h
        have := congrArg List.length h
        simp at this
      · rw [HasPrefix_iff]
        simp only [List.flatMap_cons, List.cons_append]
        exact ⟨k ++ ks.flatMap (fun x => '.' :: x), by simp⟩
    · have := ih (pre ++ ['.'] ++ k) (by simp) hx
      simpa [List.flatMap_cons, List.append_assoc] using this

theorem chain_defined (segs : List Str) (hne : segs ≠ []) (hseg : ∀ s ∈ segs, s ≠ [])
    (ts : List File) :
    Join segs ['.'] ∈ collectDefinedValues ⟨chainEntries segs, ts⟩ ∧
    ∀ x ∈ collectDefinedValues ⟨chainEntries segs, ts⟩,
      x = Join segs ['.'] ∨
        (x ≠ Join segs ['.'] ∧ HasPrefix (Join segs ['.']) (x ++ ['.']) = true) := by
  cases segs with
  | nil => exact absurd rfl hne
  | cons k ks =>
    have hk : k ≠ [] := hseg k (by simp)
    unfold collectDefinedValues
    simp only [mem_flattenValues, List.not_mem_nil, false_or, chainEntries, pathsFrom,
      pathsFromStr, childKey, ne_eq, not_true_eq_false, if_false, List.nil_append,
      List.append_nil, Join_dot_eq]
    exact ⟨chain_full_mem ks k hk, fun x hx => chain_paths ks k x hk hx⟩

theorem dotted_CheckChart (m : Str) (hm : m = ['.'] ∨ m = ['$', '.']) (segs : List Str)
    (hne : segs ≠ []) (hseg : ∀ s ∈ segs, s ≠ [] ∧ ∀ c ∈ s, isWord c = true)
    (Separator : Char) (name : Str) (cfg : Config)
    (h : participates Separator cfg.IncludeSubcharts
      ⟨name, dottedText m (Join segs ['.'])⟩ = true) :
    CheckChart Separator
        (some ⟨chainEntries segs, [⟨name, dottedText m (Join segs ['.'])⟩]⟩) cfg
      = (⟨[], []⟩, none) := by
  obtain ⟨hmem, hall⟩ := chain_defined segs hne (fun s hs => (hseg s hs).1)
    [⟨name, dottedText m (Join segs ['.'])⟩]
  rw [CheckChart_some, dotted_collectUsedValues m hm segs hne hseg Separator _ name _ h]
  have h1 : definedButNotUsed
      (collectDefinedValues ⟨chainEntries segs, [⟨name, dottedText m (Join segs ['.'])⟩]⟩)
      [Join segs ['.']] = [] := by
    rw [List.eq_nil_iff_forall_not_mem]
    intro d hd
    rw [mem_definedButNotUsed] at hd
    obtain ⟨hdef, hcont, hused, _⟩ := hd
    rcases hall d hdef with hx | ⟨hne2, hpre⟩
    · exact hused (by simp [hx])
    · have := hcont _ hmem (fun e => hne2 e.symm)
      rw [hpre] at this
      cases this
  have h2 : usedButNotDefined [Join segs ['.']]
      (collectDefinedValues ⟨chainEntries segs, [⟨name, dottedText m (Join segs ['.'])⟩]⟩)
      = [] := by
    rw [List.eq_nil_iff_forall_not_mem]
    intro u hu
    rw [mem_usedButNotDefined] at hu
    obtain ⟨hin, hnd, _⟩ := hu
    rw [List.mem_singleton] at hin
    subst hin
    exact hnd hmem
  simp [h1, h2]

/-- C5: for a dotted path `p` of non-empty word segments and a marker `m`, "."
or "$.", the template text `dottedText m p` (m, "Values." and p between the
braces) yields the used set of the single path `p`, the full path and not its
prefixes, and wholeRootUsed = false; a chart whose only defined leaf is `p` and
whose template is that text gives two empty result lists. -/
theorem C5_dotted_accessor (segs : List Str) (m : Str) (Separator : Char) (name : Str)
    (vals : List (Str × Value)) (cfg : Config)
    (hne : segs ≠ []) (hseg : ∀ s ∈ segs, s ≠ [] ∧ ∀ c ∈ s, isWord c = true)
    (hm : m = ['.'] ∨ m = ['$', '.'])
    (hpart : participates Separator cfg.IncludeSubcharts
      ⟨name, dottedText m (Join segs ['.'])⟩ = true) :
    collectUsedValues Separator ⟨vals, [⟨name, dottedText m (Join segs ['.'])⟩]⟩
        cfg.IncludeSubcharts = ([Join segs ['.']], false) ∧
    CheckChart Separator
        (some ⟨chainEntries segs, [⟨name, dottedText m (Join segs ['.'])⟩]⟩) cfg
      = (⟨[], []⟩, none) :=
  ⟨dotted_collectUsedValues m hm segs hne hseg Separator vals name _ hpart,
   dotted_CheckChart m hm segs hne hseg Separator name cfg hpart⟩

theorem C5_witness :
    (["image".toList, "tag".toList] ≠ []) ∧
    (∀ s ∈ ["image".toList, "tag".toList], s ≠ [] ∧ ∀ c ∈ s, isWord c = true) ∧
    participates '/' false
      ⟨"templates/deploy.yaml".toList, dottedText ['$', '.'] "image.tag".toList⟩ = true ∧
    collectUsedValues '/'
        ⟨[], [⟨"templates/deploy.yaml".toList, "\x7b\x7b $.Values.image.tag \x7d\x7d".toList⟩]⟩ false
      = (["image.tag".toList], false) ∧
    CheckChart '/'
        (some ⟨[("image".toList, .strMap [("tag".toList, .leaf)])],
          [⟨"templates/deploy.yaml".toList, "\x7b\x7b $.Values.image.tag \x7d\x7d".toList⟩]⟩) ⟨false⟩
      = (⟨[], []⟩, none) :=
  ⟨by decide, by decide, by decide,
   C5_dotted_accessor ["image".toList, "tag".toList] ['$', '.'] '/'
     "templates/deploy.yaml".toList [] ⟨false⟩ (by decide) (by decide) (Or.inr rfl) (by decide)⟩

/-! ## The whole-root pattern -/

theorem search_isSome_of_match (re : Regex) (pre rest : Str) (b : Bool)
    (h : matchAll re ⟨b && pre.isEmpty, rest, []⟩ ≠ []) :
    (search re b (pre ++ rest)).isSome = true := by
  induction pre generalizing b with
  | nil =>
    simp only [List.isEmpty_nil, Bool.and_true] at h
    simp only [List.nil_append]
    cases hm : matchAll re ⟨b, rest, []⟩ with
    | nil => exact absurd hm h
    | cons x xs =>
      cases rest with
      | nil => simp [search, hm]
      | cons c cs => simp [search, hm]
  | cons x pre ih =>
    simp only [List.isEmpty_cons, Bool.and_false] at h
    rw [List.cons_append]
    cases hm : (matchAll re ⟨b, x :: (pre ++ rest), []⟩).head? with
    | some s => simp [search, hm]
    | none =>
      have := ih false (by simpa using h)
      simpa [search, hm] using this

theorem rootValuesRe_cons : rootValuesRe
    = Regex.seq (.alt .bot reNonWord ::
        [.alt (Regex.chr '.') (Regex.seq [Regex.chr '$', Regex.chr '.']),
         Regex.lit "Values".toList,
         .group 1 (.alt (.cls (fun c => !(isWord c || c == '.'))) .eot)]) := rfl

theorem rootValuesRe_tail (b : Bool) (m post : Str) (hm : m = ['.'] ∨ m = ['$', '.'])
    (hpost : ∀ c ∈ post.head?, isWord c = false ∧ c ≠ '.') :
    matchAll (Regex.seq
        [.alt (Regex.chr '.') (Regex.seq [Regex.chr '$', Regex.chr '.']),
         Regex.lit "Values".toList,
         .group 1 (.alt (.cls (fun c => !(isWord c || c == '.'))) .eot)])
      ⟨b, m ++ "Values".toList ++ post, []⟩ ≠ [] := by
  cases post with
  | nil =>
    rcases hm with rfl | rfl <;>
    simp [matchAll_seq_cons, matchAll_alt, matchAll_cls_cons, matchAll_chr_cons,
      matchAll_lit_cons, matchAll_lit_nil, matchAll_seq_nil, matchAll_group, matchAll_eot,
      matchAll_cls_nil, matchAll_chr_nil]
  | cons d t =>
    obtain ⟨h1, h2⟩ := hpost d (by simp)
    rcases hm with rfl | rfl <;>
    simp [matchAll_seq_cons, matchAll_alt, matchAll_cls_cons, matchAll_chr_cons,
      matchAll_lit_cons, matchAll_lit_nil, matchAll_seq_nil, matchAll_group, matchAll_eot,
      h1, h2]

theorem rootValuesRe_at_start (m post : Str) (hm : m = ['.'] ∨ m = ['$', '.'])
    (hpost : ∀ c ∈ post.head?, isWord c = false ∧ c ≠ '.') :
    matchAll rootValuesRe ⟨true, m ++ "Values".toList ++ post, []⟩ ≠ [] := by
  intro h
  rw [rootValuesRe_cons, matchAll_seq_cons, List.flatMap_eq_nil_iff] at h
  exact rootValuesRe_tail true m post hm hpost
    (h ⟨true, m ++ "Values".toList ++ post, []⟩ (by simp [matchAll_alt, matchAll_bot]))

theorem rootValuesRe_after_nonword (b : Bool) (c : Char) (hc : isWord c = false)
    (m post : Str) (hm : m = ['.'] ∨ m = ['$', '.'])
    (hpost : ∀ c ∈ post.head?, isWord c = false ∧ c ≠ '.') :
    matchAll rootValuesRe ⟨b, c :: (m ++ "Values".toList ++ post), []⟩ ≠ [] := by
  intro h
  rw [rootValuesRe_cons, matchAll_seq_cons, List.flatMap_eq_nil_iff] at h
  exact rootValuesRe_tail false m post hm hpost
    (h ⟨false, m ++ "Values".toList ++ post, []⟩
      (by simp [matchAll_alt, reNonWord, matchAll_cls_cons, hc]))

theorem wholeRoot_matchString (pre m post : Str) (hm : m = ['.'] ∨ m = ['$', '.'])
    (hpre : ∀ c ∈ pre.getLast?, isWord c = false)
    (hpost : ∀ c ∈ post.head?, isWord c = false ∧ c ≠ '.') :
    MatchString rootValuesRe (wholeRootText pre m post) = true := by
  unfold MatchString wholeRootText
  rcases List.eq_nil_or_concat pre with rfl | ⟨L, c, rfl⟩
  · have := search_isSome_of_match rootValuesRe [] (m ++ "Values".toList ++ post) true
      (by simpa using rootValuesRe_at_start m post hm hpost)
    simpa using this
  · have hc : isWord c = false := hpre c (by simp)
    have := search_isSome_of_match rootValuesRe L (c :: (m ++ "Values".toList ++ post)) true
      (rootValuesRe_after_nonword _ c hc m post hm hpost)
    simpa [List.append_assoc] using this

/-- C6 at a failing input: in the template that indexes `.Values` with the one
quoted literal `a b`, the pattern takes the literal whole (its second group is
`a b`), yet the used set receives the path `a.b`, the literal split at its
blank, and not `a b`. -/
theorem C6_literal_with_blank_is_split :
    FindAllStringSubmatch indexAccessRe "\x7b\x7b index .Values \"a b\" \x7d\x7d".toList
      = [["index .Values \"a b\"".toList, "\"a b\"".toList, "a b".toList, []]] ∧
    collectUsedValues '/'
        ⟨[], [⟨"templates/deploy.yaml".toList,
          "\x7b\x7b index .Values \"a b\" \x7d\x7d".toList⟩]⟩ false
      = (["a.b".toList], true) ∧
    "a b".toList ∉ (collectUsedValues '/'
        ⟨[], [⟨"templates/deploy.yaml".toList,
          "\x7b\x7b index .Values \"a b\" \x7d\x7d".toList⟩]⟩ false).1 := by
  decide

/-! ## The fuel of the matcher is sufficient

`matchAll` runs `starLoop` with the length of the unread text as fuel and
`FindAllStringSubmatch` runs `allMatches` with the length of the text plus
one; more fuel changes nothing. -/

theorem starLoop_fuel (body : MState → List MState) (n m : Nat) (s : MState)
    (hn : s.rest.length ≤ n) (hm : s.rest.length ≤ m) :
    starLoop body n s = starLoop body m s := by
  induction n generalizing m s with
  | zero =>
    have h0 : s.rest.length = 0 := by omega
    cases m with
    | zero => rfl
    | succ m =>
      have : (body s).filter (fun s' => decide (s'.rest.length < s.rest.length)) = [] := by
        rw [List.filter_eq_nil_iff]
        intro a _
        simp [h0]
      simp [starLoop, this]
  | succ n ih =>
    cases m with
    | zero =>
      have h0 : s.rest.length = 0 := by omega
      have : (body s).filter (fun s' => decide (s'.rest.length < s.rest.length)) = [] := by
        rw [List.filter_eq_nil_iff]
        intro a _
        simp [h0]
      simp [starLoop, this]
    | succ m =>
      simp only [starLoop]
      congr 1
      apply List.flatMap_congr
      intro x hx
      rw [List.mem_filter] at hx
      have hlt : x.rest.length < s.rest.length := by simpa using hx.2
      exact ih m x (by omega) (by omega)

theorem search_suffix (re : Regex) (b : Bool) (text start : Str) (s : MState)
    (h : search re b text = some (start, s)) : start <:+ text ∧ s.rest <:+ start := by
  induction text generalizing b with
  | nil =>
    rw [search] at h
    cases hm : (matchAll re ⟨b, [], []⟩).head? with
    | none => simp [hm] at h
    | some x =>
      simp only [hm, Option.map_some', Option.some.injEq, Prod.mk.injEq] at h
      obtain ⟨rfl, rfl⟩ := h
      exact ⟨List.suffix_refl _, matchAll_suffix re _ x (List.mem_of_mem_head? hm)⟩
  | cons c cs ih =>
    rw [search] at h
    cases hm : (matchAll re ⟨b, c :: cs, []⟩).head? with
    | none =>
      simp only [hm] at h
      obtain ⟨h1, h2⟩ := ih false h
      exact ⟨h1.trans (List.suffix_cons c cs), h2⟩
    | some x =>
      simp only [hm, Option.some.injEq, Prod.mk.injEq] at h
      obtain ⟨rfl, rfl⟩ := h
      exact ⟨List.suffix_refl _, matchAll_suffix re _ x (List.mem_of_mem_head? hm)⟩

theorem allMatches_fuel (re : Regex) (n m : Nat) (b : Bool) (rest : Str) (prev : Option Nat)
    (hn : rest.length < n) (hm : rest.length < m) :
    allMatches re n b rest prev = allMatches re m b rest prev := by
  induction n generalizing m b rest prev with
  | zero => omega
  | succ n ih =>
    cases m with
    | zero => omega
    | succ m =>
      simp only [allMatches]
      cases hs : search re b rest with
      | none => rfl
      | some p =>
        obtain ⟨start, s⟩ := p
        obtain ⟨h1, h2⟩ := search_suffix re b rest start s hs
        have hle : s.rest.length ≤ rest.length := (h2.trans h1).length_le
        simp only
        by_cases he : s.rest.length = rest.length
        · simp only [he, if_true]
          cases rest with
          | nil => rfl
          | cons c cs =>
            simp only
            congr 1
            exact ih m false cs _ (by simpa using hn) (by simpa using hm)
        · simp only [he, if_false]
          congr 1
          exact ih m false s.rest _ (by omega) (by omega)

/-! ## The indexed accessor on literals without white space -/

theorem starLoop_eq_of_stop (body : MState → List MState) (fuel : Nat) (s : MState)
    (h : body s = []) : starLoop body fuel s = [s] := by
  cases fuel with
  | zero => rfl
  | succ n => simp [starLoop, h]

/-- Greedy `c*` for a class `c` reads a whole run of characters of the class. -/
theorem starLoop_cls_head (p : Char → Bool) (cs tail : Str) (fuel : Nat) (b : Bool)
    (caps : List (Nat × Str))
    (hf : cs.length ≤ fuel) (hw : ∀ c ∈ cs, p c = true)
    (ht : ∀ c ∈ tail.head?, p c = false) :
    (starLoop (matchAll (.cls p)) fuel ⟨b, cs ++ tail, caps⟩).head?
      = some ⟨b && cs.isEmpty, tail, caps⟩ := by
  induction cs generalizing fuel b with
  | nil =>
    simp only [List.nil_append, List.isEmpty_nil, Bool.and_true]
    apply starLoop_head_stop
    cases tail with
    | nil => rfl
    | cons c t =>
      have : p c = false := ht c (by simp)
      simp [matchAll_cls_cons, this]
  | cons c cs ih =>
    cases fuel with
    | zero => simp at hf
    | succ n =>
      have hc : p c = true := hw c (by simp)
      have hn : cs.length ≤ n := by simpa using hf
      have := ih n false hn (fun d hd => hw d (by simp [hd]))
      simp only [Bool.false_and] at this
      refine starLoop_head_step _ n _ ⟨false, cs ++ tail, caps⟩ _ ?_ ?_ ?_
      · simp [matchAll_cls_cons, hc]
      · simp
      · simpa using this

/-- Greedy `c+` for a class `c` reads a whole non-empty run of the class. -/
theorem plus_cls_head (p : Char → Bool) (seg tail : Str) (b : Bool) (caps : List (Nat × Str))
    (hne : seg ≠ []) (hw : ∀ c ∈ seg, p c = true)
    (ht : ∀ c ∈ tail.head?, p c = false) :
    (matchAll (Regex.plus (.cls p)) ⟨b, seg ++ tail, caps⟩).head?
      = some ⟨false, tail, caps⟩ := by
  cases seg with
  | nil => exact absurd rfl hne
  | cons c cs =>
    have hc : p c = true := hw c (by simp)
    rw [matchAll_plus, List.cons_append]
    have h1 : matchAll (.cls p) ⟨b, c :: (cs ++ tail), caps⟩ = [⟨false, cs ++ tail, caps⟩] := by
      simp [matchAll_cls_cons, hc]
    rw [h1]
    simp only [List.flatMap_cons, List.flatMap_nil, List.append_nil, matchAll_star]
    have := starLoop_cls_head p cs tail (cs ++ tail).length false caps (by simp)
      (fun d hd => hw d (by simp [hd])) ht
    simpa using this

/-- The pattern `\s+` on one blank before a character that is no space. -/
theorem plus_space_blank (b : Bool) (c : Char) (t : Str) (caps : List (Nat × Str))
    (hc : isReSpace c = false) :
    matchAll (Regex.plus reSpace) ⟨b, ' ' :: c :: t, caps⟩ = [⟨false, c :: t, caps⟩] := by
  rw [matchAll_plus]
  have h1 : matchAll reSpace ⟨b, ' ' :: c :: t, caps⟩ = [⟨false, c :: t, caps⟩] := by
    simp [reSpace, matchAll_cls_cons, isReSpace]
  rw [h1]
  simp only [List.flatMap_cons, List.flatMap_nil, List.append_nil, matchAll_star]
  apply starLoop_eq_of_stop
  simp [reSpace, matchAll_cls_cons, hc]

/-- One iteration of `(?:\s+"([^"]+)")*` reads a blank and a quoted literal. -/
theorem quotedTail_head (l rest : Str) (b : Bool) (caps : List (Nat × Str))
    (hne : l ≠ []) (hl : ∀ c ∈ l, c ≠ '"') :
    (matchAll (Regex.seq [Regex.plus reSpace, Regex.chr '"',
        .group 3 (Regex.plus reNonQuote), Regex.chr '"'])
      ⟨b, ' ' :: (quoted l ++ rest), caps⟩).head? = some ⟨false, rest, (3, l) :: caps⟩ := by
  unfold quoted
  simp only [List.cons_append, List.append_assoc, List.singleton_append]
  rw [matchAll_seq_cons, plus_space_blank _ _ _ _ (by decide)]
  simp only [List.flatMap_cons, List.flatMap_nil, List.append_nil]
  rw [matchAll_seq_cons, matchAll_chr_self]
  simp only [List.flatMap_cons, List.flatMap_nil, List.append_nil]
  rw [matchAll_seq_cons]
  have hg := head?_group 3 (Regex.plus reNonQuote) ⟨false, l ++ '"' :: rest, caps⟩ _
    (plus_cls_head (fun c => !(c == '"')) l ('"' :: rest) false caps hne
      (fun c hc => by simpa using hl c hc) (by simp))
  apply head?_flatMap_of_head? _ _ _ _ hg
  rw [matchAll_seq_cons, matchAll_chr_self]
  simp [matchAll_seq_nil]

/-- The pattern `\s+"([^"]+)"`, the body of the iteration over further literals. -/
theorem quotedTail_stop (b : Bool) (caps : List (Nat × Str)) :
    matchAll (Regex.seq [Regex.plus reSpace, Regex.chr '"',
        .group 3 (Regex.plus reNonQuote), Regex.chr '"'])
      ⟨b, " \x7d\x7d".toList, caps⟩ = [] := by
  have h : " \x7d\x7d".toList = ' ' :: '}' :: ['}'] := rfl
  rw [h, matchAll_seq_cons, plus_space_blank _ _ _ _ (by decide)]
  simp [matchAll_seq_cons, matchAll_chr_cons]

theorem starQuoted_head (ls : List Str) (fuel : Nat) (b : Bool) (caps : List (Nat × Str))
    (hf : (ls.flatMap (fun l => ' ' :: quoted l)).length ≤ fuel)
    (hl : ∀ l ∈ ls, l ≠ [] ∧ ∀ c ∈ l, c ≠ '"') :
    (starLoop (matchAll (Regex.seq [Regex.plus reSpace, Regex.chr '"',
        .group 3 (Regex.plus reNonQuote), Regex.chr '"'])) fuel
      ⟨b, ls.flatMap (fun l => ' ' :: quoted l) ++ " \x7d\x7d".toList, caps⟩).head?
      = some ⟨b && ls.isEmpty, " \x7d\x7d".toList,
          ls.foldl (fun caps l => (3, l) :: caps) caps⟩ := by
  induction ls generalizing fuel b caps with
  | nil =>
    simp only [List.flatMap_nil, List.nil_append, List.isEmpty_nil, Bool.and_true,
      List.foldl_nil]
    exact starLoop_head_stop _ _ _ (quotedTail_stop b caps)
  | cons l ls ih =>
    cases fuel with
    | zero => simp at hf
    | succ n =>
      have h1 := hl l (by simp)
      have hn : (ls.flatMap (fun l => ' ' :: quoted l)).length ≤ n := by
        simp only [List.flatMap_cons, List.cons_append, List.length_cons,
          List.length_append] at hf
        omega
      have ih' := ih n false ((3, l) :: caps) hn (fun x hx => hl x (by simp [hx]))
      simp only [Bool.false_and] at ih'
      simp only [List.flatMap_cons, List.cons_append, List.append_assoc, List.isEmpty_cons,
        Bool.and_false, List.foldl_cons]
      refine starLoop_head_step _ n _
        ⟨false, ls.flatMap (fun l => ' ' :: quoted l) ++ " \x7d\x7d".toList, (3, l) :: caps⟩
        _ ?_ ?_ ih'
      · exact quotedTail_head l _ b caps h1.1 h1.2
      · simp only [List.length_cons, List.length_append]
        omega

theorem take_length_sub (a t : Str) : (a ++ t).take ((a ++ t).length - t.length) = a := by
  simp

/-- The first group reads the chain of quoted literals as it stands in the text. -/
theorem indexGroup_head (l : Str) (ls : List Str) (caps : List (Nat × Str))
    (hl : ∀ x ∈ l :: ls, x ≠ [] ∧ ∀ c ∈ x, c ≠ '"') :
    ∃ caps', (matchAll (.group 1 (Regex.seq
        [Regex.chr '"', .group 2 (Regex.plus reNonQuote), Regex.chr '"',
         .star (Regex.seq [Regex.plus reSpace, Regex.chr '"',
                           .group 3 (Regex.plus reNonQuote), Regex.chr '"'])]))
      ⟨false, quoted l ++ (ls.flatMap (fun l => ' ' :: quoted l) ++ " \x7d\x7d".toList),
        caps⟩).head?
      = some ⟨false, " \x7d\x7d".toList,
          (1, quoted l ++ ls.flatMap (fun l => ' ' :: quoted l)) :: caps'⟩ := by
  have h1 := hl l (by simp)
  have hinner : (matchAll (Regex.seq
        [Regex.chr '"', .group 2 (Regex.plus reNonQuote), Regex.chr '"',
         .star (Regex.seq [Regex.plus reSpace, Regex.chr '"',
                           .group 3 (Regex.plus reNonQuote), Regex.chr '"'])])
      ⟨false, quoted l ++ (ls.flatMap (fun l => ' ' :: quoted l) ++ " \x7d\x7d".toList),
        caps⟩).head?
      = some ⟨false, " \x7d\x7d".toList,
          ls.foldl (fun caps l => (3, l) :: caps) ((2, l) :: caps)⟩ := by
    unfold quoted
    simp only [List.cons_append, List.append_assoc, List.singleton_append]
    rw [matchAll_seq_cons, matchAll_chr_self]
    simp only [List.flatMap_cons, List.flatMap_nil, List.append_nil]
    rw [matchAll_seq_cons]
    have hg := head?_group 2 (Regex.plus reNonQuote)
      ⟨false, l ++ '"' :: (ls.flatMap (fun l => ' ' :: '"' :: (l ++ ['"']))
        ++ " \x7d\x7d".toList), caps⟩ _
      (plus_cls_head (fun c => !(c == '"')) l _ false caps h1.1
        (fun c hc => by simpa using h1.2 c hc) (by simp))
    apply head?_flatMap_of_head? _ _ _ _ hg
    rw [matchAll_seq_cons, matchAll_chr_self]
    simp only [List.flatMap_cons, List.flatMap_nil, List.append_nil]
    rw [matchAll_seq_cons, matchAll_star]
    apply head?_flatMap_of_head? _ _ ⟨false, " \x7d\x7d".toList,
      ls.foldl (fun caps l => (3, l) :: caps) ((2, l) :: caps)⟩
    · have := starQuoted_head ls
        (ls.flatMap (fun l => ' ' :: quoted l) ++ " \x7d\x7d".toList).length false
        ((2, l) :: caps) (by simp) (fun x hx => hl x (by simp [hx]))
      simpa [quoted] using this
    · rfl
  refine ⟨ls.foldl (fun caps l => (3, l) :: caps) ((2, l) :: caps), ?_⟩
  rw [head?_group 1 _ _ _ hinner]
  simp only [Option.some.injEq, MState.mk.injEq, true_and, List.cons.injEq, Prod.mk.injEq,
    and_true]
  rw [← List.append_assoc]
  exact take_length_sub _ _

theorem indexAccessRe_at_index (b : Bool) (t : Str) :
    matchAll indexAccessRe ⟨b, "index .Values ".toList ++ ('"' :: t), []⟩
      = matchAll (.group 1 (Regex.seq
        [Regex.chr '"', .group 2 (Regex.plus reNonQuote), Regex.chr '"',
         .star (Regex.seq [Regex.plus reSpace, Regex.chr '"',
                           .group 3 (Regex.plus reNonQuote), Regex.chr '"'])]))
        ⟨false, '"' :: t, []⟩ := by
  have hT : "index .Values ".toList ++ ('"' :: t)
      = "index".toList ++ (' ' :: '.' :: ("Values".toList ++ (' ' :: '"' :: t))) := rfl
  have h1 : isReSpace '.' = false := by decide
  have h2 : isReSpace '"' = false := by decide
  rw [hT]
  unfold indexAccessRe
  rw [matchAll_seq_cons, matchAll_lit_append]
  simp only [List.flatMap_cons, List.flatMap_nil, List.append_nil]
  rw [matchAll_seq_cons, plus_space_blank _ _ _ _ h1]
  simp only [List.flatMap_cons, List.flatMap_nil, List.append_nil]
  rw [matchAll_seq_cons, matchAll_chr_self]
  simp only [List.flatMap_cons, List.flatMap_nil, List.append_nil]
  rw [matchAll_seq_cons, matchAll_lit_append]
  simp only [List.flatMap_cons, List.flatMap_nil, List.append_nil]
  rw [matchAll_seq_cons, plus_space_blank _ _ _ _ h2]
  simp only [List.flatMap_cons, List.flatMap_nil, List.append_nil]
  rw [matchAll_seq_cons]
  exact flatMap_seq_nil _

theorem indexText_eq (l : Str) (ls : List Str) :
    indexText (l :: ls)
      = '{' :: '{' :: ' ' :: ("index .Values ".toList ++
          (quoted l ++ (ls.flatMap (fun l => ' ' :: quoted l) ++ " \x7d\x7d".toList))) := by
  simp [indexText, List.flatMap_cons, quoted]

theorem numGroups_indexAccessRe : indexAccessRe.numGroups = 3 := by decide

/-- The indexed-accessor pattern finds the one accessor of `indexText`; its
first group is the chain of quoted literals. -/
theorem index_findAll (l : Str) (ls : List Str)
    (hl : ∀ x ∈ l :: ls, x ≠ [] ∧ ∀ c ∈ x, c ≠ '"') :
    ∃ m, FindAllStringSubmatch indexAccessRe (indexText (l :: ls)) = [m] ∧
      m.getD 1 [] = quoted l ++ ls.flatMap (fun l => ' ' :: quoted l) := by
  obtain ⟨caps', hhead⟩ := indexGroup_head l ls [] hl
  have hhead' : (matchAll indexAccessRe ⟨false, "index .Values ".toList ++
      (quoted l ++ (ls.flatMap (fun l => ' ' :: quoted l) ++ " \x7d\x7d".toList)), []⟩).head?
      = some ⟨false, " \x7d\x7d".toList,
          (1, quoted l ++ ls.flatMap (fun l => ' ' :: quoted l)) :: caps'⟩ := by
    have := indexAccessRe_at_index false
      (l ++ ['"'] ++ (ls.flatMap (fun l => ' ' :: quoted l) ++ " \x7d\x7d".toList))
    simp only [quoted, List.cons_append, List.append_assoc] at this hhead ⊢
    rw [this]
    exact hhead
  have h0 : ∀ t : Str, matchAll indexAccessRe ⟨true, '{' :: t, []⟩ = [] := by
    intro t
    simp [indexAccessRe, matchAll_seq_cons, matchAll_lit_cons, matchAll_chr_cons]
  have h1 : ∀ t : Str, matchAll indexAccessRe ⟨false, '{' :: t, []⟩ = [] := by
    intro t
    simp [indexAccessRe, matchAll_seq_cons, matchAll_lit_cons, matchAll_chr_cons]
  have h2 : ∀ t : Str, matchAll indexAccessRe ⟨false, ' ' :: t, []⟩ = [] := by
    intro t
    simp [indexAccessRe, matchAll_seq_cons, matchAll_lit_cons, matchAll_chr_cons]
  have hsearch : search indexAccessRe true (indexText (l :: ls))
      = some ("index .Values ".toList ++
          (quoted l ++ (ls.flatMap (fun l => ' ' :: quoted l) ++ " \x7d\x7d".toList)),
        ⟨false, " \x7d\x7d".toList,
          (1, quoted l ++ ls.flatMap (fun l => ' ' :: quoted l)) :: caps'⟩) := by
    rw [indexText_eq, search_cons_of_nil _ _ _ _ (h0 _), search_cons_of_nil _ _ _ _ (h1 _),
      search_cons_of_nil _ _ _ _ (h2 _)]
    exact search_cons_of_head _ _ _ _ _ hhead'
  have hend : search indexAccessRe false " \x7d\x7d".toList = none := by decide
  unfold FindAllStringSubmatch
  rw [allMatches_of_search_some _ _ _ _ _ _ _ hsearch (by simp [indexText]),
    allMatches_of_search_none _ _ _ _ _ hend]
  refine ⟨_, rfl, ?_⟩
  rw [submatches, numGroups_indexAccessRe]
  rfl

theorem chain_concat (l : Str) (ls : List Str) :
    ∃ x, quoted l ++ ls.flatMap (fun l => ' ' :: quoted l) = x ++ ['"'] := by
  induction ls generalizing l with
  | nil => exact ⟨'"' :: l, by simp [quoted]⟩
  | cons l2 ls ih =>
    obtain ⟨x, hx⟩ := ih l2
    refine ⟨quoted l ++ ' ' :: x, ?_⟩
    simp only [List.flatMap_cons, List.cons_append, List.append_assoc]
    rw [hx]

theorem TrimSpace_chain (l : Str) (ls : List Str) :
    TrimSpace (quoted l ++ ls.flatMap (fun l => ' ' :: quoted l))
      = quoted l ++ ls.flatMap (fun l => ' ' :: quoted l) := by
  unfold TrimSpace
  have h1 : (quoted l ++ ls.flatMap (fun l => ' ' :: quoted l)).dropWhile unicodeIsSpace
      = quoted l ++ ls.flatMap (fun l => ' ' :: quoted l) := by
    unfold quoted
    rw [List.cons_append, List.dropWhile_cons_of_neg (by decide)]
  rw [h1]
  obtain ⟨x, hx⟩ := chain_concat l ls
  rw [hx, List.rdropWhile_concat_neg _ _ _ (by decide)]

theorem fieldsFrom_append (w rest cur : Str) (hw : ∀ c ∈ w, unicodeIsSpace c = false) :
    fieldsFrom (w ++ rest) cur = fieldsFrom rest (cur ++ w) := by
  induction w generalizing cur with
  | nil => simp
  | cons c cs ih =>
    have hc : unicodeIsSpace c = false := hw c (by simp)
    rw [List.cons_append, fieldsFrom]
    simp only [hc, Bool.false_eq_true, if_false]
    rw [ih (cur ++ [c]) (fun d hd => hw d (by simp [hd]))]
    simp

theorem quoted_no_space (l : Str) (hl : ∀ c ∈ l, unicodeIsSpace c = false) :
    ∀ c ∈ quoted l, unicodeIsSpace c = false := by
  intro c hc
  simp only [quoted, List.mem_cons, List.mem_append, List.mem_singleton, List.not_mem_nil,
    or_false] at hc
  rcases hc with rfl | hc | rfl
  · decide
  · exact hl c hc
  · decide

theorem fieldsFrom_chain (ls : List Str) (cur : Str) (hcur : cur ≠ [])
    (hl : ∀ l ∈ ls, ∀ c ∈ l, unicodeIsSpace c = false) :
    fieldsFrom (ls.flatMap (fun l => ' ' :: quoted l)) cur = cur :: ls.map quoted := by
  induction ls generalizing cur with
  | nil => simp [fieldsFrom, hcur]
  | cons l ls ih =>
    have hsp : unicodeIsSpace ' ' = true := by decide
    simp only [List.flatMap_cons, List.cons_append, List.map_cons]
    rw [fieldsFrom]
    simp only [hsp, if_true, List.isEmpty_eq_true, hcur, if_false]
    rw [fieldsFrom_append _ _ _ (quoted_no_space l (hl l (by simp))), List.nil_append,
      ih (quoted l) (by simp [quoted]) (fun x hx => hl x (by simp [hx]))]

theorem Fields_chain (l : Str) (ls : List Str)
    (hl : ∀ x ∈ l :: ls, ∀ c ∈ x, unicodeIsSpace c = false) :
    Fields (quoted l ++ ls.flatMap (fun l => ' ' :: quoted l)) = (l :: ls).map quoted := by
  unfold Fields
  rw [fieldsFrom_append _ _ _ (quoted_no_space l (hl l (by simp))), List.nil_append,
    fieldsFrom_chain ls (quoted l) (by simp [quoted]) (fun x hx => hl x (by simp [hx]))]
  rfl

theorem Trim_quoted (l : Str) (hne : l ≠ []) (hl : ∀ c ∈ l, c ≠ '"') :
    Trim (quoted l) ['"'] = l := by
  unfold Trim quoted
  have hp : ∀ c : Char, (['"'].contains c) = (c == '"') := by
    intro c
    cases h : (c == '"') <;> simp [List.contains, List.elem, h]
  simp only [hp]
  rw [List.dropWhile_cons_of_pos (by simp)]
  cases l with
  | nil => exact absurd rfl hne
  | cons c cs =>
    have hc : c ≠ '"' := hl c (by simp)
    rw [List.cons_append, List.dropWhile_cons_of_neg (by simpa using hc),
      ← List.cons_append, List.rdropWhile_concat_pos _ _ _ (by simp),
      List.rdropWhile_eq_self_iff]
    intro hnil
    have := hl _ (List.getLast_mem hnil)
    simpa using this

theorem indexKeys_chain (l : Str) (ls : List Str)
    (hl : ∀ x ∈ l :: ls, x ≠ [] ∧ ∀ c ∈ x, c ≠ '"' ∧ unicodeIsSpace c = false) :
    indexKeys (quoted l ++ ls.flatMap (fun l => ' ' :: quoted l)) = l :: ls := by
  unfold indexKeys
  rw [Fields_chain l ls (fun x hx c hc => ((hl x hx).2 c hc).2)]
  have key : ∀ (xs : List Str) (init : List Str),
      (∀ x ∈ xs, x ≠ [] ∧ ∀ c ∈ x, c ≠ '"') →
      (xs.map quoted).foldl (fun keys p =>
        let p := Trim p ['"']
        if p ≠ [] then keys ++ [p] else keys) init = init ++ xs := by
    intro xs
    induction xs with
    | nil => intro init _; simp
    | cons x xs ih =>
      intro init h
      have hx := h x (by simp)
      simp only [List.map_cons, List.foldl_cons, Trim_quoted x hx.1 hx.2, ne_eq, hx.1,
        not_false_eq_true, if_true]
      rw [ih (init ++ [x]) (fun y hy => h y (by simp [hy]))]
      simp
  have := key (l :: ls) [] (fun x hx => ⟨(hl x hx).1, fun c hc => ((hl x hx).2 c hc).1⟩)
  simpa using this

/-- Literals without white space are joined as path segments: the indexed
accessor of `indexText` puts the path `l1.l2.....ln` into the used set. -/
theorem index_scanIndexAccess (l : Str) (ls : List Str) (used : List Str)
    (hl : ∀ x ∈ l :: ls, x ≠ [] ∧ ∀ c ∈ x, c ≠ '"' ∧ unicodeIsSpace c = false) :
    scanIndexAccess (indexText (l :: ls)) used = setAdd used (Join (l :: ls) ['.']) := by
  obtain ⟨m, hm, hm1⟩ := index_findAll l ls
    (fun x hx => ⟨(hl x hx).1, fun c hc => ((hl x hx).2 c hc).1⟩)
  unfold scanIndexAccess
  rw [hm]
  simp only [List.foldl_cons, List.foldl_nil, hm1, TrimSpace_chain, indexKeys_chain l ls hl]
  simp [quoted]

theorem index_accessor_joins_literals (l : Str) (ls : List Str) (Separator : Char)
    (vals : List (Str × Value)) (name : Str) (inc : Bool)
    (hl : ∀ x ∈ l :: ls, x ≠ [] ∧ ∀ c ∈ x, c ≠ '"' ∧ unicodeIsSpace c = false)
    (hpart : participates Separator inc ⟨name, indexText (l :: ls)⟩ = true) :
    Join (l :: ls) ['.'] ∈
      (collectUsedValues Separator ⟨vals, [⟨name, indexText (l :: ls)⟩]⟩ inc).1 := by
  rw [collectUsedValues_single _ _ _ _ hpart]
  simp only [index_scanIndexAccess l ls _ hl, mem_setAdd]
  exact Or.inr trivial

/-! ## Errors, order-independence and disjointness of the results -/

/-- C12: `CheckChart` returns an error exactly for the nil chart, and then the
result has both lists empty; for a non-nil chart, also one whose values are
nil or empty, it returns no error. -/
theorem C12_error_iff_nil (Separator : Char) (ch : Option Chart) (cfg : Config) :
    ((CheckChart Separator ch cfg).2 ≠ none ↔ ch = none) ∧
    CheckChart Separator none cfg = (⟨[], []⟩, some "chart is nil".toList) ∧
    (∀ c : Chart, (CheckChart Separator (some c) cfg).2 = none) ∧
    (∀ ts : List File, (CheckChart Separator (some ⟨[], ts⟩) cfg).2 = none) := by
  refine ⟨?_, rfl, fun c => by rw [CheckChart_some], fun ts => by rw [CheckChart_some]⟩
  cases ch with
  | none => simp [CheckChart]
  | some c => simp [CheckChart_some]

theorem any_eq_of_perm {l₁ l₂ : List Str} (h : l₁.Perm l₂) (p : Str → Bool) :
    l₁.any p = l₂.any p := by
  cases h1 : l₁.any p with
  | true =>
    rw [List.any_eq_true] at h1
    obtain ⟨x, hx, hp⟩ := h1
    exact (List.any_eq_true.2 ⟨x, h.mem_iff.1 hx, hp⟩).symm
  | false =>
    cases h2 : l₂.any p with
    | false => rfl
    | true =>
      rw [List.any_eq_true] at h2
      obtain ⟨x, hx, hp⟩ := h2
      rw [List.any_eq_false] at h1
      exact absurd hp (h1 x (h.mem_iff.2 hx))

theorem sortStrings_eq_of_perm {l₁ l₂ : List Str} (h : l₁.Perm l₂) :
    sortStrings l₁ = sortStrings l₂ :=
  @List.eq_of_perm_of_sorted _ StrLE ⟨StrLE_antisymm⟩ _ _
    (((sortStrings_perm l₁).trans h).trans (sortStrings_perm l₂).symm)
    (sortStrings_sorted l₁) (sortStrings_sorted l₂)

theorem reportsDefined_of_perm {d₁ d₂ u₁ u₂ : List Str} (hd : d₁.Perm d₂) (hu : u₁.Perm u₂) :
    reportsDefined d₁ u₁ = reportsDefined d₂ u₂ := by
  funext d
  unfold reportsDefined
  rw [any_eq_of_perm hd, any_eq_of_perm hu]
  have : decide (d ∈ u₁) = decide (d ∈ u₂) := by
    simp only [hu.mem_iff]
  rw [this]

theorem reportsUsed_of_perm {d₁ d₂ : List Str} (hd : d₁.Perm d₂) :
    reportsUsed d₁ = reportsUsed d₂ := by
  funext u
  unfold reportsUsed
  rw [any_eq_of_perm hd]
  have : decide (u ∈ d₁) = decide (u ∈ d₂) := by
    simp only [hd.mem_iff]
  rw [this]

theorem definedButNotUsed_of_perm {d₁ d₂ u₁ u₂ : List Str} (hd : d₁.Perm d₂)
    (hu : u₁.Perm u₂) : definedButNotUsed d₁ u₁ = definedButNotUsed d₂ u₂ := by
  rw [definedButNotUsed_eq, definedButNotUsed_eq, reportsDefined_of_perm hd hu]
  exact sortStrings_eq_of_perm (hd.filter _)

theorem usedButNotDefined_of_perm {d₁ d₂ u₁ u₂ : List Str} (hd : d₁.Perm d₂)
    (hu : u₁.Perm u₂) : usedButNotDefined u₁ d₁ = usedButNotDefined u₂ d₂ := by
  rw [usedButNotDefined_eq, usedButNotDefined_eq, reportsUsed_of_perm hd]
  exact sortStrings_eq_of_perm (hu.filter _)

/-- C16: the two result lists depend only on the defined and used sets, not
on the order in which their members are enumerated: for two enumerations of
the same sets `definedButNotUsed` and `usedButNotDefined` return identical
lists. -/
theorem C16_enumeration_independent (defined₁ defined₂ used₁ used₂ : List Str)
    (hd : defined₁.Perm defined₂) (hu : used₁.Perm used₂) :
    definedButNotUsed defined₁ used₁ = definedButNotUsed defined₂ used₂ ∧
    usedButNotDefined used₁ defined₁ = usedButNotDefined used₂ defined₂ :=
  ⟨definedButNotUsed_of_perm hd hu, usedButNotDefined_of_perm hd hu⟩

theorem C16_witness :
    (["a.c".toList, "a".toList, "a.b".toList]).Perm ["a".toList, "a.b".toList, "a.c".toList] ∧
    (["x".toList, "a.b".toList]).Perm ["a.b".toList, "x".toList] ∧
    definedButNotUsed ["a.c".toList, "a".toList, "a.b".toList] ["x".toList, "a.b".toList]
      = definedButNotUsed ["a".toList, "a.b".toList, "a.c".toList] ["a.b".toList, "x".toList] ∧
    usedButNotDefined ["x".toList, "a.b".toList] ["a.c".toList, "a".toList, "a.b".toList]
      = usedButNotDefined ["a.b".toList, "x".toList] ["a".toList, "a.b".toList, "a.c".toList] :=
  have hd : (["a.c".toList, "a".toList, "a.b".toList]).Perm
      ["a".toList, "a.b".toList, "a.c".toList] :=
    (List.Perm.swap _ _ _).trans (List.Perm.cons _ (List.Perm.swap _ _ _))
  have hu : (["x".toList, "a.b".toList]).Perm ["a.b".toList, "x".toList] :=
    List.Perm.swap _ _ _
  ⟨hd, hu, C16_enumeration_independent _ _ _ _ hd hu⟩

/-- C20: for a non-nil chart every entry of DefinedNotUsed is a defined path
that is not used, every entry of UsedNotDefined is a used path that is not
defined, and no path appears in both lists. -/
theorem C20_results_disjoint (Separator : Char) (ch : Chart) (cfg : Config) :
    (∀ x ∈ (CheckChart Separator (some ch) cfg).1.DefinedNotUsed,
      x ∈ collectDefinedValues ch ∧
      x ∉ (collectUsedValues Separator ch cfg.IncludeSubcharts).1) ∧
    (∀ x ∈ (CheckChart Separator (some ch) cfg).1.UsedNotDefined,
      x ∈ (collectUsedValues Separator ch cfg.IncludeSubcharts).1 ∧
      x ∉ collectDefinedValues ch) ∧
    (∀ x, ¬ (x ∈ (CheckChart Separator (some ch) cfg).1.DefinedNotUsed ∧
      x ∈ (CheckChart Separator (some ch) cfg).1.UsedNotDefined)) := by
  rw [CheckChart_some]
  have h1 : ∀ x ∈ (if (collectUsedValues Separator ch cfg.IncludeSubcharts).2 = true then []
        else definedButNotUsed (collectDefinedValues ch)
          (collectUsedValues Separator ch cfg.IncludeSubcharts).1),
      x ∈ collectDefinedValues ch ∧
      x ∉ (collectUsedValues Separator ch cfg.IncludeSubcharts).1 := by
    intro x hx
    by_cases hf : (collectUsedValues Separator ch cfg.IncludeSubcharts).2 = true
    · simp [hf] at hx
    · simp only [hf] at hx
      have := (mem_definedButNotUsed _ _ x).1 hx
      exact ⟨this.1, this.2.2.1⟩
  have h2 : ∀ x ∈ usedButNotDefined (collectUsedValues Separator ch cfg.IncludeSubcharts).1
        (collectDefinedValues ch),
      x ∈ (collectUsedValues Separator ch cfg.IncludeSubcharts).1 ∧
      x ∉ collectDefinedValues ch := by
    intro x hx
    have := (mem_usedButNotDefined _ _ x).1 hx
    exact ⟨this.1, this.2.1⟩
  exact ⟨h1, h2, fun x hx => (h2 x hx.2).2 (h1 x hx.1).1⟩

/-! ## Corpus selection -/

theorem participates_iff (Separator : Char) (inc : Bool) (t : File) :
    participates Separator inc t = true ↔
      inc = true ∨ Contains (ToSlash Separator t.Name) "/charts/".toList = false := by
  unfold participates isSubchartTemplate
  cases inc <;> simp

theorem scanTemplate_of_not_participates (Separator : Char) (inc : Bool)
    (acc : List Str × Bool) (t : File) (h : participates Separator inc t = false) :
    scanTemplate Separator inc acc t = acc := by
  unfold participates at h
  simp only [Bool.not_eq_false'] at h
  simp [scanTemplate, h]

theorem scanTemplate_of_participates (Separator : Char) (inc : Bool)
    (acc : List Str × Bool) (t : File) (h : participates Separator inc t = true) :
    scanTemplate Separator inc acc t
      = (scanIndexAccess t.Data (scanDotAccess t.Data acc.1), scanRootValues t.Data acc.2) := by
  unfold participates at h
  simp only [Bool.not_eq_true'] at h
  simp [scanTemplate, h]

theorem flattenAnyEntries_eq_str (pre : Str) (val : List (Key × Value)) (out : List Str) :
    flattenAnyEntries pre val out = flattenStrEntries pre (stringEntries val) out := by
  induction val generalizing out with
  | nil => simp [flattenAnyEntries, flattenStrEntries, stringEntries]
  | cons e val ih =>
    obtain ⟨rawK, child⟩ := e
    cases rawK with
    | str k => simp only [flattenAnyEntries, flattenStrEntries, stringEntries, ih]
    | other tag => simp only [flattenAnyEntries, stringEntries, ih]

theorem stringEntries_filter (val : List (Key × Value)) :
    stringEntries (val.filter hasStringKey) = stringEntries val := by
  induction val with
  | nil => rfl
  | cons e val ih =>
    obtain ⟨rawK, child⟩ := e
    cases rawK with
    | str k => simp [List.filter_cons, hasStringKey, stringEntries, ih]
    | other tag => simp [List.filter_cons, hasStringKey, stringEntries, ih]

/-- C13: on a loosely typed mapping `flattenValues` returns (it is total), and
its output is the output for the same mapping with every entry whose key is
not a plain string removed, subtree included; the entries with string keys are
flattened exactly as in a string-keyed mapping. -/
theorem C13_non_string_keys_skipped (pre : Str) (val : List (Key × Value)) (out : List Str) :
    flattenValues pre (.anyMap val) out
      = flattenValues pre (.anyMap (val.filter hasStringKey)) out ∧
    flattenValues pre (.anyMap val) out
      = flattenValues pre (.strMap (stringEntries val)) out ∧
    (∀ e ∈ val.filter hasStringKey, ∃ k, e.1 = .str k) := by
  refine ⟨?_, ?_, ?_⟩
  · simp only [flattenValues, flattenAnyEntries_eq_str, stringEntries_filter]
  · simp only [flattenValues, flattenAnyEntries_eq_str]
  · intro e he
    rw [List.mem_filter] at he
    obtain ⟨rawK, child⟩ := e
    cases rawK with
    | str k => exact ⟨k, rfl⟩
    | other tag => simp [hasStringKey] at he

/-! ## Extraction is additive over the corpus -/

theorem mem_foldl_additive {α : Type} (f : List Str → α → List Str)
    (hf : ∀ used m x, x ∈ f used m ↔ x ∈ used ∨ x ∈ f [] m) (ms : List α) (used : List Str)
    (x : Str) : x ∈ ms.foldl f used ↔ x ∈ used ∨ x ∈ ms.foldl f [] := by
  induction ms generalizing used with
  | nil => simp
  | cons m ms ih =>
    rw [List.foldl_cons, List.foldl_cons, ih (f used m), ih (f [] m), hf used m x]
    tauto

theorem mem_scanDotAccess (content : Str) (used : List Str) (x : Str) :
    x ∈ scanDotAccess content used ↔ x ∈ used ∨ x ∈ scanDotAccess content [] := by
  unfold scanDotAccess
  apply mem_foldl_additive
  intro used m x
  by_cases h : m.getD 1 [] = []
  · simp only [h, ↓reduceIte]
    simp
  · simp only [h, ↓reduceIte, mem_setAdd]
    simp

theorem mem_scanIndexAccess (content : Str) (used : List Str) (x : Str) :
    x ∈ scanIndexAccess content used ↔ x ∈ used ∨ x ∈ scanIndexAccess content [] := by
  unfold scanIndexAccess
  apply mem_foldl_additive
  intro used m x
  by_cases h : TrimSpace (m.getD 1 []) = []
  · simp only [h, ↓reduceIte]
    simp
  · by_cases h2 : (indexKeys (TrimSpace (m.getD 1 []))).length > 0
    · simp only [h, h2, ↓reduceIte, mem_setAdd]
      simp
    · simp only [h, h2, ↓reduceIte]
      simp

theorem mem_scanTemplate (Separator : Char) (inc : Bool) (acc : List Str × Bool) (t : File)
    (x : Str) :
    x ∈ (scanTemplate Separator inc acc t).1 ↔
      x ∈ acc.1 ∨ x ∈ (scanTemplate Separator inc ([], false) t).1 := by
  by_cases h : participates Separator inc t = true
  · rw [scanTemplate_of_participates _ _ _ _ h, scanTemplate_of_participates _ _ _ _ h]
    simp only
    rw [mem_scanIndexAccess, mem_scanDotAccess, mem_scanIndexAccess _ (scanDotAccess t.Data [])]
    tauto
  · have h' : participates Separator inc t = false := by simpa using h
    rw [scanTemplate_of_not_participates _ _ _ _ h', scanTemplate_of_not_participates _ _ _ _ h']
    simp

theorem mem_foldl_scanTemplate (Separator : Char) (inc : Bool) (ts : List File)
    (acc : List Str × Bool) (x : Str) :
    x ∈ (ts.foldl (scanTemplate Separator inc) acc).1 ↔
      x ∈ acc.1 ∨ x ∈ (ts.foldl (scanTemplate Separator inc) ([], false)).1 := by
  induction ts generalizing acc with
  | nil => simp
  | cons t ts ih =>
    rw [List.foldl_cons, List.foldl_cons, ih (scanTemplate Separator inc acc t),
      ih (scanTemplate Separator inc ([], false) t), mem_scanTemplate]
    tauto

/-- C15: the used set of `collectUsedValues` on `ts1 ++ ts2` is the union of
the used sets on `ts1` and on `ts2`, and its whole-root flag is the OR of the
two flags; the result for a single block depends only on that block's text;
for the empty corpus it is the empty set and false. -/
theorem C15_extraction_additive (Separator : Char) (vals : List (Str × Value))
    (ts1 ts2 : List File) (inc : Bool) :
    (∀ x, x ∈ (collectUsedValues Separator ⟨vals, ts1 ++ ts2⟩ inc).1 ↔
      x ∈ (collectUsedValues Separator ⟨vals, ts1⟩ inc).1 ∨
      x ∈ (collectUsedValues Separator ⟨vals, ts2⟩ inc).1) ∧
    (collectUsedValues Separator ⟨vals, ts1 ++ ts2⟩ inc).2
      = ((collectUsedValues Separator ⟨vals, ts1⟩ inc).2 ||
          (collectUsedValues Separator ⟨vals, ts2⟩ inc).2) ∧
    (∀ (vals1 vals2 : List (Str × Value)) (name1 name2 text : Str),
      participates Separator inc ⟨name1, text⟩ = true →
      participates Separator inc ⟨name2, text⟩ = true →
      collectUsedValues Separator ⟨vals1, [⟨name1, text⟩]⟩ inc
        = collectUsedValues Separator ⟨vals2, [⟨name2, text⟩]⟩ inc) ∧
    collectUsedValues Separator ⟨vals, []⟩ inc = ([], false) := by
  refine ⟨?_, ?_, ?_, rfl⟩
  · intro x
    unfold collectUsedValues
    simp only [List.foldl_append]
    rw [mem_foldl_scanTemplate]
  · unfold collectUsedValues
    simp only [foldl_scanTemplate_snd, List.any_append, Bool.false_or]
  · intro vals1 vals2 name1 name2 text h1 h2
    rw [collectUsedValues_single _ _ _ _ h1, collectUsedValues_single _ _ _ _ h2]

/-! ## Anchoring of the dotted accessor -/

theorem marker_nil_at_word (X : List Regex) (b : Bool) (c : Char) (t : Str)
    (caps : List (Nat × Str)) (hc : isWord c = true) :
    matchAll (Regex.seq (reMarker ++ X)) ⟨b, c :: t, caps⟩ = [] := by
  have h1 := ne_dot_of_isWord c hc
  have h2 := ne_dollar_of_isWord c hc
  cases b <;>
  simp [reMarker, matchAll_seq_cons, matchAll_alt, matchAll_bot, reNonWord,
    matchAll_cls_cons, matchAll_chr_cons, hc, h1, h2]

theorem search_marker_none_of_word (X : List Regex) (b : Bool) (c : Char) (t : Str)
    (hc : isWord c = true) (hfree : markerFree t = true) :
    search (Regex.seq (reMarker ++ X)) b (c :: t) = none := by
  rw [search_cons_of_nil _ _ _ _ (marker_nil_at_word X b c t [] hc)]
  exact search_none_of_markerFree X t hfree

theorem dotAccessRe_eq : dotAccessRe = Regex.seq (reMarker ++
    [Regex.lit "Values".toList, Regex.chr '.', .group 1 rePath]) := rfl

theorem markerFree_anchored_tail (w : Str) (segs : List Str)
    (hw : ∀ c ∈ w, isWord c = true) (hne : segs ≠ [])
    (hseg : ∀ s ∈ segs, s ≠ [] ∧ ∀ c ∈ s, isWord c = true) :
    markerFree (w ++ ".Values.".toList ++ Join segs ['.']) = true := by
  have h := markerFree_segments ("Values".toList :: segs) [] (by
    intro s hs
    rcases List.mem_cons.1 hs with rfl | hs
    · exact ⟨by decide, by decide⟩
    · exact hseg s hs)
  have hT : w ++ ".Values.".toList ++ Join segs ['.']
      = w ++ ('.' :: 'V' :: 'a' :: 'l' :: 'u' :: 'e' :: 's' :: ('.' :: Join segs ['.'])) := by
    simp
  rw [hT, markerFree_word_append w _ hw, dot_cons_Join segs hne]
  simpa [List.flatMap_cons] using h

theorem quote_not_mem_anchoredText (w : Str) (segs : List Str)
    (hw : ∀ c ∈ w, isWord c = true)
    (hseg : ∀ s ∈ segs, s ≠ [] ∧ ∀ c ∈ s, isWord c = true) :
    '"' ∉ anchoredText w (Join segs ['.']) := by
  intro h
  simp only [anchoredText, List.mem_append] at h
  rcases h with (h | h) | h
  · exact absurd (hw _ h) (by decide)
  · exact absurd h (by decide)
  · rcases mem_Join_dot segs '"' h with h1 | ⟨s, hs, hc⟩
    · exact absurd h1 (by decide)
    · exact absurd ((hseg s hs).2 '"' hc) (by decide)

/-- C18: in a text `w + ".Values." + p`, `w` a non-empty run of word
characters and `p` a dotted path of word segments, the marker sits inside a
longer identifier chain; extraction yields an empty used set and
wholeRootUsed = false. -/
theorem C18_dotted_accessor_anchored (w : Str) (segs : List Str) (Separator : Char)
    (vals : List (Str × Value)) (name : Str) (inc : Bool)
    (hw0 : w ≠ []) (hw : ∀ c ∈ w, isWord c = true)
    (hne : segs ≠ []) (hseg : ∀ s ∈ segs, s ≠ [] ∧ ∀ c ∈ s, isWord c = true) :
    FindAllStringSubmatch dotAccessRe (anchoredText w (Join segs ['.'])) = [] ∧
    MatchString rootValuesRe (anchoredText w (Join segs ['.'])) = false ∧
    collectUsedValues Separator ⟨vals, [⟨name, anchoredText w (Join segs ['.'])⟩]⟩ inc
      = ([], false) := by
  cases w with
  | nil => exact absurd rfl hw0
  | cons c cs =>
    have hc : isWord c = true := hw c (by simp)
    have hfree : markerFree (cs ++ ".Values.".toList ++ Join segs ['.']) = true :=
      markerFree_anchored_tail cs segs (fun d hd => hw d (by simp [hd])) hne hseg
    have hT : anchoredText (c :: cs) (Join segs ['.'])
        = c :: (cs ++ ".Values.".toList ++ Join segs ['.']) := by
      simp [anchoredText]
    have hdot : search dotAccessRe true (anchoredText (c :: cs) (Join segs ['.'])) = none := by
      rw [hT, dotAccessRe_eq]
      exact search_marker_none_of_word _ true c _ hc hfree
    have hroot : search rootValuesRe true (anchoredText (c :: cs) (Join segs ['.'])) = none := by
      rw [hT, rootValuesRe_eq]
      exact search_marker_none_of_word _ true c _ hc hfree
    have hidx := search_index_none_of_no_quote true _
      (quote_not_mem_anchoredText (c :: cs) segs hw hseg)
    have h1 : FindAllStringSubmatch dotAccessRe (anchoredText (c :: cs) (Join segs ['.']))
        = [] := allMatches_of_search_none _ _ _ _ _ hdot
    have h2 : MatchString rootValuesRe (anchoredText (c :: cs) (Join segs ['.'])) = false := by
      unfold MatchString
      rw [hroot]
      rfl
    have h3 : FindAllStringSubmatch indexAccessRe (anchoredText (c :: cs) (Join segs ['.']))
        = [] := allMatches_of_search_none _ _ _ _ _ hidx
    refine ⟨h1, h2, ?_⟩
    by_cases hp : participates Separator inc
        ⟨name, anchoredText (c :: cs) (Join segs ['.'])⟩ = true
    · rw [collectUsedValues_single _ _ _ _ hp]
      simp [scanIndexAccess, scanDotAccess, scanRootValues, h1, h2, h3]
    · have hp' : participates Separator inc
          ⟨name, anchoredText (c :: cs) (Join segs ['.'])⟩ = false := by simpa using hp
      simp [collectUsedValues, scanTemplate_of_not_participates _ _ _ _ hp']

theorem C18_witness :
    "foo".toList ≠ [] ∧ (∀ c ∈ "foo".toList, isWord c = true) ∧ ["bar".toList] ≠ [] ∧
    (∀ s ∈ ["bar".toList], s ≠ [] ∧ ∀ c ∈ s, isWord c = true) ∧
    collectUsedValues '/' ⟨[], [⟨"templates/x.yaml".toList, "foo.Values.bar".toList⟩]⟩ false
      = ([], false) :=
  ⟨by decide, by decide, by decide, by decide,
   (C18_dotted_accessor_anchored "foo".toList ["bar".toList] '/' []
      "templates/x.yaml".toList false (by decide) (by decide) (by decide) (by decide)).2.2⟩

/-! ## Where the indexed accessor matches, the whole-root pattern matches -/

theorem mem_matchAll_cls (p : Char → Bool) (s x : MState) (h : x ∈ matchAll (.cls p) s) :
    ∃ c, p c = true ∧ s.rest = c :: x.rest := by
  obtain ⟨b, rest, caps⟩ := s
  cases rest with
  | nil => simp [matchAll_cls_nil] at h
  | cons c t =>
    rw [matchAll_cls_cons] at h
    by_cases hp : p c = true
    · simp only [hp, if_true, List.mem_singleton] at h
      exact ⟨c, hp, by rw [h]⟩
    · simp [hp] at h

theorem mem_matchAll_chr (c : Char) (s x : MState) (h : x ∈ matchAll (Regex.chr c) s) :
    s.rest = c :: x.rest := by
  obtain ⟨d, hd, hs⟩ := mem_matchAll_cls _ s x h
  have : d = c := by simpa using hd
  rw [hs, this]

theorem mem_matchAll_lit (w : Str) (s x : MState) (h : x ∈ matchAll (Regex.lit w) s) :
    s.rest = w ++ x.rest := by
  induction w generalizing s with
  | nil =>
    rw [matchAll_lit_nil, List.mem_singleton] at h
    rw [h]
    rfl
  | cons c cs ih =>
    rw [matchAll_lit_cons, List.mem_flatMap] at h
    obtain ⟨y, hy, hx⟩ := h
    rw [mem_matchAll_chr c s y hy, ih y hx]
    rfl

theorem mem_starLoop_cls (p : Char → Bool) (n : Nat) (s x : MState)
    (h : x ∈ starLoop (matchAll (.cls p)) n s) :
    ∃ ws, (∀ c ∈ ws, p c = true) ∧ s.rest = ws ++ x.rest := by
  induction n generalizing s with
  | zero =>
    simp only [starLoop, List.mem_singleton] at h
    exact ⟨[], by simp, by rw [h]; rfl⟩
  | succ n ih =>
    simp only [starLoop, List.mem_append, List.mem_flatMap, List.mem_filter,
      List.mem_singleton] at h
    rcases h with ⟨y, ⟨hy, _⟩, hx⟩ | h
    · obtain ⟨c, hc, hs⟩ := mem_matchAll_cls p s y hy
      obtain ⟨ws, hws, hy'⟩ := ih y hx
      refine ⟨c :: ws, ?_, by rw [hs, hy']; rfl⟩
      intro d hd
      rcases List.mem_cons.1 hd with rfl | hd
      · exact hc
      · exact hws d hd
    · exact ⟨[], by simp, by rw [h]; rfl⟩

theorem mem_matchAll_plus_cls (p : Char → Bool) (s x : MState)
    (h : x ∈ matchAll (Regex.plus (.cls p)) s) :
    ∃ ws, ws ≠ [] ∧ (∀ c ∈ ws, p c = true) ∧ s.rest = ws ++ x.rest := by
  rw [matchAll_plus, List.mem_flatMap] at h
  obtain ⟨y, hy, hx⟩ := h
  obtain ⟨c, hc, hs⟩ := mem_matchAll_cls p s y hy
  rw [matchAll_star] at hx
  obtain ⟨ws, hws, hy'⟩ := mem_starLoop_cls p _ y x hx
  refine ⟨c :: ws, by simp, ?_, by rw [hs, hy']; rfl⟩
  intro d hd
  rcases List.mem_cons.1 hd with rfl | hd
  · exact hc
  · exact hws d hd

/-- A match of the indexed-accessor pattern begins with `index`, white space,
`.Values` and white space. -/
theorem indexAccessRe_shape (s x : MState) (h : x ∈ matchAll indexAccessRe s) :
    ∃ ws1 ws2 r, ws1 ≠ [] ∧ (∀ c ∈ ws1, isReSpace c = true) ∧
      ws2 ≠ [] ∧ (∀ c ∈ ws2, isReSpace c = true) ∧
      s.rest = "index".toList ++ ws1 ++ ['.'] ++ "Values".toList ++ ws2 ++ r := by
  unfold indexAccessRe at h
  rw [matchAll_seq_cons, List.mem_flatMap] at h
  obtain ⟨s1, h1, h⟩ := h
  rw [matchAll_seq_cons, List.mem_flatMap] at h
  obtain ⟨s2, h2, h⟩ := h
  rw [matchAll_seq_cons, List.mem_flatMap] at h
  obtain ⟨s3, h3, h⟩ := h
  rw [matchAll_seq_cons, List.mem_flatMap] at h
  obtain ⟨s4, h4, h⟩ := h
  rw [matchAll_seq_cons, List.mem_flatMap] at h
  obtain ⟨s5, h5, _⟩ := h
  have e1 := mem_matchAll_lit _ s s1 h1
  obtain ⟨ws1, hn1, hw1, e2⟩ := mem_matchAll_plus_cls _ s1 s2 h2
  have e3 := mem_matchAll_chr _ s2 s3 h3
  have e4 := mem_matchAll_lit _ s3 s4 h4
  obtain ⟨ws2, hn2, hw2, e5⟩ := mem_matchAll_plus_cls _ s4 s5 h5
  refine ⟨ws1, ws2, s5.rest, hn1, hw1, hn2, hw2, ?_⟩
  rw [e1, e2, e3, e4, e5]
  simp

theorem search_some_mem (re : Regex) (b : Bool) (text start : Str) (s : MState)
    (h : search re b text = some (start, s)) :
    ∃ pre b', text = pre ++ start ∧ s ∈ matchAll re ⟨b', start, []⟩ := by
  induction text generalizing b with
  | nil =>
    rw [search] at h
    cases hm : (matchAll re ⟨b, [], []⟩).head? with
    | none => simp [hm] at h
    | some x =>
      simp only [hm, Option.map_some', Option.some.injEq, Prod.mk.injEq] at h
      obtain ⟨rfl, rfl⟩ := h
      exact ⟨[], b, rfl, List.mem_of_mem_head? hm⟩
  | cons c cs ih =>
    rw [search] at h
    cases hm : (matchAll re ⟨b, c :: cs, []⟩).head? with
    | none =>
      simp only [hm] at h
      obtain ⟨pre, b', hp, hs⟩ := ih false h
      exact ⟨c :: pre, b', by rw [hp]; rfl, hs⟩
    | some x =>
      simp only [hm, Option.some.injEq, Prod.mk.injEq] at h
      obtain ⟨rfl, rfl⟩ := h
      exact ⟨[], b, rfl, List.mem_of_mem_head? hm⟩

theorem isWord_of_isReSpace (c : Char) (h : isReSpace c = true) :
    isWord c = false ∧ c ≠ '.' := by
  unfold isReSpace at h
  simp only [Bool.or_eq_true, beq_iff_eq] at h
  rcases h with (((h | h) | h) | h) | h <;> subst h <;> exact ⟨by decide, by decide⟩

theorem search_index_some_of_findAll (text : Str)
    (h : FindAllStringSubmatch indexAccessRe text ≠ []) :
    ∃ start s, search indexAccessRe true text = some (start, s) := by
  cases hs : search indexAccessRe true text with
  | none => exact absurd (allMatches_of_search_none _ _ _ _ _ hs) h
  | some p => exact ⟨p.1, p.2, rfl⟩

/-- Wherever the indexed-accessor pattern matches, the whole-root pattern does. -/
theorem root_matches_of_index_matches (text : Str)
    (h : FindAllStringSubmatch indexAccessRe text ≠ []) :
    MatchString rootValuesRe text = true := by
  obtain ⟨start, s, hs⟩ := search_index_some_of_findAll text h
  obtain ⟨pre, b', hpre, hmem⟩ := search_some_mem _ _ _ _ _ hs
  obtain ⟨ws1, ws2, r, hn1, hw1, hn2, hw2, hshape⟩ := indexAccessRe_shape _ _ hmem
  simp only at hshape
  have hT : text = wholeRootText (pre ++ "index".toList ++ ws1) ['.'] (ws2 ++ r) := by
    rw [hpre, hshape]
    simp [wholeRootText]
  rw [hT]
  apply wholeRoot_matchString _ _ _ (Or.inl rfl)
  · intro c hc
    rw [List.getLast?_append_of_ne_nil _ hn1] at hc
    exact (isWord_of_isReSpace c (hw1 c (List.mem_of_mem_getLast? hc))).1
  · intro c hc
    cases ws2 with
    | nil => exact absurd rfl hn2
    | cons d t =>
      simp only [List.cons_append, List.head?_cons, Option.mem_def, Option.some.injEq] at hc
      subst hc
      exact isWord_of_isReSpace d (hw2 d (by simp))

/-- C19: a participating template text in which the indexed-accessor pattern
matches also matches the whole-root pattern, so `collectUsedValues` returns
wholeRootUsed = true and `CheckChart` returns an empty DefinedNotUsed list for
every values tree. -/
theorem C19_index_implies_whole_root (Separator : Char) (ch : Chart) (cfg : Config) (t : File)
    (ht : t ∈ ch.Templates)
    (hpart : participates Separator cfg.IncludeSubcharts t = true)
    (hidx : FindAllStringSubmatch indexAccessRe t.Data ≠ []) :
    MatchString rootValuesRe t.Data = true ∧
    (collectUsedValues Separator ch cfg.IncludeSubcharts).2 = true ∧
    (CheckChart Separator (some ch) cfg).1.DefinedNotUsed = [] := by
  have hroot := root_matches_of_index_matches t.Data hidx
  have hflag := (usesRootValues_iff Separator ch cfg.IncludeSubcharts).2 ⟨t, ht, hpart, hroot⟩
  refine ⟨hroot, hflag, ?_⟩
  rw [CheckChart_some]
  simp [hflag]

/-- The chart of `TestCheckChart_IndexAccess` with a further leaf `other` that
no template references: DefinedNotUsed is empty all the same. -/
theorem C19_witness :
    ((⟨"templates/deploy.yaml".toList,
        "\x7b\x7b index .Values \"image\" \"tag\" \x7d\x7d".toList⟩ : File) ∈
      [(⟨"templates/deploy.yaml".toList,
        "\x7b\x7b index .Values \"image\" \"tag\" \x7d\x7d".toList⟩ : File)]) ∧
    participates '/' false ⟨"templates/deploy.yaml".toList,
        "\x7b\x7b index .Values \"image\" \"tag\" \x7d\x7d".toList⟩ = true ∧
    FindAllStringSubmatch indexAccessRe
        "\x7b\x7b index .Values \"image\" \"tag\" \x7d\x7d".toList ≠ [] ∧
    "other".toList ∈ collectDefinedValues
        ⟨[("image".toList, .strMap [("tag".toList, .leaf)]), ("other".toList, .leaf)], []⟩ ∧
    (CheckChart '/' (some
        ⟨[("image".toList, .strMap [("tag".toList, .leaf)]), ("other".toList, .leaf)],
         [⟨"templates/deploy.yaml".toList,
           "\x7b\x7b index .Values \"image\" \"tag\" \x7d\x7d".toList⟩]⟩)
        ⟨false⟩).1.DefinedNotUsed = [] :=
  ⟨List.mem_singleton.2 rfl, by decide, by decide, by decide,
   (C19_index_implies_whole_root '/'
      ⟨[("image".toList, .strMap [("tag".toList, .leaf)]), ("other".toList, .leaf)],
       [⟨"templates/deploy.yaml".toList,
         "\x7b\x7b index .Values \"image\" \"tag\" \x7d\x7d".toList⟩]⟩
      ⟨false⟩ ⟨"templates/deploy.yaml".toList,
        "\x7b\x7b index .Values \"image\" \"tag\" \x7d\x7d".toList⟩
      (List.mem_singleton.2 rfl) (by decide) (by decide)).2.2⟩

/-! ## Parent closure of the defined set -/

theorem rdropWhile_append_of_all {p : Char → Bool} (l k : Str) (hk : ∀ c ∈ k, p c = true) :
    (l ++ k).rdropWhile p = l.rdropWhile p := by
  induction k using List.reverseRecOn with
  | nil => simp
  | append_singleton k x ih =>
    rw [← List.append_assoc, List.rdropWhile_concat_pos _ _ _ (hk x (by simp))]
    exact ih (fun c hc => hk c (by simp [hc]))

theorem parentPath_append (y k : Str) (hk : '.' ∉ k) : parentPath (y ++ '.' :: k) = y := by
  unfold parentPath
  have h1 : y ++ '.' :: k = (y ++ ['.']) ++ k := by simp
  rw [h1, rdropWhile_append_of_all _ k (fun c hc => by
    simp only [bne_iff_ne, ne_eq]
    intro h
    exact hk (h ▸ hc)),
    List.rdropWhile_concat_neg _ _ _ (by simp)]
  simp

theorem pathsFrom_subset_child (pre k : Str) (child : Value) (val : List (Str × Value))
    (x : Str) (h : x ∈ pathsFrom (childKey pre k) child) :
    x ∈ pathsFromStr pre ((k, child) :: val) := by
  unfold pathsFromStr
  exact List.mem_append_left _ h

mutual
theorem mem_pathsFrom_parent : ∀ (v : Value) (pre x : Str), keysDotFree v = true →
    x ∈ pathsFrom pre v →
      (x = pre ∧ pre ≠ []) ∨ (pre = [] ∧ '.' ∉ x) ∨
        ∃ y k, x = y ++ '.' :: k ∧ '.' ∉ k ∧ y ∈ pathsFrom pre v
  | .leaf, pre, x, _, hx => by
    unfold pathsFrom at hx
    by_cases hp : pre = []
    · simp [hp] at hx
    · simp only [hp, ne_eq, not_false_eq_true, if_true, List.mem_singleton] at hx
      exact Or.inl ⟨hx, hp⟩
  | .strMap val, pre, x, hv, hx => by
    unfold keysDotFree at hv
    unfold pathsFrom at hx
    rcases List.mem_append.1 hx with hx | hx
    · by_cases hp : pre = []
      · simp [hp] at hx
      · simp only [hp, ne_eq, not_false_eq_true, if_true, List.mem_singleton] at hx
        exact Or.inl ⟨hx, hp⟩
    · rcases mem_pathsFromStr_parent val pre x hv hx with h | h | ⟨y, k, h1, h2, h3⟩
      · exact Or.inl h
      · exact Or.inr (Or.inl h)
      · refine Or.inr (Or.inr ⟨y, k, h1, h2, ?_⟩)
        unfold pathsFrom
        rcases h3 with h3 | h3
        · simp [h3.1, h3.2]
        · exact List.mem_append_right _ h3
  | .anyMap val, pre, x, hv, hx => by
    unfold keysDotFree at hv
    unfold pathsFrom at hx
    rcases List.mem_append.1 hx with hx | hx
    · by_cases hp : pre = []
      · simp [hp] at hx
      · simp only [hp, ne_eq, not_false_eq_true, if_true, List.mem_singleton] at hx
        exact Or.inl ⟨hx, hp⟩
    · rcases mem_pathsFromAny_parent val pre x hv hx with h | h | ⟨y, k, h1, h2, h3⟩
      · exact Or.inl h
      · exact Or.inr (Or.inl h)
      · refine Or.inr (Or.inr ⟨y, k, h1, h2, ?_⟩)
        unfold pathsFrom
        rcases h3 with h3 | h3
        · simp [h3.1, h3.2]
        · exact List.mem_append_right _ h3
theorem mem_pathsFromStr_parent : ∀ (val : List (Str × Value)) (pre x : Str),
    keysDotFreeStr val = true → x ∈ pathsFromStr pre val →
      (x = pre ∧ pre ≠ []) ∨ (pre = [] ∧ '.' ∉ x) ∨
        ∃ y k, x = y ++ '.' :: k ∧ '.' ∉ k ∧
          ((y = pre ∧ pre ≠ []) ∨ y ∈ pathsFromStr pre val)
  | [], pre, x, _, hx => by simp [pathsFromStr] at hx
  | (k, child) :: val, pre, x, hv, hx => by
    unfold keysDotFreeStr at hv
    simp only [Bool.and_eq_true, Bool.not_eq_true', List.contains_eq_any_beq,
      List.any_eq_false, beq_iff_eq] at hv
    obtain ⟨⟨hk, hchild⟩, hval⟩ := hv
    have hk' : '.' ∉ k := fun h => hk '.' h rfl
    unfold pathsFromStr at hx
    rcases List.mem_append.1 hx with hx | hx
    · rcases mem_pathsFrom_parent child (childKey pre k) x hchild hx with h | h | h
      · by_cases hp : pre = []
        · refine Or.inr (Or.inl ⟨hp, ?_⟩)
          rw [h.1]
          simpa [childKey, hp] using hk'
        · refine Or.inr (Or.inr ⟨pre, k, ?_, hk', Or.inl ⟨rfl, hp⟩⟩)
          rw [h.1]
          simp [childKey, hp]
      · by_cases hp : pre = []
        · exact Or.inr (Or.inl ⟨hp, h.2⟩)
        · exact absurd h.1 (childKey_ne_nil pre k hp)
      · obtain ⟨y, k2, h1, h2, h3⟩ := h
        exact Or.inr (Or.inr ⟨y, k2, h1, h2,
          Or.inr (pathsFrom_subset_child pre k child val y h3)⟩)
    · rcases mem_pathsFromStr_parent val pre x hval hx with h | h | ⟨y, k2, h1, h2, h3⟩
      · exact Or.inl h
      · exact Or.inr (Or.inl h)
      · refine Or.inr (Or.inr ⟨y, k2, h1, h2, ?_⟩)
        rcases h3 with h3 | h3
        · exact Or.inl h3
        · right
          unfold pathsFromStr
          exact List.mem_append_right _ h3
theorem mem_pathsFromAny_parent : ∀ (val : List (Key × Value)) (pre x : Str),
    keysDotFreeAny val = true → x ∈ pathsFromAny pre val →
      (x = pre ∧ pre ≠ []) ∨ (pre = [] ∧ '.' ∉ x) ∨
        ∃ y k, x = y ++ '.' :: k ∧ '.' ∉ k ∧
          ((y = pre ∧ pre ≠ []) ∨ y ∈ pathsFromAny pre val)
  | [], pre, x, _, hx => by simp [pathsFromAny] at hx
  | (.str k, child) :: val, pre, x, hv, hx => by
    unfold keysDotFreeAny at hv
    simp only [Bool.and_eq_true, Bool.not_eq_true', List.contains_eq_any_beq,
      List.any_eq_false, beq_iff_eq] at hv
    obtain ⟨⟨hk, hchild⟩, hval⟩ := hv
    have hk' : '.' ∉ k := fun h => hk '.' h rfl
    unfold pathsFromAny at hx
    rcases List.mem_append.1 hx with hx | hx
    · rcases mem_pathsFrom_parent child (childKey pre k) x hchild hx with h | h | h
      · by_cases hp : pre = []
        · refine Or.inr (Or.inl ⟨hp, ?_⟩)
          rw [h.1]
          simpa [childKey, hp] using hk'
        · refine Or.inr (Or.inr ⟨pre, k, ?_, hk', Or.inl ⟨rfl, hp⟩⟩)
          rw [h.1]
          simp [childKey, hp]
      · by_cases hp : pre = []
        · exact Or.inr (Or.inl ⟨hp, h.2⟩)
        · exact absurd h.1 (childKey_ne_nil pre k hp)
      · obtain ⟨y, k2, h1, h2, h3⟩ := h
        refine Or.inr (Or.inr ⟨y, k2, h1, h2, Or.inr ?_⟩)
        unfold pathsFromAny
        exact List.mem_append_left _ h3
    · rcases mem_pathsFromAny_parent val pre x hval hx with h | h | ⟨y, k2, h1, h2, h3⟩
      · exact Or.inl h
      · exact Or.inr (Or.inl h)
      · refine Or.inr (Or.inr ⟨y, k2, h1, h2, ?_⟩)
        rcases h3 with h3 | h3
        · exact Or.inl h3
        · right
          unfold pathsFromAny
          exact List.mem_append_right _ h3
  | (.other _, _) :: val, pre, x, hv, hx => by
    unfold keysDotFreeAny at hv
    unfold pathsFromAny at hx
    rcases mem_pathsFromAny_parent val pre x hv hx with h | h | ⟨y, k2, h1, h2, h3⟩
    · exact Or.inl h
    · exact Or.inr (Or.inl h)
    · refine Or.inr (Or.inr ⟨y, k2, h1, h2, ?_⟩)
      rcases h3 with h3 | h3
      · exact Or.inl h3
      · right
        unfold pathsFromAny
        exact h3
end

/-- C14: for a tree whose keys contain no ".", every path of
`flattenValues("", tree)` that contains a "." has its parent path, the path
without its last "."-delimited segment, in the set as well (a.b.c in the set
implies a.b in the set). -/
theorem C14_parent_closure (tree : Value) (p : Str)
    (hkeys : keysDotFree tree = true) (hp : p ∈ flattenValues [] tree [])
    (hdot : '.' ∈ p) : parentPath p ∈ flattenValues [] tree [] := by
  rw [mem_flattenValues] at hp ⊢
  simp only [List.not_mem_nil, false_or] at hp ⊢
  rcases mem_pathsFrom_parent tree [] p hkeys hp with h | h | ⟨y, k, h1, h2, h3⟩
  · exact absurd rfl h.2
  · exact absurd hdot h.2
  · rw [h1, parentPath_append y k h2]
    exact h3

theorem C14_witness :
    keysDotFree (.strMap [("a".toList, .strMap [("b".toList,
      .strMap [("c".toList, .leaf)])])]) = true ∧
    "a.b.c".toList ∈ flattenValues [] (.strMap [("a".toList, .strMap [("b".toList,
      .strMap [("c".toList, .leaf)])])]) [] ∧
    '.' ∈ "a.b.c".toList ∧ parentPath "a.b.c".toList = "a.b".toList ∧
    parentPath "a.b.c".toList ∈ flattenValues [] (.strMap [("a".toList,
      .strMap [("b".toList, .strMap [("c".toList, .leaf)])])]) [] :=
  ⟨by decide, by decide, by decide, by decide,
   C14_parent_closure (.strMap [("a".toList, .strMap [("b".toList,
      .strMap [("c".toList, .leaf)])])]) "a.b.c".toList (by decide) (by decide) (by decide)⟩

/-! ## The terminal nodes of a tree of string-keyed mappings -/

theorem plainEntries_cons (k : Str) (child : Value) (val : List (Str × Value))
    (h : plainEntries ((k, child) :: val) = true) :
    '.' ∉ k ∧ (∀ e ∈ val, e.1 ≠ k) ∧ plainTree child = true ∧ plainEntries val = true := by
  unfold plainEntries at h
  simp only [Bool.and_eq_true, Bool.not_eq_true', List.contains_eq_any_beq,
    List.any_eq_false, beq_iff_eq] at h
  obtain ⟨⟨⟨h1, h2⟩, h3⟩, h4⟩ := h
  exact ⟨fun hk => h1 '.' hk rfl, fun e he => h2 e he, h3, h4⟩

theorem nodesBelow_of_isTerminal (v : Value) (hp : plainTree v = true)
    (h : isTerminal v = true) : nodesBelow v = [] := by
  cases v with
  | leaf => rfl
  | strMap val =>
    cases val with
    | nil => rfl
    | cons e val => simp [isTerminal] at h
  | anyMap val => simp [plainTree] at hp

theorem exists_child_of_not_isTerminal (v : Value) (hp : plainTree v = true)
    (h : isTerminal v = false) : ∃ k, [k] ∈ nodesBelow v := by
  cases v with
  | leaf => simp [isTerminal] at h
  | strMap val =>
    cases val with
    | nil => simp [isTerminal] at h
    | cons e val =>
      obtain ⟨k, child⟩ := e
      exact ⟨k, by simp [nodesBelow, nodesBelowStr]⟩
  | anyMap val => simp [plainTree] at hp

theorem nodesBelowStr_head (val : List (Str × Value)) (ks : List Str)
    (h : ks ∈ nodesBelowStr val) : ∃ e ∈ val, ks.head? = some e.1 := by
  induction val with
  | nil => simp [nodesBelowStr] at h
  | cons e val ih =>
    obtain ⟨k, child⟩ := e
    unfold nodesBelowStr at h
    rcases List.mem_cons.1 h with h | h
    · exact ⟨(k, child), by simp, by simp [h]⟩
    · rcases List.mem_append.1 h with h | h
      · rcases List.mem_map.1 h with ⟨ks', _, rfl⟩
        exact ⟨(k, child), by simp, by simp⟩
      · obtain ⟨e, he, hh⟩ := ih h
        exact ⟨e, by simp [he], hh⟩

mutual
theorem terminalsBelow_subset : ∀ (v : Value) (ks : List Str), plainTree v = true →
    ks ∈ terminalsBelow v → ks ∈ nodesBelow v
  | .leaf, ks, _, h => by simp [terminalsBelow] at h
  | .strMap val, ks, hp, h => by
    unfold plainTree at hp
    unfold terminalsBelow at h
    unfold nodesBelow
    exact terminalsBelowStr_subset val ks hp h
  | .anyMap val, ks, hp, _ => by simp [plainTree] at hp
theorem terminalsBelowStr_subset : ∀ (val : List (Str × Value)) (ks : List Str),
    plainEntries val = true → ks ∈ terminalsBelowStr val → ks ∈ nodesBelowStr val
  | [], ks, _, h => by simp [terminalsBelowStr] at h
  | (k, child) :: val, ks, hp, h => by
    obtain ⟨_, _, hchild, hval⟩ := plainEntries_cons k child val hp
    unfold terminalsBelowStr at h
    unfold nodesBelowStr
    rcases List.mem_append.1 h with h | h
    · by_cases ht : isTerminal child = true
      · simp only [ht, if_true, List.mem_singleton] at h
        simp [h]
      · simp only [ht, Bool.false_eq_true, if_false, List.mem_map] at h
        obtain ⟨ks', hks', rfl⟩ := h
        have := terminalsBelow_subset child ks' hchild hks'
        simp [this]
    · have := terminalsBelowStr_subset val ks hval h
      simp [this]
end

mutual
theorem node_terminal_or_parent : ∀ (v : Value) (ks : List Str), plainTree v = true →
    ks ∈ nodesBelow v → ks ∈ terminalsBelow v ∨ ∃ k, ks ++ [k] ∈ nodesBelow v
  | .leaf, ks, _, h => by simp [nodesBelow] at h
  | .strMap val, ks, hp, h => by
    unfold plainTree at hp
    unfold nodesBelow at h
    unfold terminalsBelow nodesBelow
    exact nodeStr_terminal_or_parent val ks hp h
  | .anyMap val, ks, hp, _ => by simp [plainTree] at hp
theorem nodeStr_terminal_or_parent : ∀ (val : List (Str × Value)) (ks : List Str),
    plainEntries val = true → ks ∈ nodesBelowStr val →
      ks ∈ terminalsBelowStr val ∨ ∃ k, ks ++ [k] ∈ nodesBelowStr val
  | [], ks, _, h => by simp [nodesBelowStr] at h
  | (k, child) :: val, ks, hp, h => by
    obtain ⟨_, _, hchild, hval⟩ := plainEntries_cons k child val hp
    unfold nodesBelowStr at h
    unfold terminalsBelowStr nodesBelowStr
    rcases List.mem_cons.1 h with h | h
    · subst h
      by_cases ht : isTerminal child = true
      · left
        simp [ht]
      · right
        obtain ⟨k2, hk2⟩ := exists_child_of_not_isTerminal child hchild (by simpa using ht)
        exact ⟨k2, by simp [hk2]⟩
    · rcases List.mem_append.1 h with h | h
      · rcases List.mem_map.1 h with ⟨ks', hks', rfl⟩
        have ht : isTerminal child = false := by
          cases hh : isTerminal child with
          | false => rfl
          | true =>
            rw [nodesBelow_of_isTerminal child hchild hh] at hks'
            cases hks'
        rcases node_terminal_or_parent child ks' hchild hks' with h1 | ⟨k2, h2⟩
        · left
          simp [ht, h1]
        · right
          exact ⟨k2, by simp [h2]⟩
      · rcases nodeStr_terminal_or_parent val ks hval h with h1 | ⟨k2, h2⟩
        · left
          simp [h1]
        · right
          exact ⟨k2, by simp [h2]⟩
end

mutual
theorem terminal_has_no_descendant : ∀ (v : Value) (ks : List Str) (k : Str)
    (rest : List Str), plainTree v = true → ks ∈ terminalsBelow v →
      ks ++ k :: rest ∉ nodesBelow v
  | .leaf, ks, _, _, _, h => by simp [terminalsBelow] at h
  | .strMap val, ks, k, rest, hp, h => by
    unfold plainTree at hp
    unfold terminalsBelow at h
    unfold nodesBelow
    exact terminalStr_has_no_descendant val ks k rest hp h
  | .anyMap val, ks, _, _, hp, _ => by simp [plainTree] at hp
theorem terminalStr_has_no_descendant : ∀ (val : List (Str × Value)) (ks : List Str)
    (k : Str) (rest : List Str), plainEntries val = true → ks ∈ terminalsBelowStr val →
      ks ++ k :: rest ∉ nodesBelowStr val
  | [], ks, _, _, _, h => by simp [terminalsBelowStr] at h
  | (k0, child) :: val, ks, k, rest, hp, h => by
    obtain ⟨_, hdist, hchild, hval⟩ := plainEntries_cons k0 child val hp
    intro hmem
    unfold terminalsBelowStr at h
    unfold nodesBelowStr at hmem
    rcases List.mem_append.1 h with h | h
    · -- the terminal node lies below the first entry
      have hks : ∃ ks', ks = k0 :: ks' ∧
          ((isTerminal child = true ∧ ks' = []) ∨ ks' ∈ terminalsBelow child) := by
        by_cases ht : isTerminal child = true
        · simp only [ht, if_true, List.mem_singleton] at h
          exact ⟨[], h, Or.inl ⟨ht, rfl⟩⟩
        · simp only [ht, Bool.false_eq_true, if_false, List.mem_map] at h
          obtain ⟨ks', hks', rfl⟩ := h
          exact ⟨ks', rfl, Or.inr hks'⟩
      obtain ⟨ks', rfl, hcase⟩ := hks
      rcases List.mem_cons.1 hmem with hmem | hmem
      · simp at hmem
      · rcases List.mem_append.1 hmem with hmem | hmem
        · rcases List.mem_map.1 hmem with ⟨ks2, hks2, heq⟩
          simp only [List.cons_append, List.cons.injEq, true_and] at heq
          subst heq
          rcases hcase with ⟨ht, rfl⟩ | hterm
          · rw [nodesBelow_of_isTerminal child hchild ht] at hks2
            cases hks2
          · exact terminal_has_no_descendant child ks' k rest hchild hterm hks2
        · obtain ⟨e, he, hh⟩ := nodesBelowStr_head val _ hmem
          simp only [List.cons_append, List.head?_cons, Option.some.injEq] at hh
          exact hdist e he hh.symm
    · -- the terminal node lies below a later entry
      obtain ⟨e, he, hh⟩ := nodesBelowStr_head val ks (terminalsBelowStr_subset val ks hval h)
      cases ks with
      | nil => simp at hh
      | cons k1 ks1 =>
        simp only [List.head?_cons, Option.some.injEq] at hh
        rcases List.mem_cons.1 hmem with hmem | hmem
        · simp at hmem
        · rcases List.mem_append.1 hmem with hmem | hmem
          · rcases List.mem_map.1 hmem with ⟨ks2, _, heq⟩
            simp only [List.cons_append, List.cons.injEq] at heq
            exact hdist e he (hh ▸ heq.1.symm)
          · exact terminalStr_has_no_descendant val (k1 :: ks1) k rest hval h hmem
end

mutual
theorem node_keys_dotFree : ∀ (v : Value) (ks : List Str), plainTree v = true →
    ks ∈ nodesBelow v → ∀ k ∈ ks, '.' ∉ k
  | .leaf, ks, _, h => by simp [nodesBelow] at h
  | .strMap val, ks, hp, h => by
    unfold plainTree at hp
    unfold nodesBelow at h
    exact nodeStr_keys_dotFree val ks hp h
  | .anyMap val, ks, hp, _ => by simp [plainTree] at hp
theorem nodeStr_keys_dotFree : ∀ (val : List (Str × Value)) (ks : List Str),
    plainEntries val = true → ks ∈ nodesBelowStr val → ∀ k ∈ ks, '.' ∉ k
  | [], ks, _, h => by simp [nodesBelowStr] at h
  | (k0, child) :: val, ks, hp, h => by
    obtain ⟨hk0, _, hchild, hval⟩ := plainEntries_cons k0 child val hp
    unfold nodesBelowStr at h
    rcases List.mem_cons.1 h with h | h
    · subst h
      intro k hk
      rw [List.mem_singleton] at hk
      rw [hk]
      exact hk0
    · rcases List.mem_append.1 h with h | h
      · rcases List.mem_map.1 h with ⟨ks', hks', rfl⟩
        intro k hk
        rcases List.mem_cons.1 hk with rfl | hk
        · exact hk0
        · exact node_keys_dotFree child ks' hchild hks' k hk
      · exact nodeStr_keys_dotFree val ks hval h
end

mutual
theorem mem_pathsFrom_node : ∀ (v : Value) (pre x : Str), plainTree v = true → pre ≠ [] →
    x ∈ pathsFrom pre v →
      x = pre ∨ ∃ ks ∈ nodesBelow v, x = pre ++ ks.flatMap (fun k => '.' :: k)
  | .leaf, pre, x, _, hp, hx => by
    simp only [pathsFrom, hp, ne_eq, not_false_eq_true, if_true, List.mem_singleton] at hx
    exact Or.inl hx
  | .strMap val, pre, x, hv, hp, hx => by
    unfold plainTree at hv
    simp only [pathsFrom, hp, ne_eq, not_false_eq_true, if_true, List.singleton_append,
      List.mem_cons] at hx
    rcases hx with hx | hx
    · exact Or.inl hx
    · right
      unfold nodesBelow
      exact mem_pathsFromStr_node val pre x hv hp hx
  | .anyMap val, pre, x, hv, _, _ => by simp [plainTree] at hv
theorem mem_pathsFromStr_node : ∀ (val : List (Str × Value)) (pre x : Str),
    plainEntries val = true → pre ≠ [] → x ∈ pathsFromStr pre val →
      ∃ ks ∈ nodesBelowStr val, x = pre ++ ks.flatMap (fun k => '.' :: k)
  | [], pre, x, _, _, hx => by simp [pathsFromStr] at hx
  | (k, child) :: val, pre, x, hv, hp, hx => by
    obtain ⟨_, _, hchild, hval⟩ := plainEntries_cons k child val hv
    unfold pathsFromStr at hx
    unfold nodesBelowStr
    rcases List.mem_append.1 hx with hx | hx
    · rcases mem_pathsFrom_node child (childKey pre k) x hchild (childKey_ne_nil pre k hp) hx
        with h | ⟨ks, hks, h⟩
      · refine ⟨[k], by simp, ?_⟩
        rw [h, childKey_of_ne_nil pre k hp]
        simp
      · refine ⟨k :: ks, by simp [hks], ?_⟩
        rw [h, childKey_of_ne_nil pre k hp]
        simp
    · obtain ⟨ks, hks, h⟩ := mem_pathsFromStr_node val pre x hval hp hx
      exact ⟨ks, by simp [hks], h⟩
end

theorem mem_root_paths (val : List (Str × Value)) (x : Str)
    (hv : plainEntries val = true) (htop : ∀ e ∈ val, e.1 ≠ []) :
    x ∈ pathsFromStr [] val ↔ ∃ ks ∈ nodesBelowStr val, x = Join ks ['.'] := by
  constructor
  · intro hx
    induction val with
    | nil => simp [pathsFromStr] at hx
    | cons e val ih =>
      obtain ⟨k, child⟩ := e
      obtain ⟨_, _, hchild, hval⟩ := plainEntries_cons k child val hv
      have hk : k ≠ [] := htop (k, child) (by simp)
      unfold pathsFromStr at hx
      unfold nodesBelowStr
      rcases List.mem_append.1 hx with hx | hx
      · have hck : childKey [] k = k := by simp [childKey]
        rw [hck] at hx
        rcases mem_pathsFrom_node child k x hchild hk hx with h | ⟨ks, hks, h⟩
        · exact ⟨[k], by simp, by rw [h]; rfl⟩
        · exact ⟨k :: ks, by simp [hks], by rw [h, Join_dot_eq]⟩
      · obtain ⟨ks, hks, h⟩ := ih hval (fun e he => htop e (by simp [he])) hx
        exact ⟨ks, by simp [hks], h⟩
  · rintro ⟨ks, hks, rfl⟩
    apply root_node_mem_pathsFromStr val ks hks
    obtain ⟨e, he, hh⟩ := nodesBelowStr_head val ks hks
    rw [hh]
    intro h
    exact htop e he (Option.some.inj h)

/-! ### Paths of dot-free keys: prefixes of strings and of key sequences -/

theorem dotted_head (ks : List Str) :
    ks.flatMap (fun k => '.' :: k) = [] ∨
      (ks.flatMap (fun k => '.' :: k)).head? = some '.' := by
  cases ks with
  | nil => exact Or.inl rfl
  | cons k ks => exact Or.inr (by simp [List.flatMap_cons])

theorem dotFree_prefix_split (k k' a b : Str) (hk : '.' ∉ k) (hk' : '.' ∉ k')
    (ha : a.head? = some '.') (hb : b = [] ∨ b.head? = some '.')
    (h : (k ++ a) <+: (k' ++ b)) : k = k' ∧ a <+: b := by
  induction k generalizing k' with
  | nil =>
    cases k' with
    | nil => exact ⟨rfl, by simpa using h⟩
    | cons c' cs' =>
      cases a with
      | nil => simp at ha
      | cons x a' =>
        simp only [List.head?_cons, Option.some.injEq] at ha
        subst ha
        simp only [List.nil_append, List.cons_append] at h
        have := (List.cons_prefix_cons.1 h).1
        exact absurd (this ▸ List.mem_cons_self _ _) hk'
  | cons c cs ih =>
    cases k' with
    | nil =>
      rcases hb with rfl | hb
      · simp at h
      · cases b with
        | nil => simp at hb
        | cons y b' =>
          simp only [List.head?_cons, Option.some.injEq] at hb
          subst hb
          simp only [List.nil_append, List.cons_append] at h
          have := (List.cons_prefix_cons.1 h).1
          exact absurd (this ▸ List.mem_cons_self _ _) hk
    | cons c' cs' =>
      simp only [List.cons_append] at h
      obtain ⟨hc, ht⟩ := List.cons_prefix_cons.1 h
      obtain ⟨h1, h2⟩ := ih cs' (fun hm => hk (List.mem_cons_of_mem _ hm))
        (fun hm => hk' (List.mem_cons_of_mem _ hm)) ht
      exact ⟨by rw [hc, h1], h2⟩

theorem dotted_prefix (ks ks' : List Str) (hks : ∀ k ∈ ks, '.' ∉ k)
    (hks' : ∀ k ∈ ks', '.' ∉ k)
    (h : (ks.flatMap (fun k => '.' :: k) ++ ['.']) <+: ks'.flatMap (fun k => '.' :: k)) :
    ∃ k rest, ks' = ks ++ k :: rest := by
  induction ks generalizing ks' with
  | nil =>
    cases ks' with
    | nil => simp at h
    | cons k rest => exact ⟨k, rest, rfl⟩
  | cons k ks ih =>
    cases ks' with
    | nil => simp at h
    | cons k' ks2 =>
      simp only [List.flatMap_cons, List.cons_append, List.append_assoc] at h
      have h2 := (List.cons_prefix_cons.1 h).2
      have ha : (ks.flatMap (fun k => '.' :: k) ++ ['.']).head? = some '.' := by
        rcases dotted_head ks with h0 | h0
        · rw [h0]; rfl
        · cases hd : ks.flatMap (fun k => '.' :: k) with
          | nil => rfl
          | cons x t =>
            rw [hd] at h0
            simpa using h0
      obtain ⟨hkk, hrest⟩ := dotFree_prefix_split k k' _ _ (hks k (by simp))
        (hks' k' (by simp)) ha (dotted_head ks2) h2
      obtain ⟨k3, rest, hr⟩ := ih ks2 (fun x hx => hks x (by simp [hx]))
        (fun x hx => hks' x (by simp [hx])) hrest
      exact ⟨k3, rest, by rw [hkk, hr]; rfl⟩

theorem Join_prefix (ks ks' : List Str) (hne : ks ≠ []) (hne' : ks' ≠ [])
    (hks : ∀ k ∈ ks, '.' ∉ k) (hks' : ∀ k ∈ ks', '.' ∉ k)
    (h : HasPrefix (Join ks' ['.']) (Join ks ['.'] ++ ['.']) = true) :
    ∃ k rest, ks' = ks ++ k :: rest := by
  rw [HasPrefix_iff] at h
  apply dotted_prefix ks ks' hks hks'
  rw [← dot_cons_Join ks hne, ← dot_cons_Join ks' hne', List.cons_append]
  exact List.cons_prefix_cons.2 ⟨rfl, h⟩

theorem Join_append_singleton (ks : List Str) (k : Str) (hne : ks ≠ []) :
    Join (ks ++ [k]) ['.'] = Join ks ['.'] ++ '.' :: k := by
  have h := dot_cons_Join (ks ++ [k]) (by simp)
  rw [List.flatMap_append, ← dot_cons_Join ks hne] at h
  simpa using h

theorem mem_collectDefinedValues (ch : Chart) (x : Str) :
    x ∈ collectDefinedValues ch ↔ x ∈ pathsFromStr [] ch.Values := by
  unfold collectDefinedValues
  rw [mem_flattenValues]
  simp [pathsFrom]

/-- With nothing used, the paths reported for a tree of string-keyed mappings
with dot-free keys and non-empty top-level keys are those of its terminal
nodes. -/
theorem mem_definedButNotUsed_terminals (val : List (Str × Value)) (defined : List Str)
    (hv : plainEntries val = true) (htop : ∀ e ∈ val, e.1 ≠ [])
    (hdef : ∀ x, x ∈ defined ↔ x ∈ pathsFromStr [] val) (x : Str) :
    x ∈ definedButNotUsed defined [] ↔
      ∃ ks ∈ terminalsBelowStr val, x = Join ks ['.'] := by
  rw [mem_definedButNotUsed]
  constructor
  · rintro ⟨hx, hcont, _, _⟩
    obtain ⟨ks, hks, rfl⟩ := (mem_root_paths val x hv htop).1 ((hdef x).1 hx)
    rcases nodeStr_terminal_or_parent val ks hv hks with ht | ⟨k, hk⟩
    · exact ⟨ks, ht, rfl⟩
    · exfalso
      have hne : ks ≠ [] := nodesBelowStr_ne_nil val ks hks
      have hother : Join (ks ++ [k]) ['.'] ∈ defined :=
        (hdef _).2 ((mem_root_paths val _ hv htop).2 ⟨_, hk, rfl⟩)
      have heq := Join_append_singleton ks k hne
      have hneq : Join (ks ++ [k]) ['.'] ≠ Join ks ['.'] := by
        rw [heq]
        intro h
        have := congrArg List.length h
        simp at this
      have hpre : HasPrefix (Join (ks ++ [k]) ['.']) (Join ks ['.'] ++ ['.']) = true := by
        rw [HasPrefix_iff, heq]
        exact ⟨k, by simp⟩
      have := hcont _ hother hneq
      rw [hpre] at this
      cases this
  · rintro ⟨ks, hks, rfl⟩
    have hnode := terminalsBelowStr_subset val ks hv hks
    refine ⟨(hdef _).2 ((mem_root_paths val _ hv htop).2 ⟨ks, hnode, rfl⟩), ?_,
      by simp, by simp⟩
    intro other hother _
    obtain ⟨ks', hks', rfl⟩ := (mem_root_paths val other hv htop).1 ((hdef other).1 hother)
    cases hp : HasPrefix (Join ks' ['.']) (Join ks ['.'] ++ ['.']) with
    | false => rfl
    | true =>
      exfalso
      obtain ⟨k, rest, hr⟩ := Join_prefix ks ks' (nodesBelowStr_ne_nil val ks hnode)
        (nodesBelowStr_ne_nil val ks' hks') (nodeStr_keys_dotFree val ks hv hnode)
        (nodeStr_keys_dotFree val ks' hv hks') hp
      rw [hr] at hks'
      exact terminalStr_has_no_descendant val ks k rest hv hks hks'

/-! ### The terminal paths are pairwise distinct -/

theorem Join_injective (ks ks' : List Str) (hne : ks ≠ []) (hne' : ks' ≠ [])
    (hks : ∀ k ∈ ks, '.' ∉ k) (hks' : ∀ k ∈ ks', '.' ∉ k)
    (h : Join ks ['.'] = Join ks' ['.']) : ks = ks' := by
  have hd : ks.flatMap (fun k => '.' :: k) = ks'.flatMap (fun k => '.' :: k) := by
    rw [← dot_cons_Join ks hne, ← dot_cons_Join ks' hne', h]
  clear h hne hne'
  induction ks generalizing ks' with
  | nil =>
    cases ks' with
    | nil => rfl
    | cons k' r => simp [List.flatMap_cons] at hd
  | cons k ks ih =>
    cases ks' with
    | nil => simp [List.flatMap_cons] at hd
    | cons k' ks2 =>
      simp only [List.flatMap_cons, List.cons_append, List.cons.injEq, true_and] at hd
      have hpre : (k ++ (ks.flatMap (fun k => '.' :: k) ++ ['.'])) <+:
          (k' ++ (ks2.flatMap (fun k => '.' :: k) ++ ['.'])) := by
        rw [← List.append_assoc, ← List.append_assoc, hd]
      have hhead : ∀ l : List Str, (l.flatMap (fun k => '.' :: k) ++ ['.']).head? = some '.' := by
        intro l
        cases l with
        | nil => rfl
        | cons a t => simp [List.flatMap_cons]
      obtain ⟨hk, _⟩ := dotFree_prefix_split k k' _ _ (hks k (by simp)) (hks' k' (by simp))
        (hhead ks) (Or.inr (hhead ks2)) hpre
      subst hk
      have hrest := List.append_cancel_left hd
      rw [ih ks2 (fun x hx => hks x (by simp [hx])) (fun x hx => hks' x (by simp [hx])) hrest]

theorem terminalsBelowStr_head (val : List (Str × Value)) (ks : List Str)
    (hv : plainEntries val = true) (h : ks ∈ terminalsBelowStr val) :
    ∃ e ∈ val, ks.head? = some e.1 :=
  nodesBelowStr_head val ks (terminalsBelowStr_subset val ks hv h)

mutual
theorem terminalsBelow_nodup : ∀ (v : Value), plainTree v = true → (terminalsBelow v).Nodup
  | .leaf, _ => by simp [terminalsBelow]
  | .strMap val, hp => by
    unfold plainTree at hp
    unfold terminalsBelow
    exact terminalsBelowStr_nodup val hp
  | .anyMap val, hp => by simp [plainTree] at hp
theorem terminalsBelowStr_nodup : ∀ (val : List (Str × Value)), plainEntries val = true →
    (terminalsBelowStr val).Nodup
  | [], _ => by simp [terminalsBelowStr]
  | (k, child) :: val, hp => by
    obtain ⟨_, hdist, hchild, hval⟩ := plainEntries_cons k child val hp
    unfold terminalsBelowStr
    rw [List.nodup_append]
    refine ⟨?_, terminalsBelowStr_nodup val hval, ?_⟩
    · by_cases ht : isTerminal child = true
      · simp [ht]
      · simp only [ht, Bool.false_eq_true, if_false]
        exact (terminalsBelow_nodup child hchild).map (fun a b h => by simpa using h)
    · intro ks h1 h2
      obtain ⟨e, he, hh⟩ := terminalsBelowStr_head val ks hval h2
      have hk : ks.head? = some k := by
        by_cases ht : isTerminal child = true
        · simp only [ht, if_true, List.mem_singleton] at h1
          simp [h1]
        · simp only [ht, Bool.false_eq_true, if_false, List.mem_map] at h1
          obtain ⟨ks', _, rfl⟩ := h1
          simp
      rw [hk] at hh
      exact hdist e he (Option.some.inj hh).symm
end

theorem terminal_paths_nodup (val : List (Str × Value)) (hv : plainEntries val = true) :
    ((terminalsBelowStr val).map (fun ks => Join ks ['.'])).Nodup := by
  apply List.Nodup.map_on _ (terminalsBelowStr_nodup val hv)
  intro ks hks ks' hks' h
  have hn := terminalsBelowStr_subset val ks hv hks
  have hn' := terminalsBelowStr_subset val ks' hv hks'
  exact Join_injective ks ks' (nodesBelowStr_ne_nil val ks hn) (nodesBelowStr_ne_nil val ks' hn')
    (nodeStr_keys_dotFree val ks hv hn) (nodeStr_keys_dotFree val ks' hv hn') h

theorem definedButNotUsed_eq_terminals (ch : Chart)
    (hv : plainEntries ch.Values = true) (htop : ∀ e ∈ ch.Values, e.1 ≠ []) :
    definedButNotUsed (collectDefinedValues ch) []
      = sortStrings ((terminalsBelowStr ch.Values).map (fun ks => Join ks ['.'])) := by
  have hnd : (definedButNotUsed (collectDefinedValues ch) []).Nodup :=
    definedButNotUsed_nodup _ _ (flattenValues_nodup _ _ _ List.nodup_nil)
  have hperm : (definedButNotUsed (collectDefinedValues ch) []).Perm
      ((terminalsBelowStr ch.Values).map (fun ks => Join ks ['.'])) := by
    rw [List.perm_ext_iff_of_nodup hnd (terminal_paths_nodup ch.Values hv)]
    intro x
    rw [mem_definedButNotUsed_terminals ch.Values _ hv htop (mem_collectDefinedValues ch)]
    simp only [List.mem_map]
    constructor
    · rintro ⟨ks, hks, rfl⟩
      exact ⟨ks, hks, rfl⟩
    · rintro ⟨ks, hks, rfl⟩
      exact ⟨ks, hks, rfl⟩
  have hsorted : List.Sorted StrLE (definedButNotUsed (collectDefinedValues ch) []) := by
    rw [definedButNotUsed_eq]
    exact sortStrings_sorted _
  exact @List.eq_of_perm_of_sorted _ StrLE ⟨StrLE_antisymm⟩ _ _
    (hperm.trans (sortStrings_perm _).symm) hsorted (sortStrings_sorted _)

/-- C17 as stated fails.  With the keys `a` and `a.b` side by side the scalar
leaf `a` is taken for a container of `a.b` and is not reported; below an empty
top-level key the leaf `a` is reported as `a`, not under its path `.a`.  In
both charts the template references nothing. -/
theorem C17_counterexample :
    (collectUsedValues '/'
        ⟨[("a".toList, .leaf), ("a.b".toList, .leaf)],
         [⟨"templates/empty.yaml".toList, "# no values used".toList⟩]⟩ false = ([], false) ∧
     (CheckChart '/' (some
        ⟨[("a".toList, .leaf), ("a.b".toList, .leaf)],
         [⟨"templates/empty.yaml".toList, "# no values used".toList⟩]⟩)
        ⟨false⟩).1.DefinedNotUsed = ["a.b".toList] ∧
     sortStrings ((terminalsBelowStr [("a".toList, .leaf), ("a.b".toList, .leaf)]).map
        (fun ks => Join ks ['.'])) = ["a".toList, "a.b".toList]) ∧
    ((CheckChart '/' (some
        ⟨[("".toList, .strMap [("a".toList, .leaf)])],
         [⟨"templates/empty.yaml".toList, "# no values used".toList⟩]⟩)
        ⟨false⟩).1.DefinedNotUsed = ["a".toList] ∧
     sortStrings ((terminalsBelowStr [("".toList, .strMap [("a".toList, .leaf)])]).map
        (fun ks => Join ks ['.'])) = [".a".toList]) := by
  decide

/-- C17 (amended): for a tree of string-keyed mappings whose keys contain no
"." and whose top-level keys are not empty, when the participating templates
reference no path and do not use the whole root, DefinedNotUsed is exactly the
sorted list of the paths of the terminal nodes of the tree (scalar leaves and
empty mappings), it contains no container path, and UsedNotDefined is empty;
e.g. the values `foo: bar` with a template using no values give [foo]. -/
theorem C17_unreferenced_terminals_reported (Separator : Char) (ch : Chart) (cfg : Config)
    (hv : plainEntries ch.Values = true) (htop : ∀ e ∈ ch.Values, e.1 ≠ [])
    (hused : collectUsedValues Separator ch cfg.IncludeSubcharts = ([], false)) :
    (CheckChart Separator (some ch) cfg).1.DefinedNotUsed
      = sortStrings ((terminalsBelowStr ch.Values).map (fun ks => Join ks ['.'])) ∧
    (∀ ks ∈ nodesBelowStr ch.Values, ks ∉ terminalsBelowStr ch.Values →
      Join ks ['.'] ∉ (CheckChart Separator (some ch) cfg).1.DefinedNotUsed) ∧
    (CheckChart Separator (some ch) cfg).1.UsedNotDefined = [] ∧
    CheckChart '/' (some ⟨[("foo".toList, .leaf)],
        [⟨"templates/empty.yaml".toList, "# no values used".toList⟩]⟩) ⟨false⟩
      = (⟨["foo".toList], []⟩, none) := by
  have hdnu : (CheckChart Separator (some ch) cfg).1.DefinedNotUsed
      = definedButNotUsed (collectDefinedValues ch) [] := by
    rw [CheckChart_some, hused]
    simp
  have hund : (CheckChart Separator (some ch) cfg).1.UsedNotDefined = [] := by
    rw [CheckChart_some, hused]
    simp [usedButNotDefined]
  refine ⟨?_, ?_, hund, by decide⟩
  · rw [hdnu]
    exact definedButNotUsed_eq_terminals ch hv htop
  · intro ks hks hnt hmem
    rw [hdnu, mem_definedButNotUsed_terminals ch.Values _ hv htop
      (mem_collectDefinedValues ch)] at hmem
    obtain ⟨ks', hks', heq⟩ := hmem
    have hn' := terminalsBelowStr_subset ch.Values ks' hv hks'
    have := Join_injective ks ks' (nodesBelowStr_ne_nil _ ks hks)
      (nodesBelowStr_ne_nil _ ks' hn') (nodeStr_keys_dotFree _ ks hv hks)
      (nodeStr_keys_dotFree _ ks' hv hn') heq
    exact hnt (this ▸ hks')

/-- The chart of `TestCheckChart_DefinedNotUsed`, with a nested mapping and an
empty mapping added. -/
theorem C17_witness :
    plainEntries [("foo".toList, .leaf), ("img".toList, .strMap [("tag".toList, .leaf)]),
      ("opts".toList, .strMap [])] = true ∧
    (∀ e ∈ [("foo".toList, Value.leaf), ("img".toList, .strMap [("tag".toList, .leaf)]),
      ("opts".toList, .strMap [])], e.1 ≠ []) ∧
    collectUsedValues '/'
        ⟨[("foo".toList, .leaf), ("img".toList, .strMap [("tag".toList, .leaf)]),
          ("opts".toList, .strMap [])],
         [⟨"templates/empty.yaml".toList, "# no values used".toList⟩]⟩ false = ([], false) ∧
    (CheckChart '/' (some
        ⟨[("foo".toList, .leaf), ("img".toList, .strMap [("tag".toList, .leaf)]),
          ("opts".toList, .strMap [])],
         [⟨"templates/empty.yaml".toList, "# no values used".toList⟩]⟩)
        ⟨false⟩).1.DefinedNotUsed
      = sortStrings ((terminalsBelowStr
          [("foo".toList, .leaf), ("img".toList, .strMap [("tag".toList, .leaf)]),
           ("opts".toList, .strMap [])]).map (fun ks => Join ks ['.'])) ∧
    sortStrings ((terminalsBelowStr
          [("foo".toList, .leaf), ("img".toList, .strMap [("tag".toList, .leaf)]),
           ("opts".toList, .strMap [])]).map (fun ks => Join ks ['.']))
      = ["foo".toList, "img.tag".toList, "opts".toList] :=
  ⟨by decide, by decide, by decide,
   (C17_unreferenced_terminals_reported '/'
      ⟨[("foo".toList, .leaf), ("img".toList, .strMap [("tag".toList, .leaf)]),
        ("opts".toList, .strMap [])],
       [⟨"templates/empty.yaml".toList, "# no values used".toList⟩]⟩ ⟨false⟩
      (by decide) (by decide) (by decide)).1,
   by decide⟩

/-! ## The whole-root occurrence and the two accessor patterns -/

end Checker
